import Mathlib

/-!
# Blocking-to-non-blocking MPI rewrite passes

A shallow embedding of the two LLVM module passes of the repository,
`ReplaceMPIColl.cpp` and `ReplaceMPIReduce.cpp`, and of the parts of the LLVM
API they call (instruction lists, `Module::getFunction`, `Value::setName`,
`eraseFromParent`).

Conventions of the embedding:

* an instruction object is identified by `Instruction.id` (its address); an
  operand that is the result of an instruction is `Value.inst id`;
* `rand()` is a stream `rnd : Nat → Nat`; the state counts the calls made;
* dereferencing a null pointer is the fault `Fault.nullCallee` /
  `Fault.nullFunction`;
* value names follow `llvm::Value::setName`: "Change the name of the value.
  Choose a new unique name if the provided name is taken." (llvm/IR/Value.h).
  The symbol table of a function (`llvm::ValueSymbolTable`) holds the names
  of its arguments, of its basic blocks (labels) and of its instructions; the
  empty name stands for "unnamed".
-/

namespace MPINonblock

/-! ## Data model -/

/-- An LLVM type; only `Type::getInt32Ty` is built by the passes. -/
inductive Ty where
  | int32
  | other (k : Nat)
  deriving DecidableEq, Repr

/-- An operand (`llvm::Value *`). -/
inductive Value where
  | inst (id : Nat)
  | constInt (ty : Ty) (v : Int)
  | other (k : Nat)
  deriving DecidableEq, Repr

/-- What an instruction does. `call callee args`: `callee` is the name of
`getCalledFunction()`, or `none` when that is null (indirect call). -/
inductive Opcode where
  | call (callee : Option String) (args : List Value)
  | alloca (ty : Ty) (addrSpace : Nat) (arraySize : Value)
  | other (k : Nat)
  deriving DecidableEq, Repr

/-- An instruction: its identity, its value name and its operation. -/
structure Instruction where
  id : Nat
  name : String
  op : Opcode
  deriving DecidableEq, Repr

/-- A basic block: the ordered instruction list. -/
structure BasicBlock where
  insts : List Instruction
  deriving DecidableEq, Repr

/-- A function of the module; a declaration has no blocks. `argsAndLabels` are
the names of the function's arguments and of its basic blocks (labels), which
sit in the function's `ValueSymbolTable` next to the names of its
instructions; `lastUnique` is the counter of that table. -/
structure Function where
  name : String
  argsAndLabels : List String
  blocks : List BasicBlock
  lastUnique : Nat
  deriving DecidableEq, Repr

/-- A module: its functions, declarations included, in order. -/
structure Module where
  funcs : List Function
  deriving DecidableEq, Repr

/-- The process state the passes touch besides the module: the next free
object identity and the number of `rand()` calls made so far. -/
structure Heap where
  nextId : Nat
  randCalls : Nat
  deriving DecidableEq, Repr

/-- Ways a run can go wrong. -/
inductive Fault where
  | nullCallee
  | nullFunction
  | outOfFuel
  deriving DecidableEq, Repr

/-- Outcome of a run: a value, or a fault. -/
inductive Res (α : Type) where
  | ok (a : α)
  | fault (f : Fault)
  deriving DecidableEq, Repr

/-- Sequencing of outcomes. -/
def Res.bind {α β : Type} (r : Res α) (f : α → Res β) : Res β :=
  match r with
  | .ok a => f a
  | .fault e => .fault e

/-! ## `name_id` -/

/-- `name_id(a, b)`: `oss << a << "_" << b`. -/
def name_id (a : String) (b : Int) : String :=
  a ++ "_" ++ toString b

/-! ## The catalog (`is_mpi_collective_call`) -/

/-- The vector `mpi_collective_calls`. -/
def mpi_collective_calls : List String :=
  [ "MPI_Allgather", "MPI_Allgatherv", "MPI_Allreduce", "MPI_Alltoall",
    "MPI_Alltoallv", "MPI_Alltoallw", "MPI_Bcast", "MPI_Exscan", "MPI_Gather",
    "MPI_Gatherv", "MPI_Reduce", "MPI_Reduce_scatter",
    "MPI_Reduce_scatter_block", "MPI_Scan", "MPI_Scatter", "MPI_Scatterv" ]

/-- The map `mpi_coll_block2nonblock`, as its list of entries. -/
def mpi_coll_block2nonblock : List (String × String) :=
  [ ("MPI_Allgather", "MPI_Iallgather"),
    ("MPI_Allgatherv", "MPI_Iallgatherv"),
    ("MPI_Allreduce", "MPI_Iallreduce"),
    ("MPI_Alltoall", "MPI_Ialltoall"),
    ("MPI_Alltoallv", "MPI_Ialltoallv"),
    ("MPI_Alltoallw", "MPI_Ialltoallw"),
    ("MPI_Bcast", "MPI_Ibcast"),
    ("MPI_Exscan", "MPI_Iexscan"),
    ("MPI_Gather", "MPI_Igather"),
    ("MPI_Gatherv", "MPI_Igatherv"),
    ("MPI_Reduce", "MPI_Ireduce"),
    ("MPI_Reduce_scatter", "MPI_Ireduce_scatter"),
    ("MPI_Reduce_scatter_block", "MPI_Ireduce_scatter_block"),
    ("MPI_Scan", "MPI_Iscan"),
    ("MPI_Scatter", "MPI_Iscatter"),
    ("MPI_Scatterv", "MPI_Iscatterv") ]

/-- `std::unordered_map::operator[]`: the mapped string, or the
default-constructed (empty) string for an absent key. -/
def mapIndex (m : List (String × String)) (k : String) : String :=
  match m.lookup k with
  | some v => v
  | none => ""

/-- The loop `for (auto mpi_call: mpi_collective_calls)` of
`is_mpi_collective_call`, run on the callee name. -/
def is_mpi_collective_call_loop (callee : String) : List String → Bool × String × String
  | [] => (false, "", "")
  | mpi_call :: more =>
    if callee = mpi_call then (true, mpi_call, mapIndex mpi_coll_block2nonblock mpi_call)
    else is_mpi_collective_call_loop callee more

/-- `is_mpi_collective_call(CI)`: `CI->getCalledFunction()->getName()` is
compared with every catalog name; a null called function is dereferenced. -/
def is_mpi_collective_call (callee : Option String) : Res (Bool × String × String) :=
  match callee with
  | none => .fault .nullCallee
  | some n => .ok (is_mpi_collective_call_loop n mpi_collective_calls)

/-! ## Value names (`llvm::Value::setName`, `llvm::ValueSymbolTable`) -/

/-- The value names of a run of instructions. -/
def names (l : List Instruction) : List String :=
  l.map (fun i => i.name)

/-- `ValueSymbolTable::makeUniqueName`: append `++LastUnique` to the base name
until the result is not in the table `taken`. The first argument bounds the
number of failed tries; `taken.length` tries cannot all fail on distinct
candidates unless the table is exhausted, so the candidate returned at `0` is
the one the loop stops at. -/
def makeUniqueName (taken : List String) (base : String) : Nat → Nat → String × Nat
  | 0, lastUnique => (base ++ toString (lastUnique + 1), lastUnique + 1)
  | tries + 1, lastUnique =>
    if base ++ toString (lastUnique + 1) ∈ taken then
      makeUniqueName taken base tries (lastUnique + 1)
    else (base ++ toString (lastUnique + 1), lastUnique + 1)

/-- `ValueSymbolTable::createValueName` (and `reinsertValue`): the name itself
when it is free, else a unique name derived from it. Returns the name given
and the new `LastUnique`. -/
def createValueName (taken : List String) (lastUnique : Nat) (name : String) : String × Nat :=
  if name ∈ taken then makeUniqueName taken name taken.length lastUnique
  else (name, lastUnique)

/-- `Value::setName` on an instruction that sits in a function: nothing
happens when the name does not change; otherwise the old name leaves the table
(`others` are the names of all other values) and the new one is created. -/
def setName (others : List String) (lastUnique : Nat) (old new : String) : String × Nat :=
  if old = new then (old, lastUnique) else createValueName others lastUnique new

/-! ## The visitor -/

/-- What distinguishes the two passes: the test made on a call's callee,
yielding the non-blocking function's name on a match, and the name that marks
a call for deletion. -/
structure Pass where
  nonblocking : Option String → Res (Option String)
  toDelete : String

/-- `ReplaceMPIColl.cpp`: `is_mpi_collective_call`, and `"MPI_Coll_To_Delete"`. -/
def ReplaceMPIColl : Pass where
  nonblocking := fun callee =>
    match is_mpi_collective_call callee with
    | .fault e => .fault e
    | .ok (is_mpi_coll, _, nonblock_func_name) =>
      .ok (if is_mpi_coll then some nonblock_func_name else none)
  toDelete := "MPI_Coll_To_Delete"

/-- `ReplaceMPIReduce.cpp`: `CI->getCalledFunction()->getName() == "MPI_Reduce"`,
`"MPI_Ireduce"`, and `"MPI_Reduce_To_Delete"`. -/
def ReplaceMPIReduce : Pass where
  nonblocking := fun callee =>
    match callee with
    | none => .fault .nullCallee
    | some n => .ok (if n = "MPI_Reduce" then some "MPI_Ireduce" else none)
  toDelete := "MPI_Reduce_To_Delete"

/-- The instructions one matched call site ends up with, and the state after. -/
structure Rewritten where
  mpi_req : Instruction
  mpi_status : Instruction
  CI : Instruction
  MPI_I_Call : Instruction
  MPI_Wait_Call : Instruction
  lastUnique : Nat
  heap : Heap
  deriving DecidableEq, Repr

/-- The body of `if (is_mpi_coll)` for the call `CI` with operands `Args`,
standing between `before` and `after` in its block. `outside` are the other
names of the function's symbol table (its arguments and labels and the
instructions of its other blocks), `decls` the function names of the
module: `M.getFunction(n)` is null exactly when `n` is not among them, and
`CallInst::Create` dereferences it. Each name is made in the symbol table as
it is when the instruction is inserted or renamed. -/
def rewriteCall (toDelete : String) (decls : List String) (rnd : Nat → Nat)
    (outside : List String) (before : List Instruction) (CI : Instruction)
    (Args : List Value) (nonblock_func_name : String) (after : List Instruction)
    (lastUnique : Nat) (h : Heap) : Res Rewritten :=
  -- int rand_id = rand();
  let rand_id : Int := Int.ofNat (rnd h.randCalls)
  -- Value *mpi_req_size = ConstantInt::get(Int32Ty, 1);
  let mpi_req_size : Value := .constInt .int32 1
  -- new AllocaInst(Int32Ty, 0, mpi_req_size, name_id("mpi_req", rand_id), CI)
  let n1 := createValueName (outside ++ names (before ++ CI :: after)) lastUnique
    (name_id "mpi_req" rand_id)
  let mpi_req : Instruction := ⟨h.nextId, n1.1, .alloca .int32 0 mpi_req_size⟩
  -- new AllocaInst(Int32Ty, 0, mpi_req_size, name_id("mpi_status", rand_id), CI)
  let n2 := createValueName (outside ++ names (before ++ mpi_req :: CI :: after)) n1.2
    (name_id "mpi_status" rand_id)
  let mpi_status : Instruction := ⟨h.nextId + 1, n2.1, .alloca .int32 0 mpi_req_size⟩
  -- Args.push_back(mpi_req); CallInst::Create(M.getFunction(nonblock_func_name), Args)
  if nonblock_func_name ∈ decls then
    -- MPI_I_Call->setName(name_id(nonblock_func_name, rand_id)); insertAfter(CI)
    let n3 := createValueName
      (outside ++ names (before ++ mpi_req :: mpi_status :: CI :: after)) n2.2
      (name_id nonblock_func_name rand_id)
    let MPI_I_Call : Instruction :=
      ⟨h.nextId + 2, n3.1, .call (some nonblock_func_name) (Args ++ [.inst mpi_req.id])⟩
    -- CallInst::Create(M.getFunction("MPI_Wait"), {mpi_req, mpi_status})
    if "MPI_Wait" ∈ decls then
      -- MPI_Wait_Call->setName(name_id("MPI_Wait", rand_id)); insertAfter(MPI_I_Call)
      let n4 := createValueName
        (outside ++ names (before ++ mpi_req :: mpi_status :: CI :: MPI_I_Call :: after)) n3.2
        (name_id "MPI_Wait" rand_id)
      let MPI_Wait_Call : Instruction :=
        ⟨h.nextId + 3, n4.1, .call (some "MPI_Wait") [.inst mpi_req.id, .inst mpi_status.id]⟩
      -- CI->setName("MPI_Coll_To_Delete")
      let n5 := setName
        (outside ++ names (before ++ mpi_req :: mpi_status :: MPI_I_Call :: MPI_Wait_Call :: after))
        n4.2 CI.name toDelete
      .ok ⟨mpi_req, mpi_status, { CI with name := n5.1 }, MPI_I_Call, MPI_Wait_Call, n5.2,
        ⟨h.nextId + 4, h.randCalls + 1⟩⟩
    else .fault .nullFunction
  else .fault .nullFunction

/-- The position of `for (auto &I: BB)` in a block: the instructions before the
iterator, and those from the iterator on. -/
structure Cursor where
  before : List Instruction
  todo : List Instruction
  lastUnique : Nat
  heap : Heap
  deriving DecidableEq, Repr

/-- One iteration of `for (auto &I: BB)`. On a match the two allocas go before
the call, the two new calls after it, and the iterator moves on to the first
of the new calls. -/
def step (P : Pass) (decls : List String) (rnd : Nat → Nat) (outside : List String)
    (c : Cursor) : Res Cursor :=
  match c.todo with
  | [] => .ok c
  | I :: after =>
    match I.op with
    | .call callee Args =>
      match P.nonblocking callee with
      | .fault e => .fault e
      | .ok none => .ok ⟨c.before ++ [I], after, c.lastUnique, c.heap⟩
      | .ok (some nonblock_func_name) =>
        match rewriteCall P.toDelete decls rnd outside c.before I Args nonblock_func_name after
            c.lastUnique c.heap with
        | .fault e => .fault e
        | .ok r =>
          .ok ⟨c.before ++ [r.mpi_req, r.mpi_status, r.CI],
            r.MPI_I_Call :: r.MPI_Wait_Call :: after, r.lastUnique, r.heap⟩
    | _ => .ok ⟨c.before ++ [I], after, c.lastUnique, c.heap⟩

/-- The loop `for (auto &I: BB)`, bounded by a number of iterations. -/
def scan (P : Pass) (decls : List String) (rnd : Nat → Nat) (outside : List String) :
    Nat → Cursor → Res Cursor
  | 0, c => match c.todo with
    | [] => .ok c
    | _ :: _ => .fault .outOfFuel
  | fuel + 1, c => match c.todo with
    | [] => .ok c
    | _ :: _ => (step P decls rnd outside c).bind (scan P decls rnd outside fuel)

/-- The reverse loop over `BB.rbegin() .. BB.rend()`: `rev` are the
instructions still to inspect, last first; `kept` those already passed. -/
def eraseLoop (toDelete : String) : List Instruction → List Instruction → List Instruction
  | [], kept => kept
  | Inst :: rev, kept =>
    if Inst.name = toDelete then eraseLoop toDelete rev kept
    else eraseLoop toDelete rev (Inst :: kept)

/-- The reverse sweep of a block. -/
def sweep (toDelete : String) (insts : List Instruction) : List Instruction :=
  eraseLoop toDelete insts.reverse []

/-- The body of `for (auto &BB: F)`: forward scan, then reverse sweep. Three
iterations per instruction of the block are allowed for. -/
def visitBlock (P : Pass) (decls : List String) (rnd : Nat → Nat) (outside : List String)
    (BB : BasicBlock) (lastUnique : Nat) (h : Heap) : Res (BasicBlock × Nat × Heap) :=
  match scan P decls rnd outside (3 * BB.insts.length) ⟨[], BB.insts, lastUnique, h⟩ with
  | .fault e => .fault e
  | .ok c => .ok (⟨sweep P.toDelete c.before⟩, c.lastUnique, c.heap)

/-- The instruction names of a run of blocks. -/
def blockNames (bs : List BasicBlock) : List String :=
  bs.flatMap (fun b => names b.insts)

/-- `F.getValueSymbolTable()`: the names of the arguments and basic blocks of
the function and of its instructions. -/
def getValueSymbolTable (F : Function) : List String :=
  F.argsAndLabels ++ blockNames F.blocks

/-- The loop `for (auto &BB: F)`: `done` are the blocks already visited,
`argsAndLabels` the names of the function's arguments and basic blocks. While
a block is visited, the other names of the function's symbol table are
`argsAndLabels` and the instruction names of the other blocks. -/
def visitBlocks (P : Pass) (decls : List String) (rnd : Nat → Nat)
    (argsAndLabels : List String) :
    List BasicBlock → List BasicBlock → Nat → Heap → Res (List BasicBlock × Nat × Heap)
  | done, [], lastUnique, h => .ok (done, lastUnique, h)
  | done, BB :: more, lastUnique, h =>
    match visitBlock P decls rnd (argsAndLabels ++ (blockNames done ++ blockNames more)) BB
        lastUnique h with
    | .fault e => .fault e
    | .ok (BB', lastUnique', h') =>
      visitBlocks P decls rnd argsAndLabels (done ++ [BB']) more lastUnique' h'

/-- The body of `for (auto &F: M)`. -/
def visitFunction (P : Pass) (decls : List String) (rnd : Nat → Nat) (F : Function)
    (h : Heap) : Res (Function × Heap) :=
  match visitBlocks P decls rnd F.argsAndLabels [] F.blocks F.lastUnique h with
  | .fault e => .fault e
  | .ok (blocks, lastUnique, h') => .ok (⟨F.name, F.argsAndLabels, blocks, lastUnique⟩, h')

/-- The loop `for (auto &F: M)`. -/
def visitFunctions (P : Pass) (decls : List String) (rnd : Nat → Nat) :
    List Function → Heap → Res (List Function × Heap)
  | [], h => .ok ([], h)
  | F :: more, h =>
    match visitFunction P decls rnd F h with
    | .fault e => .fault e
    | .ok (F', h') =>
      match visitFunctions P decls rnd more h' with
      | .fault e => .fault e
      | .ok (more', h'') => .ok (F' :: more', h'')

/-- `visitor(M)`: the whole pass. `M.getFunction(n)` succeeds exactly for the
names of the module's functions. -/
def visitor (P : Pass) (rnd : Nat → Nat) (M : Module) (h : Heap) : Res (Module × Heap) :=
  match visitFunctions P (M.funcs.map (fun F => F.name)) rnd M.funcs h with
  | .fault e => .fault e
  | .ok (funcs, h') => .ok (⟨funcs⟩, h')

/-! ## Auxiliary definitions for the proofs -/

/-- The forward scan of the instructions `seg` of a block, told one original
instruction at a time: an unmatched instruction joins `before`; a matched call
joins it together with its two allocas and its two new calls. `tail` are the
instructions of the block after `seg`. -/
def expandSeg (P : Pass) (decls : List String) (rnd : Nat → Nat) (outside : List String) :
    List Instruction → List Instruction → List Instruction → Nat → Heap →
    Res (List Instruction × Nat × Heap)
  | before, [], _, lastUnique, h => .ok (before, lastUnique, h)
  | before, I :: seg, tail, lastUnique, h =>
    match I.op with
    | .call callee Args =>
      match P.nonblocking callee with
      | .fault e => .fault e
      | .ok none => expandSeg P decls rnd outside (before ++ [I]) seg tail lastUnique h
      | .ok (some nonblock_func_name) =>
        match rewriteCall P.toDelete decls rnd outside before I Args nonblock_func_name
            (seg ++ tail) lastUnique h with
        | .fault e => .fault e
        | .ok r =>
          expandSeg P decls rnd outside
            (before ++ [r.mpi_req, r.mpi_status, r.CI, r.MPI_I_Call, r.MPI_Wait_Call])
            seg tail r.lastUnique r.heap
    | _ => expandSeg P decls rnd outside (before ++ [I]) seg tail lastUnique h

/-- The non-blocking name a pass finds for an instruction, if it is a call
that the pass matches. -/
def matched (P : Pass) (I : Instruction) : Option String :=
  match I.op with
  | .call callee _ =>
    match P.nonblocking callee with
    | .ok (some nonblock_func_name) => some nonblock_func_name
    | _ => none
  | _ => none

/-- The operands of a call instruction (none for other instructions). -/
def operands (I : Instruction) : List Value :=
  match I.op with
  | .call _ Args => Args
  | _ => []

/-- An instruction the visitor can process without dereferencing null: a call
has a called function, and if it is matched, the non-blocking function and
`MPI_Wait` are functions of the module. -/
def runsOn (P : Pass) (decls : List String) (I : Instruction) : Bool :=
  match I.op with
  | .call none _ => false
  | .call (some n) _ =>
    match P.nonblocking (some n) with
    | .fault _ => false
    | .ok none => true
    | .ok (some nonblock_func_name) =>
      decide (nonblock_func_name ∈ decls) && decide ("MPI_Wait" ∈ decls)
  | _ => true

/-- Every instruction of the module can be processed (see `runsOn`). -/
def wellDeclared (P : Pass) (M : Module) : Bool :=
  M.funcs.all fun F => F.blocks.all fun BB =>
    BB.insts.all (runsOn P (M.funcs.map (fun F => F.name)))

/-- Reading a string of decimal digits back as a number. -/
def readDigits (cs : List Char) : Nat :=
  cs.foldl (fun a c => 10 * a + (c.toNat - 48)) 0

/-- The last character of the string is a decimal digit. -/
def endsInDigit (s : String) : Prop :=
  ∃ c, s.data.getLast? = some c ∧ c.isDigit = true

/-- The properties of the two passes that the proofs rest on: the test on a
resolved callee never faults, the deletion mark does not end in a digit, and
neither a non-blocking name nor `MPI_Wait` is matched again. -/
structure Pass.Sound (P : Pass) : Prop where
  total : ∀ n, ∃ r, P.nonblocking (some n) = .ok r
  null : P.nonblocking none = .fault .nullCallee
  mark : ¬ endsInDigit P.toDelete
  closed : ∀ callee nb, P.nonblocking callee = .ok (some nb) → P.nonblocking (some nb) = .ok none
  wait : P.nonblocking (some "MPI_Wait") = .ok none

/-- The relation `R F BB BB'` holds between every block `BB` of every function
`F` of `M` and the block `BB'` at the same place in `M'`; the two modules have
the same functions, under the same names and with as many blocks each. -/
def Blockwise (R : Function → BasicBlock → BasicBlock → Prop) (M M' : Module) : Prop :=
  List.Forall₂ (fun F F' => F'.name = F.name ∧ List.Forall₂ (R F) F.blocks F'.blocks)
    M.funcs M'.funcs

/-- The block `BB'` is what the visit of `BB` yields at some point of the run
of the pass `P` over the module with function names `decls`, started from the
state `h`: `outside` are the other names of the symbol table of the function
`F` at that point (its arguments and labels and the instructions of its other
blocks), among which the deletion mark is only if `F` had a value of that name
to begin with. -/
def VisitedAs (P : Pass) (decls : List String) (rnd : Nat → Nat) (h : Heap)
    (F : Function) (BB BB' : BasicBlock) : Prop :=
  ∃ outside lu1 h1 lu2 h2,
    visitBlock P decls rnd outside BB lu1 h1 = .ok (BB', lu2, h2) ∧
    h.nextId ≤ h1.nextId ∧ BB ∈ F.blocks ∧
    (P.toDelete ∈ outside → P.toDelete ∈ getValueSymbolTable F)

/-- The counterpart the catalog documents for a blocking name: `MPI_I`, then
the rest of the name (after `MPI_`) in lower case. -/
def documentedNonblocking (n : String) : String :=
  "MPI_I" ++ String.mk ((n.data.drop 4).map Char.toLower)

/-! ## Example programs -/

/-- A function declaration: a function without blocks. -/
def declaration (n : String) : Function :=
  ⟨n, [], [], 0⟩

/-- Scenario A: `main` is one block holding the single call
`MPI_Reduce(a1, .., a7)`; `MPI_Ireduce` and `MPI_Wait` are declared. -/
def scenarioA : Module :=
  ⟨[declaration "MPI_Reduce", declaration "MPI_Ireduce", declaration "MPI_Wait",
    ⟨"main", [], [⟨[⟨0, "", .call (some "MPI_Reduce")
      [.other 1, .other 2, .other 3, .other 4, .other 5, .other 6, .other 7]⟩]⟩], 0⟩]⟩

/-- Scenario B: `main` is one block holding two calls
`MPI_Bcast(a1, .., a5)`; `MPI_Ibcast` and `MPI_Wait` are declared. -/
def scenarioB : Module :=
  ⟨[declaration "MPI_Bcast", declaration "MPI_Ibcast", declaration "MPI_Wait",
    ⟨"main", [], [⟨[
      ⟨0, "", .call (some "MPI_Bcast") [.other 1, .other 2, .other 3, .other 4, .other 5]⟩,
      ⟨1, "", .call (some "MPI_Bcast") [.other 6, .other 2, .other 3, .other 4, .other 5]⟩]⟩],
      0⟩]⟩

/-- A program whose only call is to a function outside the catalog, the call
being named `MPI_Coll_To_Delete`. -/
def scenarioC : Module :=
  ⟨[declaration "puts",
    ⟨"main", [], [⟨[⟨0, "MPI_Coll_To_Delete", .call (some "puts") [.other 1]⟩]⟩], 0⟩]⟩

/-- The results of `rand()` used in the examples. -/
def exampleRand (k : Nat) : Nat :=
  41 + k

/-- The state the examples start from: objects `0 .. 99` exist, `rand()` has
not been called. -/
def exampleHeap : Heap :=
  ⟨100, 0⟩

/-- The block `main` of Scenario A is left with by either pass (from
`exampleHeap`, with `exampleRand`). -/
def scenarioA_block : BasicBlock :=
  ⟨[⟨100, "mpi_req_41", .alloca .int32 0 (.constInt .int32 1)⟩,
    ⟨101, "mpi_status_41", .alloca .int32 0 (.constInt .int32 1)⟩,
    ⟨102, "MPI_Ireduce_41", .call (some "MPI_Ireduce")
      [.other 1, .other 2, .other 3, .other 4, .other 5, .other 6, .other 7, .inst 100]⟩,
    ⟨103, "MPI_Wait_41", .call (some "MPI_Wait") [.inst 100, .inst 101]⟩]⟩

/-- The block `main` of Scenario B is left with by `ReplaceMPIColl`: the
second `MPI_Bcast` is still there, named `MPI_Coll_To_Delete1`. -/
def scenarioB_block : BasicBlock :=
  ⟨[⟨100, "mpi_req_41", .alloca .int32 0 (.constInt .int32 1)⟩,
    ⟨101, "mpi_status_41", .alloca .int32 0 (.constInt .int32 1)⟩,
    ⟨102, "MPI_Ibcast_41", .call (some "MPI_Ibcast")
      [.other 1, .other 2, .other 3, .other 4, .other 5, .inst 100]⟩,
    ⟨103, "MPI_Wait_41", .call (some "MPI_Wait") [.inst 100, .inst 101]⟩,
    ⟨104, "mpi_req_42", .alloca .int32 0 (.constInt .int32 1)⟩,
    ⟨105, "mpi_status_42", .alloca .int32 0 (.constInt .int32 1)⟩,
    ⟨1, "MPI_Coll_To_Delete1", .call (some "MPI_Bcast")
      [.other 6, .other 2, .other 3, .other 4, .other 5]⟩,
    ⟨106, "MPI_Ibcast_42", .call (some "MPI_Ibcast")
      [.other 6, .other 2, .other 3, .other 4, .other 5, .inst 104]⟩,
    ⟨107, "MPI_Wait_42", .call (some "MPI_Wait") [.inst 104, .inst 105]⟩]⟩

/-- The block a second run of `ReplaceMPIColl` makes of `scenarioB_block`: the
surviving `MPI_Bcast` is matched again and now erased, and a second
`MPI_Ibcast`/`MPI_Wait` pair stands for it. -/
def scenarioB_block_again : BasicBlock :=
  ⟨[⟨100, "mpi_req_41", .alloca .int32 0 (.constInt .int32 1)⟩,
    ⟨101, "mpi_status_41", .alloca .int32 0 (.constInt .int32 1)⟩,
    ⟨102, "MPI_Ibcast_41", .call (some "MPI_Ibcast")
      [.other 1, .other 2, .other 3, .other 4, .other 5, .inst 100]⟩,
    ⟨103, "MPI_Wait_41", .call (some "MPI_Wait") [.inst 100, .inst 101]⟩,
    ⟨104, "mpi_req_42", .alloca .int32 0 (.constInt .int32 1)⟩,
    ⟨105, "mpi_status_42", .alloca .int32 0 (.constInt .int32 1)⟩,
    ⟨108, "mpi_req_43", .alloca .int32 0 (.constInt .int32 1)⟩,
    ⟨109, "mpi_status_43", .alloca .int32 0 (.constInt .int32 1)⟩,
    ⟨110, "MPI_Ibcast_43", .call (some "MPI_Ibcast")
      [.other 6, .other 2, .other 3, .other 4, .other 5, .inst 108]⟩,
    ⟨111, "MPI_Wait_43", .call (some "MPI_Wait") [.inst 108, .inst 109]⟩,
    ⟨106, "MPI_Ibcast_42", .call (some "MPI_Ibcast")
      [.other 6, .other 2, .other 3, .other 4, .other 5, .inst 104]⟩,
    ⟨107, "MPI_Wait_42", .call (some "MPI_Wait") [.inst 104, .inst 105]⟩]⟩

/-- A module of declarations `MPI_X`, `MPI_IX`, `MPI_Wait` and a function
`main` of one block. -/
def mainOnly (blocking nonblock : String) (BB : BasicBlock) (lastUnique : Nat) : Module :=
  ⟨[declaration blocking, declaration nonblock, declaration "MPI_Wait",
    ⟨"main", [], [BB], lastUnique⟩]⟩

/-- No name other than the empty one (which stands for "unnamed") occurs twice
in the table `T`. -/
def UniqueNames (T : List String) : Prop :=
  ∀ s, s ≠ "" → T.count s ≤ 1

/-! ## The loop seen iteration by iteration -/

/-- The state of the loop `for (auto &I: BB)` after `k` iterations, or at its
end if it ends earlier. -/
def scanAt (P : Pass) (decls : List String) (rnd : Nat → Nat) (outside : List String) :
    Nat → Cursor → Res Cursor
  | 0, c => .ok c
  | k + 1, c => match c.todo with
    | [] => .ok c
    | _ :: _ => (step P decls rnd outside c).bind (scanAt P decls rnd outside k)

/-- The number of matched calls among the instructions `l`. -/
def matchedCount (P : Pass) (l : List Instruction) : Nat :=
  (l.filter (fun I => (matched P I).isSome)).length

/-! ## The reference rewrite of the specification -/

/-- The reference of the specification, as a test on a block `original` and a
block `output`: `output` is the concatenation obtained from `original` by
replacing each matched call `c`, in order, by four instructions, an alloca
`req` of one `i32`, an alloca `status` of one `i32`, a call of the non-blocking
function on the operands of `c` followed by `req`, and a call of `MPI_Wait` on
`req` and `status`, and by keeping every other instruction unchanged. -/
def isReferenceRewrite (P : Pass) : List Instruction → List Instruction → Bool
  | [], [] => true
  | [], _ :: _ => false
  | c :: original, output =>
    match matched P c with
    | none =>
      match output with
      | o :: output' => decide (o = c) && isReferenceRewrite P original output'
      | [] => false
    | some nonblocking =>
      match output with
      | req :: status :: I_Call :: Wait_Call :: output' =>
        decide (req.op = .alloca .int32 0 (.constInt .int32 1)) &&
        decide (status.op = .alloca .int32 0 (.constInt .int32 1)) &&
        decide (I_Call.op = .call (some nonblocking) (operands c ++ [.inst req.id])) &&
        decide (Wait_Call.op = .call (some "MPI_Wait") [.inst req.id, .inst status.id]) &&
        isReferenceRewrite P original output'
      | _ => false

/-! ## More example programs -/

/-- Scenario D: `main` is one block holding a call to `MPI_Allreduce`;
`MPI_Wait` is declared, `MPI_Iallreduce` is not. -/
def scenarioD : Module :=
  ⟨[declaration "MPI_Allreduce", declaration "MPI_Wait",
    ⟨"main", [], [⟨[⟨0, "", .call (some "MPI_Allreduce")
      [.other 1, .other 2, .other 3, .other 4, .other 5, .other 6]⟩]⟩], 0⟩]⟩

/-- A program whose function `main` makes one indirect call (a call without
called function), next to the declarations of `MPI_Reduce`, `MPI_Ireduce` and
`MPI_Wait`. -/
def scenarioIndirect : Module :=
  mainOnly "MPI_Reduce" "MPI_Ireduce" ⟨[⟨0, "", .call none [.other 1]⟩]⟩ 0

/-- A program whose function `main` is one block holding two calls to
`MPI_Reduce`. -/
def scenarioTwoReduce : Module :=
  mainOnly "MPI_Reduce" "MPI_Ireduce"
    ⟨[⟨0, "", .call (some "MPI_Reduce")
        [.other 1, .other 2, .other 3, .other 4, .other 5, .other 6, .other 7]⟩,
      ⟨1, "", .call (some "MPI_Reduce")
        [.other 8, .other 2, .other 3, .other 4, .other 5, .other 6, .other 7]⟩]⟩ 0

/-- The block `main` of `scenarioTwoReduce` is left with by a pass: the second
`MPI_Reduce` call is still there, under the name `survivor`. -/
def scenarioTwoReduce_block (survivor : String) : BasicBlock :=
  ⟨[⟨100, "mpi_req_41", .alloca .int32 0 (.constInt .int32 1)⟩,
    ⟨101, "mpi_status_41", .alloca .int32 0 (.constInt .int32 1)⟩,
    ⟨102, "MPI_Ireduce_41", .call (some "MPI_Ireduce")
      [.other 1, .other 2, .other 3, .other 4, .other 5, .other 6, .other 7, .inst 100]⟩,
    ⟨103, "MPI_Wait_41", .call (some "MPI_Wait") [.inst 100, .inst 101]⟩,
    ⟨104, "mpi_req_42", .alloca .int32 0 (.constInt .int32 1)⟩,
    ⟨105, "mpi_status_42", .alloca .int32 0 (.constInt .int32 1)⟩,
    ⟨1, survivor, .call (some "MPI_Reduce")
      [.other 8, .other 2, .other 3, .other 4, .other 5, .other 6, .other 7]⟩,
    ⟨106, "MPI_Ireduce_42", .call (some "MPI_Ireduce")
      [.other 8, .other 2, .other 3, .other 4, .other 5, .other 6, .other 7, .inst 104]⟩,
    ⟨107, "MPI_Wait_42", .call (some "MPI_Wait") [.inst 104, .inst 105]⟩]⟩

/-- The block `main` of Scenario B is left with by `ReplaceMPIColl` when
`rand()` returns 7 at both sites. -/
def scenarioB_block_sameId : BasicBlock :=
  ⟨[⟨100, "mpi_req_7", .alloca .int32 0 (.constInt .int32 1)⟩,
    ⟨101, "mpi_status_7", .alloca .int32 0 (.constInt .int32 1)⟩,
    ⟨102, "MPI_Ibcast_7", .call (some "MPI_Ibcast")
      [.other 1, .other 2, .other 3, .other 4, .other 5, .inst 100]⟩,
    ⟨103, "MPI_Wait_7", .call (some "MPI_Wait") [.inst 100, .inst 101]⟩,
    ⟨104, "mpi_req_71", .alloca .int32 0 (.constInt .int32 1)⟩,
    ⟨105, "mpi_status_72", .alloca .int32 0 (.constInt .int32 1)⟩,
    ⟨1, "MPI_Coll_To_Delete5", .call (some "MPI_Bcast")
      [.other 6, .other 2, .other 3, .other 4, .other 5]⟩,
    ⟨106, "MPI_Ibcast_73", .call (some "MPI_Ibcast")
      [.other 6, .other 2, .other 3, .other 4, .other 5, .inst 104]⟩,
    ⟨107, "MPI_Wait_74", .call (some "MPI_Wait") [.inst 104, .inst 105]⟩]⟩

/-- Scenario A with an argument of `main` named `MPI_Coll_To_Delete`. -/
def scenarioA_markedArgument : Module :=
  ⟨[declaration "MPI_Reduce", declaration "MPI_Ireduce", declaration "MPI_Wait",
    ⟨"main", ["MPI_Coll_To_Delete"], [⟨[⟨0, "", .call (some "MPI_Reduce")
      [.other 1, .other 2, .other 3, .other 4, .other 5, .other 6, .other 7]⟩]⟩], 0⟩]⟩

/-- A program whose function `main` (arguments `argc`, `argv`, blocks `entry`
and `exit`) has a first block with a call to `puts`, a call to `MPI_Bcast` and
another instruction, and a second block without a call to a catalog name: a
call to `puts` that is named `MPI_Iput`, and another instruction. -/
def scenarioMixed : Module :=
  ⟨[declaration "puts", declaration "MPI_Bcast", declaration "MPI_Ibcast",
    declaration "MPI_Wait",
    ⟨"main", ["argc", "argv", "entry", "exit"],
      [⟨[⟨0, "", .call (some "puts") [.other 1]⟩,
          ⟨1, "MPI_Bcast", .call (some "MPI_Bcast")
            [.other 2, .other 3, .other 4, .other 5, .other 6]⟩,
          ⟨2, "sum", .other 7⟩]⟩,
        ⟨[⟨3, "MPI_Iput", .call (some "puts") [.inst 2]⟩, ⟨4, "", .other 8⟩]⟩], 0⟩]⟩

/-- The block, as it is when the iterator stands at `c` (`c.before` followed
by `c.todo`), has every rewritten call in its place: every matched call `T`
standing before the iterator (a call already rewritten and marked) is
immediately preceded by a request alloca and a status alloca, in that order,
and immediately followed by the non-blocking call on the operands of `T` and
the request alloca, and then by the `MPI_Wait` call on the two allocas. -/
def SitesContiguous (P : Pass) (c : Cursor) : Prop :=
  ∀ A T B nb, c.before = A ++ T :: B → matched P T = some nb →
    ∃ A' req status I_Call Wait_Call B',
      A = A' ++ [req, status] ∧ B ++ c.todo = I_Call :: Wait_Call :: B' ∧
      req.op = .alloca .int32 0 (.constInt .int32 1) ∧
      status.op = .alloca .int32 0 (.constInt .int32 1) ∧
      status.id = req.id + 1 ∧
      I_Call.op = .call (some nb) (operands T ++ [.inst req.id]) ∧
      Wait_Call.op = .call (some "MPI_Wait") [.inst req.id, .inst status.id]

/-! ## Decimal rendering -/

theorem digitChar_toNat (k : Nat) (h : k < 10) : (Nat.digitChar k).toNat - 48 = k := by
  interval_cases k <;> rfl

theorem digitChar_isDigit (k : Nat) (h : k < 10) : (Nat.digitChar k).isDigit = true := by
  interval_cases k <;> rfl

theorem toDigitsCore_acc (fuel : Nat) : ∀ (n : Nat) (ds : List Char),
    Nat.toDigitsCore 10 fuel n ds = Nat.toDigitsCore 10 fuel n [] ++ ds := by
  induction fuel with
  | zero => intro n ds; simp [Nat.toDigitsCore]
  | succ f ih =>
    intro n ds
    simp only [Nat.toDigitsCore]
    split
    · simp
    · rw [ih (n / 10) (Nat.digitChar (n % 10) :: ds), ih (n / 10) [Nat.digitChar (n % 10)]]
      simp

theorem readDigits_snoc (l : List Char) (c : Char) :
    readDigits (l ++ [c]) = 10 * readDigits l + (c.toNat - 48) := by
  simp [readDigits, List.foldl_append]

theorem readDigits_toDigitsCore (fuel : Nat) : ∀ n : Nat, n < fuel →
    readDigits (Nat.toDigitsCore 10 fuel n []) = n := by
  induction fuel with
  | zero => intro n h; omega
  | succ f ih =>
    intro n h
    simp only [Nat.toDigitsCore]
    split
    · rename_i h0
      have : n < 10 := by omega
      have e : n % 10 = n := Nat.mod_eq_of_lt this
      simp [readDigits, e, digitChar_toNat n this]
    · rw [toDigitsCore_acc, readDigits_snoc, ih (n / 10) (by omega),
        digitChar_toNat _ (Nat.mod_lt _ (by decide))]
      omega

theorem toString_nat_injective : Function.Injective (toString : Nat → String) := by
  intro a b h
  have h1 : Nat.toDigits 10 a = Nat.toDigits 10 b := by
    have := congrArg String.data h
    simpa [toString, Nat.repr, List.asString] using this
  have ha := readDigits_toDigitsCore (a + 1) a (by omega)
  have hb := readDigits_toDigitsCore (b + 1) b (by omega)
  simp only [Nat.toDigits] at h1
  rw [← ha, ← hb, h1]

theorem toDigitsCore_last (fuel n : Nat) :
    ∃ l, Nat.toDigitsCore 10 (fuel + 1) n [] = l ++ [Nat.digitChar (n % 10)] := by
  simp only [Nat.toDigitsCore]
  split
  · exact ⟨[], rfl⟩
  · exact ⟨_, toDigitsCore_acc _ _ _⟩

theorem endsInDigit_toString (n : Nat) : endsInDigit (toString n) := by
  obtain ⟨l, hl⟩ := toDigitsCore_last n n
  refine ⟨Nat.digitChar (n % 10), ?_, digitChar_isDigit _ (Nat.mod_lt _ (by decide))⟩
  simp [toString, Nat.repr, List.asString, Nat.toDigits, hl]

theorem endsInDigit_append (a b : String) (h : endsInDigit b) : endsInDigit (a ++ b) := by
  obtain ⟨c, hc, hd⟩ := h
  refine ⟨c, ?_, hd⟩
  rw [String.data_append, List.getLast?_append_of_ne_nil, hc]
  intro h0
  simp [h0] at hc

theorem endsInDigit_name_id (a : String) (n : Nat) : endsInDigit (name_id a (Int.ofNat n)) :=
  endsInDigit_append _ _ (endsInDigit_toString n)


theorem endsInDigit_ne_of_not {s t : String} (h : endsInDigit s) (ht : ¬ endsInDigit t) : s ≠ t := by
  rintro rfl
  exact ht h

/-! ## The two passes are sound -/

theorem not_endsInDigit_coll : ¬ endsInDigit "MPI_Coll_To_Delete" := by
  rintro ⟨c, hc, hd⟩
  have h2 : ("MPI_Coll_To_Delete" : String).data.getLast? = some 'e' := by decide
  rw [h2] at hc
  cases hc
  revert hd
  decide

theorem not_endsInDigit_reduce : ¬ endsInDigit "MPI_Reduce_To_Delete" := by
  rintro ⟨c, hc, hd⟩
  have h2 : ("MPI_Reduce_To_Delete" : String).data.getLast? = some 'e' := by decide
  rw [h2] at hc
  cases hc
  revert hd
  decide

/-- The 16 names of the catalog, as the specification lists them. -/
theorem mem_catalog_iff (n : String) : n ∈ mpi_collective_calls ↔
    n = "MPI_Allgather" ∨ n = "MPI_Allgatherv" ∨ n = "MPI_Allreduce" ∨ n = "MPI_Alltoall" ∨
    n = "MPI_Alltoallv" ∨ n = "MPI_Alltoallw" ∨ n = "MPI_Bcast" ∨ n = "MPI_Exscan" ∨
    n = "MPI_Gather" ∨ n = "MPI_Gatherv" ∨ n = "MPI_Reduce" ∨ n = "MPI_Reduce_scatter" ∨
    n = "MPI_Reduce_scatter_block" ∨ n = "MPI_Scan" ∨ n = "MPI_Scatter" ∨ n = "MPI_Scatterv" := by
  simp [mpi_collective_calls]

set_option maxRecDepth 100000 in
theorem loop_hit : ∀ n ∈ mpi_collective_calls,
    is_mpi_collective_call_loop n mpi_collective_calls = (true, n, documentedNonblocking n) := by
  decide

theorem loop_miss (n : String) (h : n ∉ mpi_collective_calls) :
    is_mpi_collective_call_loop n mpi_collective_calls = (false, "", "") := by
  rw [mem_catalog_iff] at h
  simp only [not_or] at h
  simp [is_mpi_collective_call_loop, mpi_collective_calls, h]

theorem coll_nonblocking_some (n : String) :
    ReplaceMPIColl.nonblocking (some n) =
      .ok (if n ∈ mpi_collective_calls then some (documentedNonblocking n) else none) := by
  by_cases h : n ∈ mpi_collective_calls
  · simp [ReplaceMPIColl, is_mpi_collective_call, loop_hit n h, h]
  · simp [ReplaceMPIColl, is_mpi_collective_call, loop_miss n h, h]

set_option maxRecDepth 100000 in
theorem documented_not_in_catalog : ∀ n ∈ mpi_collective_calls,
    documentedNonblocking n ∉ mpi_collective_calls := by
  decide

theorem ReplaceMPIColl_sound : ReplaceMPIColl.Sound where
  total := fun n => ⟨_, coll_nonblocking_some n⟩
  null := rfl
  mark := not_endsInDigit_coll
  closed := by
    intro callee nb h
    cases callee with
    | none => simp [ReplaceMPIColl, is_mpi_collective_call] at h
    | some n =>
      rw [coll_nonblocking_some] at h
      by_cases hn : n ∈ mpi_collective_calls
      · simp only [hn, if_true, Res.ok.injEq, Option.some.injEq] at h
        subst h
        rw [coll_nonblocking_some, if_neg (documented_not_in_catalog n hn)]
      · simp [hn] at h
  wait := by
    rw [coll_nonblocking_some, if_neg (by decide)]

theorem ReplaceMPIReduce_sound : ReplaceMPIReduce.Sound where
  total := fun n => ⟨_, rfl⟩
  null := rfl
  mark := not_endsInDigit_reduce
  closed := by
    intro callee nb h
    cases callee with
    | none => simp [ReplaceMPIReduce] at h
    | some n =>
      simp only [ReplaceMPIReduce] at h
      by_cases hn : n = "MPI_Reduce"
      · simp only [hn, if_true, Res.ok.injEq, Option.some.injEq] at h
        subst h
        simp [ReplaceMPIReduce]
      · simp [hn] at h
  wait := by simp [ReplaceMPIReduce]

/-! ## Value names -/

theorem string_append_left_cancel {a b c : String} (h : a ++ b = a ++ c) : b = c := by
  have := congrArg String.data h
  simp only [String.data_append] at this
  exact String.ext (List.append_cancel_left this)

theorem candidate_injective (base : String) {j k : Nat}
    (h : base ++ toString j = base ++ toString k) : j = k :=
  toString_nat_injective (string_append_left_cancel h)

theorem makeUniqueName_fst (taken : List String) (base : String) (tries : Nat) :
    ∀ lastUnique : Nat, ∃ k : Nat, (makeUniqueName taken base tries lastUnique).1 = base ++ toString k := by
  induction tries with
  | zero => intro lu; exact ⟨lu + 1, rfl⟩
  | succ t ih =>
    intro lu
    simp only [makeUniqueName]
    split
    · exact ih (lu + 1)
    · exact ⟨lu + 1, rfl⟩

open Classical in
theorem makeUniqueName_fresh (taken : List String) (base : String) (tries : Nat) :
    ∀ lastUnique : Nat,
      (taken.toFinset.filter (fun t => ∃ k : Nat, lastUnique < k ∧ t = base ++ toString k)).card ≤ tries →
      (makeUniqueName taken base tries lastUnique).1 ∉ taken := by
  induction tries with
  | zero =>
    intro lu hc
    simp only [makeUniqueName]
    intro hmem
    have : base ++ toString (lu + 1) ∈
        taken.toFinset.filter (fun t => ∃ k : Nat, lu < k ∧ t = base ++ toString k) := by
      simp only [Finset.mem_filter, List.mem_toFinset]
      exact ⟨hmem, lu + 1, by omega, rfl⟩
    have h0 := Finset.card_eq_zero.mp (Nat.le_zero.mp hc)
    rw [h0] at this
    simp at this
  | succ t ih =>
    intro lu hc
    simp only [makeUniqueName]
    split
    · rename_i hmem
      apply ih (lu + 1)
      have hlt : (taken.toFinset.filter (fun t => ∃ k : Nat, lu + 1 < k ∧ t = base ++ toString k)).card <
          (taken.toFinset.filter (fun t => ∃ k : Nat, lu < k ∧ t = base ++ toString k)).card := by
        apply Finset.card_lt_card
        rw [Finset.ssubset_iff_of_subset]
        · refine ⟨base ++ toString (lu + 1), ?_, ?_⟩
          · simp only [Finset.mem_filter, List.mem_toFinset]
            exact ⟨hmem, lu + 1, by omega, rfl⟩
          · simp only [Finset.mem_filter, List.mem_toFinset, not_and, not_exists]
            intro _ k hk he
            have := candidate_injective base he
            omega
        · intro x hx
          simp only [Finset.mem_filter, List.mem_toFinset] at hx ⊢
          obtain ⟨h1, k, hk, he⟩ := hx
          exact ⟨h1, k, by omega, he⟩
      omega
    · rename_i hmem
      exact hmem

theorem createValueName_fresh (taken : List String) (lastUnique : Nat) (name : String) :
    (createValueName taken lastUnique name).1 ∉ taken := by
  classical
  unfold createValueName
  split
  · apply makeUniqueName_fresh
    calc _ ≤ taken.toFinset.card := Finset.card_filter_le _ _
      _ ≤ taken.length := List.toFinset_card_le taken
  · assumption

theorem createValueName_endsInDigit (taken : List String) (lastUnique : Nat) (name : String)
    (h : endsInDigit name) : endsInDigit (createValueName taken lastUnique name).1 := by
  unfold createValueName
  split
  · obtain ⟨k, hk⟩ := makeUniqueName_fst taken name taken.length lastUnique
    rw [hk]
    exact endsInDigit_append _ _ (endsInDigit_toString k)
  · exact h

/-- The name `setName` gives is the requested one exactly when the instruction
already has it or no other value has it. -/
theorem setName_eq_iff (others : List String) (lastUnique : Nat) (old new : String)
    (hnew : ¬ endsInDigit new) :
    (setName others lastUnique old new).1 = new ↔ (old = new ∨ new ∉ others) := by
  unfold setName
  by_cases h : old = new
  · simp [h]
  · simp only [h, if_false, false_or]
    unfold createValueName
    by_cases h2 : new ∈ others
    · simp only [h2, if_true, not_true_eq_false, iff_false]
      obtain ⟨k, hk⟩ := makeUniqueName_fst others new others.length lastUnique
      rw [hk]
      exact endsInDigit_ne_of_not (endsInDigit_append _ _ (endsInDigit_toString k)) hnew
    · simp [h2]

/-! ## One call site -/

theorem rewriteCall_spec {toDelete : String} {decls : List String} {rnd : Nat → Nat}
    {outside : List String} {before : List Instruction} {CI : Instruction} {Args : List Value}
    {nb : String} {after : List Instruction} {lastUnique : Nat} {h : Heap} {r : Rewritten}
    (hr : rewriteCall toDelete decls rnd outside before CI Args nb after lastUnique h = .ok r) :
    (nb ∈ decls ∧ "MPI_Wait" ∈ decls) ∧
    (r.mpi_req.id = h.nextId ∧ r.mpi_req.op = .alloca .int32 0 (.constInt .int32 1)) ∧
    (r.mpi_status.id = h.nextId + 1 ∧ r.mpi_status.op = .alloca .int32 0 (.constInt .int32 1)) ∧
    (r.MPI_I_Call.id = h.nextId + 2 ∧
      r.MPI_I_Call.op = .call (some nb) (Args ++ [.inst h.nextId])) ∧
    (r.MPI_Wait_Call.id = h.nextId + 3 ∧
      r.MPI_Wait_Call.op = .call (some "MPI_Wait") [.inst h.nextId, .inst (h.nextId + 1)]) ∧
    (r.CI.id = CI.id ∧ r.CI.op = CI.op) ∧
    r.heap = ⟨h.nextId + 4, h.randCalls + 1⟩ := by
  unfold rewriteCall at hr
  by_cases h1 : nb ∈ decls
  · by_cases h2 : "MPI_Wait" ∈ decls
    · simp only [h1, h2, if_true, Res.ok.injEq] at hr
      subst hr
      simp [h1, h2]
    · simp [h1, h2] at hr
  · simp [h1] at hr

theorem rewriteCall_ok (toDelete : String) {decls : List String} (rnd : Nat → Nat)
    (outside : List String) (before : List Instruction) (CI : Instruction) (Args : List Value)
    {nb : String} (after : List Instruction) (lastUnique : Nat) (h : Heap)
    (h1 : nb ∈ decls) (h2 : "MPI_Wait" ∈ decls) :
    ∃ r, rewriteCall toDelete decls rnd outside before CI Args nb after lastUnique h = .ok r := by
  unfold rewriteCall
  simp [h1, h2]

/-- None of the four instructions made for a call site is named with the
deletion mark. -/
theorem rewriteCall_names {toDelete : String} {decls : List String} {rnd : Nat → Nat}
    {outside : List String} {before : List Instruction} {CI : Instruction} {Args : List Value}
    {nb : String} {after : List Instruction} {lastUnique : Nat} {h : Heap} {r : Rewritten}
    (hr : rewriteCall toDelete decls rnd outside before CI Args nb after lastUnique h = .ok r) :
    endsInDigit r.mpi_req.name ∧ endsInDigit r.mpi_status.name ∧
    endsInDigit r.MPI_I_Call.name ∧ endsInDigit r.MPI_Wait_Call.name := by
  unfold rewriteCall at hr
  by_cases h1 : nb ∈ decls
  · by_cases h2 : "MPI_Wait" ∈ decls
    · simp only [h1, h2, if_true, Res.ok.injEq] at hr
      subst hr
      exact ⟨createValueName_endsInDigit _ _ _ (endsInDigit_name_id _ _),
        createValueName_endsInDigit _ _ _ (endsInDigit_name_id _ _),
        createValueName_endsInDigit _ _ _ (endsInDigit_name_id _ _),
        createValueName_endsInDigit _ _ _ (endsInDigit_name_id _ _)⟩
    · simp [h1, h2] at hr
  · simp [h1] at hr

/-! ## The forward scan -/

theorem scan_nil (P : Pass) (decls : List String) (rnd : Nat → Nat) (outside : List String)
    (fuel : Nat) (before : List Instruction) (lu : Nat) (h : Heap) :
    scan P decls rnd outside fuel ⟨before, [], lu, h⟩ = .ok ⟨before, [], lu, h⟩ := by
  cases fuel <;> rfl

theorem scan_cons (P : Pass) (decls : List String) (rnd : Nat → Nat) (outside : List String)
    (fuel : Nat) (before : List Instruction) (I : Instruction) (after : List Instruction)
    (lu : Nat) (h : Heap) :
    scan P decls rnd outside (fuel + 1) ⟨before, I :: after, lu, h⟩ =
      (step P decls rnd outside ⟨before, I :: after, lu, h⟩).bind
        (scan P decls rnd outside fuel) := rfl

theorem step_unmatched (P : Pass) (decls : List String) (rnd : Nat → Nat)
    (outside : List String) (before : List Instruction) (I : Instruction)
    (after : List Instruction) (lu : Nat) (h : Heap) (callee : Option String) (Args : List Value)
    (hop : I.op = .call callee Args) (hm : P.nonblocking callee = .ok none) :
    step P decls rnd outside ⟨before, I :: after, lu, h⟩ = .ok ⟨before ++ [I], after, lu, h⟩ := by
  simp [step, hop, hm]

/-- With three iterations per instruction the loop reaches the end of the
block, and its result is the one `expandSeg` tells. -/
theorem scan_eq_expandSeg {P : Pass} (hP : P.Sound) (decls : List String) (rnd : Nat → Nat)
    (outside : List String) :
    ∀ (todo before : List Instruction) (lu : Nat) (h : Heap) (fuel : Nat),
      3 * todo.length ≤ fuel →
      scan P decls rnd outside fuel ⟨before, todo, lu, h⟩ =
        (expandSeg P decls rnd outside before todo [] lu h).bind
          (fun x => .ok ⟨x.1, [], x.2.1, x.2.2⟩) := by
  intro todo
  induction todo with
  | nil =>
    intro before lu h fuel _
    rw [scan_nil]
    rfl
  | cons I after ih =>
    intro before lu h fuel hf
    obtain ⟨f, rfl⟩ : ∃ f, fuel = f + 3 := ⟨fuel - 3, by simp at hf; omega⟩
    have hf' : 3 * after.length ≤ f := by simp at hf; omega
    rw [scan_cons]
    cases hop : I.op with
    | call callee Args =>
      cases hm : P.nonblocking callee with
      | fault e => simp [step, expandSeg, hop, hm, Res.bind]
      | ok o =>
        cases o with
        | none =>
          rw [step_unmatched P decls rnd outside before I after lu h callee Args hop hm]
          simp only [Res.bind, expandSeg, hop, hm]
          exact ih _ _ _ _ (by omega)
        | some nb =>
          cases hr : rewriteCall P.toDelete decls rnd outside before I Args nb after lu h with
          | fault e => simp [step, expandSeg, hop, hm, hr, Res.bind]
          | ok r =>
            obtain ⟨-, -, -, ⟨-, hi⟩, ⟨-, hw⟩, -, -⟩ := rewriteCall_spec hr
            have e1 : step P decls rnd outside ⟨before, I :: after, lu, h⟩ =
                .ok ⟨before ++ [r.mpi_req, r.mpi_status, r.CI],
                  r.MPI_I_Call :: r.MPI_Wait_Call :: after, r.lastUnique, r.heap⟩ := by
              simp [step, hop, hm, hr]
            rw [e1]
            simp only [Res.bind]
            rw [scan_cons, step_unmatched P decls rnd outside _ _ _ _ _ _ _ hi
              (hP.closed callee nb hm)]
            simp only [Res.bind]
            rw [scan_cons, step_unmatched P decls rnd outside _ _ _ _ _ _ _ hw hP.wait]
            simp only [Res.bind]
            rw [ih _ _ _ _ hf']
            simp [expandSeg, hop, hm, hr, Res.bind]
    | alloca ty a s =>
      have e1 : step P decls rnd outside ⟨before, I :: after, lu, h⟩ =
          .ok ⟨before ++ [I], after, lu, h⟩ := by simp [step, hop]
      rw [e1]
      simp only [Res.bind, expandSeg, hop]
      exact ih _ _ _ _ (by omega)
    | other k =>
      have e1 : step P decls rnd outside ⟨before, I :: after, lu, h⟩ =
          .ok ⟨before ++ [I], after, lu, h⟩ := by simp [step, hop]
      rw [e1]
      simp only [Res.bind, expandSeg, hop]
      exact ih _ _ _ _ (by omega)

/-! ## The scan, one original instruction at a time -/

theorem matched_eq_some {P : Pass} {I : Instruction} {nb : String} (h : matched P I = some nb) :
    ∃ callee Args, I.op = .call callee Args ∧ P.nonblocking callee = .ok (some nb) := by
  unfold matched at h
  split at h
  · rename_i callee Args hop
    split at h
    · rename_i nb' hm
      cases h
      exact ⟨callee, Args, hop, hm⟩
    · cases h
  · cases h

theorem matched_of_call {P : Pass} {I : Instruction} {callee : Option String} {Args : List Value}
    {nb : String} (hop : I.op = .call callee Args) (hm : P.nonblocking callee = .ok (some nb)) :
    matched P I = some nb := by
  simp [matched, hop, hm]

theorem operands_of_call {I : Instruction} {callee : Option String} {Args : List Value}
    (hop : I.op = .call callee Args) : operands I = Args := by
  simp [operands, hop]

/-- What a successful scan does at the first instruction of a segment. -/
theorem expandSeg_cons_cases {P : Pass} {decls : List String} {rnd : Nat → Nat}
    {outside : List String} {before : List Instruction} {I : Instruction}
    {seg tail : List Instruction} {lu : Nat} {h : Heap} {res : List Instruction × Nat × Heap}
    (hx : expandSeg P decls rnd outside before (I :: seg) tail lu h = .ok res) :
    (matched P I = none ∧ expandSeg P decls rnd outside (before ++ [I]) seg tail lu h = .ok res) ∨
    (∃ callee Args nb r, I.op = .call callee Args ∧ P.nonblocking callee = .ok (some nb) ∧
      rewriteCall P.toDelete decls rnd outside before I Args nb (seg ++ tail) lu h = .ok r ∧
      expandSeg P decls rnd outside
        (before ++ [r.mpi_req, r.mpi_status, r.CI, r.MPI_I_Call, r.MPI_Wait_Call])
        seg tail r.lastUnique r.heap = .ok res) := by
  cases hop : I.op with
  | call callee Args =>
    cases hm : P.nonblocking callee with
    | fault e => simp [expandSeg, hop, hm] at hx
    | ok o =>
      cases o with
      | none =>
        left
        refine ⟨by simp [matched, hop, hm], ?_⟩
        simpa [expandSeg, hop, hm] using hx
      | some nb =>
        right
        cases hr : rewriteCall P.toDelete decls rnd outside before I Args nb (seg ++ tail) lu h with
        | fault e => simp [expandSeg, hop, hm, hr] at hx
        | ok r =>
          refine ⟨callee, Args, nb, r, rfl, hm, hr, ?_⟩
          simpa [expandSeg, hop, hm, hr] using hx
  | alloca ty a s =>
    left
    refine ⟨by simp [matched, hop], ?_⟩
    simpa [expandSeg, hop] using hx
  | other k =>
    left
    refine ⟨by simp [matched, hop], ?_⟩
    simpa [expandSeg, hop] using hx

theorem expandSeg_unmatched {P : Pass} (hP : P.Sound) (decls : List String) (rnd : Nat → Nat)
    (outside : List String) (before : List Instruction) {I : Instruction}
    (seg tail : List Instruction) (lu : Nat) (h : Heap)
    (hm : matched P I = none) (hr : runsOn P decls I = true) :
    expandSeg P decls rnd outside before (I :: seg) tail lu h =
      expandSeg P decls rnd outside (before ++ [I]) seg tail lu h := by
  cases hop : I.op with
  | call callee Args =>
    cases callee with
    | none => simp [runsOn, hop] at hr
    | some n =>
      obtain ⟨o, ho⟩ := hP.total n
      cases o with
      | none => simp [expandSeg, hop, ho]
      | some nb => simp [matched, hop, ho] at hm
  | alloca ty a s => simp [expandSeg, hop]
  | other k => simp [expandSeg, hop]

theorem expandSeg_append (P : Pass) (decls : List String) (rnd : Nat → Nat)
    (outside : List String) :
    ∀ (xs before ys tail : List Instruction) (lu : Nat) (h : Heap),
      expandSeg P decls rnd outside before (xs ++ ys) tail lu h =
        (expandSeg P decls rnd outside before xs (ys ++ tail) lu h).bind
          (fun x => expandSeg P decls rnd outside x.1 ys tail x.2.1 x.2.2) := by
  intro xs
  induction xs with
  | nil => intro before ys tail lu h; simp [expandSeg, Res.bind]
  | cons I xs ih =>
    intro before ys tail lu h
    show expandSeg P decls rnd outside before (I :: (xs ++ ys)) tail lu h = _
    cases hop : I.op with
    | call callee Args =>
      cases hm : P.nonblocking callee with
      | fault e => simp [expandSeg, hop, hm, Res.bind]
      | ok o =>
        cases o with
        | none =>
          simp only [expandSeg, hop, hm]
          exact ih _ _ _ _ _
        | some nb =>
          simp only [expandSeg, hop, hm, List.append_assoc]
          cases hr : rewriteCall P.toDelete decls rnd outside before I Args nb
              (xs ++ (ys ++ tail)) lu h with
          | fault e => simp [Res.bind]
          | ok r => simp only []; exact ih _ _ _ _ _
    | alloca ty a s =>
      simp only [expandSeg, hop]
      exact ih _ _ _ _ _
    | other k =>
      simp only [expandSeg, hop]
      exact ih _ _ _ _ _

/-- A scan that meets no null pointer succeeds. -/
theorem expandSeg_ok {P : Pass} (hP : P.Sound) (decls : List String) (rnd : Nat → Nat)
    (outside : List String) :
    ∀ (seg before tail : List Instruction) (lu : Nat) (h : Heap),
      (∀ I ∈ seg, runsOn P decls I = true) →
      ∃ res, expandSeg P decls rnd outside before seg tail lu h = .ok res := by
  intro seg
  induction seg with
  | nil => intro before tail lu h _; exact ⟨_, rfl⟩
  | cons I seg ih =>
    intro before tail lu h hall
    have hI := hall I (List.mem_cons_self _ _)
    have hseg : ∀ J ∈ seg, runsOn P decls J = true :=
      fun J hJ => hall J (List.mem_cons_of_mem _ hJ)
    cases hmt : matched P I with
    | none =>
      rw [expandSeg_unmatched hP decls rnd outside before seg tail lu h hmt hI]
      exact ih _ _ _ _ hseg
    | some nb =>
      obtain ⟨callee, Args, hop, hm⟩ := matched_eq_some hmt
      cases callee with
      | none => rw [hP.null] at hm; cases hm
      | some n =>
        have hd : nb ∈ decls ∧ "MPI_Wait" ∈ decls := by
          simpa [runsOn, hop, hm] using hI
        obtain ⟨r, hr⟩ := rewriteCall_ok P.toDelete rnd outside before I Args
          (seg ++ tail) lu h hd.1 hd.2
        simp only [expandSeg, hop, hm, hr]
        exact ih _ _ _ _ hseg


/-! ## The reverse sweep and the visit of a block -/

theorem eraseLoop_eq (toDelete : String) : ∀ (rev kept : List Instruction),
    eraseLoop toDelete rev kept =
      rev.reverse.filter (fun i => decide (i.name ≠ toDelete)) ++ kept := by
  intro rev
  induction rev with
  | nil => intro kept; rfl
  | cons I rev ih =>
    intro kept
    simp only [eraseLoop]
    split
    · rename_i hn
      rw [ih]
      simp [List.filter_append, hn]
    · rename_i hn
      rw [ih]
      simp [List.filter_append, hn]

/-- The sweep keeps, in order, the instructions not named with the mark. -/
theorem sweep_eq_filter (toDelete : String) (l : List Instruction) :
    sweep toDelete l = l.filter (fun i => decide (i.name ≠ toDelete)) := by
  simp [sweep, eraseLoop_eq]

theorem sweep_append (toDelete : String) (l₁ l₂ : List Instruction) :
    sweep toDelete (l₁ ++ l₂) = sweep toDelete l₁ ++ sweep toDelete l₂ := by
  simp [sweep_eq_filter]

theorem sweep_cons_keep (toDelete : String) (I : Instruction) (l : List Instruction)
    (h : I.name ≠ toDelete) : sweep toDelete (I :: l) = I :: sweep toDelete l := by
  simp [sweep_eq_filter, h]

theorem sweep_cons_erase (toDelete : String) (I : Instruction) (l : List Instruction)
    (h : I.name = toDelete) : sweep toDelete (I :: l) = sweep toDelete l := by
  simp [sweep_eq_filter, h]

theorem sweep_id (toDelete : String) (l : List Instruction) (h : toDelete ∉ names l) :
    sweep toDelete l = l := by
  rw [sweep_eq_filter, List.filter_eq_self]
  intro I hI
  simp only [decide_eq_true_eq]
  intro hn
  exact h (by simpa [names] using ⟨I, hI, hn⟩)

theorem not_mem_names_sweep (toDelete : String) (l : List Instruction) :
    toDelete ∉ names (sweep toDelete l) := by
  simp [sweep_eq_filter, names]

theorem visitBlock_eq {P : Pass} (hP : P.Sound) (decls : List String) (rnd : Nat → Nat)
    (outside : List String) (BB : BasicBlock) (lu : Nat) (h : Heap) :
    visitBlock P decls rnd outside BB lu h =
      (expandSeg P decls rnd outside [] BB.insts [] lu h).bind
        (fun x => .ok (⟨sweep P.toDelete x.1⟩, x.2.1, x.2.2)) := by
  unfold visitBlock
  rw [scan_eq_expandSeg hP decls rnd outside BB.insts [] lu h _ (le_refl _)]
  cases expandSeg P decls rnd outside [] BB.insts [] lu h <;> rfl

/-- The result of scanning a segment extends `before`; identities only grow. -/
theorem expandSeg_prefix {P : Pass} (decls : List String) (rnd : Nat → Nat)
    (outside : List String) :
    ∀ (seg before tail : List Instruction) (lu : Nat) (h : Heap)
      (res : List Instruction × Nat × Heap),
      expandSeg P decls rnd outside before seg tail lu h = .ok res →
      ∃ X, res.1 = before ++ X ∧ h.nextId ≤ res.2.2.nextId ∧
        (seg.filter (fun I => decide (matched P I = none))).Sublist X := by
  intro seg
  induction seg with
  | nil =>
    intro before tail lu h res hx
    simp only [expandSeg, Res.ok.injEq] at hx
    subst hx
    exact ⟨[], by simp, le_refl _, by simp⟩
  | cons I seg ih =>
    intro before tail lu h res hx
    rcases expandSeg_cons_cases hx with ⟨hm, hx'⟩ | ⟨callee, Args, nb, r, hop, hm, hr, hx'⟩
    · obtain ⟨X, hX, hle, hsub⟩ := ih _ _ _ _ _ hx'
      refine ⟨I :: X, by simp [hX], hle, ?_⟩
      simp only [List.filter_cons, hm, decide_True, if_true]
      exact hsub.cons₂ _
    · obtain ⟨X, hX, hle, hsub⟩ := ih _ _ _ _ _ hx'
      obtain ⟨-, -, -, -, -, -, hh⟩ := rewriteCall_spec hr
      refine ⟨r.mpi_req :: r.mpi_status :: r.CI :: r.MPI_I_Call :: r.MPI_Wait_Call :: X,
        by simp [hX], ?_, ?_⟩
      · rw [hh] at hle
        simp only at hle
        omega
      · have hmt := matched_of_call hop hm
        simp only [List.filter_cons, hmt]
        simp only [reduceCtorEq, decide_False, Bool.false_eq_true, if_false]
        exact (((((hsub.cons _).cons _).cons _).cons _).cons _)

/-- A segment without matched calls is scanned without any change. -/
theorem expandSeg_all_unmatched {P : Pass} (decls : List String) (rnd : Nat → Nat)
    (outside : List String) :
    ∀ (seg before tail : List Instruction) (lu : Nat) (h : Heap)
      (res : List Instruction × Nat × Heap),
      expandSeg P decls rnd outside before seg tail lu h = .ok res →
      (∀ I ∈ seg, matched P I = none) →
      res = (before ++ seg, lu, h) := by
  intro seg
  induction seg with
  | nil =>
    intro before tail lu h res hx _
    simp only [expandSeg, Res.ok.injEq] at hx
    simp [← hx]
  | cons I seg ih =>
    intro before tail lu h res hx hall
    rcases expandSeg_cons_cases hx with ⟨hm, hx'⟩ | ⟨callee, Args, nb, r, hop, hm, hr, hx'⟩
    · rw [ih _ _ _ _ _ hx' (fun J hJ => hall J (List.mem_cons_of_mem _ hJ))]
      simp
    · have := hall I (List.mem_cons_self _ _)
      rw [matched_of_call hop hm] at this
      cases this

/-- The shape of a visited block around one matched call `CI`. -/
theorem visitBlock_site {P : Pass} (hP : P.Sound) {decls : List String} {rnd : Nat → Nat}
    {outside : List String} {BB BB' : BasicBlock} {lu lu' : Nat} {h h' : Heap}
    (hv : visitBlock P decls rnd outside BB lu h = .ok (BB', lu', h'))
    {pre post : List Instruction} {CI : Instruction} {nb : String}
    (hBB : BB.insts = pre ++ CI :: post) (hm : matched P CI = some nb) :
    ∃ X lu1 h1 r Y,
      expandSeg P decls rnd outside [] pre (CI :: post) lu h = .ok (X, lu1, h1) ∧
      rewriteCall P.toDelete decls rnd outside X CI (operands CI) nb post lu1 h1 = .ok r ∧
      expandSeg P decls rnd outside
        (X ++ [r.mpi_req, r.mpi_status, r.CI, r.MPI_I_Call, r.MPI_Wait_Call]) post []
        r.lastUnique r.heap =
          .ok (X ++ [r.mpi_req, r.mpi_status, r.CI, r.MPI_I_Call, r.MPI_Wait_Call] ++ Y, lu', h') ∧
      BB'.insts = sweep P.toDelete X ++ r.mpi_req :: r.mpi_status ::
        (sweep P.toDelete [r.CI] ++ r.MPI_I_Call :: r.MPI_Wait_Call :: sweep P.toDelete Y) := by
  rw [visitBlock_eq hP, hBB, expandSeg_append] at hv
  simp only [List.append_nil] at hv
  cases h1 : expandSeg P decls rnd outside [] pre (CI :: post) lu h with
  | fault e => simp [h1, Res.bind] at hv
  | ok res1 =>
    obtain ⟨X, lu1, h1'⟩ := res1
    simp only [h1, Res.bind] at hv
    obtain ⟨callee, Args, hop, hnb⟩ := matched_eq_some hm
    cases h2 : expandSeg P decls rnd outside X (CI :: post) [] lu1 h1' with
    | fault e => simp [h2] at hv
    | ok res2 =>
      rcases expandSeg_cons_cases h2 with ⟨hm', -⟩ | ⟨callee', Args', nb', r, hop', hnb', hr, hx'⟩
      · rw [hm] at hm'; cases hm'
      · rw [hop] at hop'
        cases hop'
        rw [hnb] at hnb'
        cases hnb'
        obtain ⟨Y, hY, -, -⟩ := expandSeg_prefix decls rnd outside _ _ _ _ _ _ hx'
        simp only [h2, Res.ok.injEq, Prod.mk.injEq] at hv
        obtain ⟨hb, hl, hh⟩ := hv
        obtain ⟨b2, lu2, h2'⟩ := res2
        simp only at hY hl hh
        subst hY hl hh
        refine ⟨X, lu1, h1', r, Y, rfl, ?_, by simpa using hx', ?_⟩
        · rw [operands_of_call hop]; simpa using hr
        · rw [← hb]
          have hn := rewriteCall_names hr
          simp only [sweep_append]
          rw [sweep_cons_keep _ _ _ (endsInDigit_ne_of_not hn.1 hP.mark),
            sweep_cons_keep _ _ _ (endsInDigit_ne_of_not hn.2.1 hP.mark)]
          simp only [List.append_assoc, List.cons_append, List.nil_append]
          congr 3
          by_cases ht : r.CI.name = P.toDelete
          · rw [sweep_cons_erase _ _ _ ht, sweep_cons_erase _ _ _ ht,
              sweep_cons_keep _ _ _ (endsInDigit_ne_of_not hn.2.2.1 hP.mark),
              sweep_cons_keep _ _ _ (endsInDigit_ne_of_not hn.2.2.2 hP.mark)]
            simp [sweep, eraseLoop]
          · rw [sweep_cons_keep _ _ _ ht, sweep_cons_keep _ _ _ ht,
              sweep_cons_keep _ _ _ (endsInDigit_ne_of_not hn.2.2.1 hP.mark),
              sweep_cons_keep _ _ _ (endsInDigit_ne_of_not hn.2.2.2 hP.mark)]
            simp [sweep, eraseLoop]

/-! ## From the module to its blocks -/

theorem visitBlock_swept {P : Pass} (hP : P.Sound) {decls : List String} {rnd : Nat → Nat}
    {outside : List String} {BB BB' : BasicBlock} {lu lu' : Nat} {h h' : Heap}
    (hv : visitBlock P decls rnd outside BB lu h = .ok (BB', lu', h')) :
    P.toDelete ∉ names BB'.insts ∧ h.nextId ≤ h'.nextId := by
  rw [visitBlock_eq hP] at hv
  cases hx : expandSeg P decls rnd outside [] BB.insts [] lu h with
  | fault e => simp [hx, Res.bind] at hv
  | ok res =>
    obtain ⟨X, -, hle, -⟩ := expandSeg_prefix decls rnd outside _ _ _ _ _ _ hx
    simp only [hx, Res.bind, Res.ok.injEq, Prod.mk.injEq] at hv
    obtain ⟨hb, -, hh⟩ := hv
    subst hb
    rw [← hh]
    exact ⟨not_mem_names_sweep _ _, hle⟩

theorem visitBlock_ok {P : Pass} (hP : P.Sound) (decls : List String) (rnd : Nat → Nat)
    (outside : List String) (BB : BasicBlock) (lu : Nat) (h : Heap)
    (hr : ∀ I ∈ BB.insts, runsOn P decls I = true) :
    ∃ res, visitBlock P decls rnd outside BB lu h = .ok res := by
  rw [visitBlock_eq hP]
  obtain ⟨res, hres⟩ := expandSeg_ok hP decls rnd outside BB.insts [] [] lu h hr
  exact ⟨_, by rw [hres]; rfl⟩

theorem blockNames_append (a b : List BasicBlock) :
    blockNames (a ++ b) = blockNames a ++ blockNames b := by
  simp [blockNames]

theorem blockNames_cons (BB : BasicBlock) (b : List BasicBlock) :
    blockNames (BB :: b) = names BB.insts ++ blockNames b := by
  simp [blockNames]

theorem visitBlocks_ok {P : Pass} (hP : P.Sound) (decls : List String) (rnd : Nat → Nat)
    (al : List String) :
    ∀ (more done : List BasicBlock) (lu : Nat) (h : Heap),
      (∀ BB ∈ more, ∀ I ∈ BB.insts, runsOn P decls I = true) →
      ∃ res, visitBlocks P decls rnd al done more lu h = .ok res := by
  intro more
  induction more with
  | nil => intro done lu h _; exact ⟨_, rfl⟩
  | cons BB more ih =>
    intro done lu h hall
    obtain ⟨⟨BB', lu1, h1⟩, hv⟩ := visitBlock_ok hP decls rnd
      (al ++ (blockNames done ++ blockNames more)) BB lu h (hall BB (List.mem_cons_self _ _))
    simp only [visitBlocks, hv]
    exact ih _ _ _ (fun B hB => hall B (List.mem_cons_of_mem _ hB))

theorem visitBlocks_spec {P : Pass} (hP : P.Sound) (decls : List String) (rnd : Nat → Nat)
    (al : List String) :
    ∀ (more done : List BasicBlock) (lu : Nat) (h : Heap)
      (res : List BasicBlock × Nat × Heap),
      visitBlocks P decls rnd al done more lu h = .ok res →
      P.toDelete ∉ blockNames done →
      ∃ more', res.1 = done ++ more' ∧ h.nextId ≤ res.2.2.nextId ∧
        List.Forall₂ (fun BB BB' => ∃ outside lu1 h1 lu2 h2,
          visitBlock P decls rnd outside BB lu1 h1 = .ok (BB', lu2, h2) ∧
          h.nextId ≤ h1.nextId ∧ BB ∈ more ∧
          (P.toDelete ∈ outside → P.toDelete ∈ al ++ blockNames more)) more more' := by
  intro more
  induction more with
  | nil =>
    intro done lu h res hv _
    simp only [visitBlocks, Res.ok.injEq] at hv
    subst hv
    exact ⟨[], by simp, le_refl _, List.Forall₂.nil⟩
  | cons BB more ih =>
    intro done lu h res hv hd
    cases hb : visitBlock P decls rnd (al ++ (blockNames done ++ blockNames more)) BB lu h with
    | fault e => simp [visitBlocks, hb] at hv
    | ok r1 =>
      obtain ⟨BB', lu1, h1⟩ := r1
      simp only [visitBlocks, hb] at hv
      obtain ⟨hsw, hle⟩ := visitBlock_swept hP hb
      have hd' : P.toDelete ∉ blockNames (done ++ [BB']) := by
        rw [blockNames_append, blockNames_cons]
        intro hmem
        rcases List.mem_append.mp hmem with hm | hm
        · exact hd hm
        · rcases List.mem_append.mp hm with hm | hm
          · exact hsw hm
          · simp [blockNames] at hm
      obtain ⟨more', hres, hle', hall⟩ := ih _ _ _ _ hv hd'
      refine ⟨BB' :: more', by simp [hres], by omega, ?_⟩
      refine List.Forall₂.cons ⟨_, lu, h, lu1, h1, hb, le_refl _, List.mem_cons_self _ _, ?_⟩ ?_
      · intro hmem
        rw [blockNames_cons]
        rcases List.mem_append.mp hmem with hm | hm
        · exact List.mem_append_left _ hm
        · rcases List.mem_append.mp hm with hm | hm
          · exact absurd hm hd
          · exact List.mem_append_right _ (List.mem_append_right _ hm)
      · refine hall.imp ?_
        rintro B B' ⟨o, l1, g1, l2, g2, hvb, hg, hB, ho⟩
        refine ⟨o, l1, g1, l2, g2, hvb, by omega, List.mem_cons_of_mem _ hB, fun hm => ?_⟩
        rw [blockNames_cons]
        rcases List.mem_append.mp (ho hm) with hm | hm
        · exact List.mem_append_left _ hm
        · exact List.mem_append_right _ (List.mem_append_right _ hm)

theorem visitFunctions_ok {P : Pass} (hP : P.Sound) (decls : List String) (rnd : Nat → Nat) :
    ∀ (fs : List Function) (h : Heap),
      (∀ F ∈ fs, ∀ BB ∈ F.blocks, ∀ I ∈ BB.insts, runsOn P decls I = true) →
      ∃ res, visitFunctions P decls rnd fs h = .ok res := by
  intro fs
  induction fs with
  | nil => intro h _; exact ⟨_, rfl⟩
  | cons F fs ih =>
    intro h hall
    obtain ⟨⟨bs, lu, h1⟩, hb⟩ := visitBlocks_ok hP decls rnd F.argsAndLabels F.blocks []
      F.lastUnique h
      (hall F (List.mem_cons_self _ _))
    obtain ⟨⟨fs', h2⟩, hf⟩ := ih h1 (fun G hG => hall G (List.mem_cons_of_mem _ hG))
    exact ⟨(⟨F.name, F.argsAndLabels, bs, lu⟩ :: fs', h2),
      by simp only [visitFunctions, visitFunction, hb, hf]⟩

theorem visitFunctions_spec {P : Pass} (hP : P.Sound) (decls : List String) (rnd : Nat → Nat) :
    ∀ (fs : List Function) (h : Heap) (res : List Function × Heap),
      visitFunctions P decls rnd fs h = .ok res →
      h.nextId ≤ res.2.nextId ∧
      List.Forall₂ (fun F F' => F'.name = F.name ∧
        List.Forall₂ (VisitedAs P decls rnd h F) F.blocks F'.blocks) fs res.1 := by
  intro fs
  induction fs with
  | nil =>
    intro h res hv
    simp only [visitFunctions, Res.ok.injEq] at hv
    subst hv
    exact ⟨le_refl _, List.Forall₂.nil⟩
  | cons F fs ih =>
    intro h res hv
    cases hb : visitBlocks P decls rnd F.argsAndLabels [] F.blocks F.lastUnique h with
    | fault e => simp [visitFunctions, visitFunction, hb] at hv
    | ok r1 =>
      obtain ⟨bs, lu, h1⟩ := r1
      cases hf : visitFunctions P decls rnd fs h1 with
      | fault e => simp [visitFunctions, visitFunction, hb, hf] at hv
      | ok r2 =>
        obtain ⟨fs', h2⟩ := r2
        simp only [visitFunctions, visitFunction, hb, hf, Res.ok.injEq] at hv
        subst hv
        obtain ⟨more', hres, hle, hall⟩ := visitBlocks_spec hP decls rnd _ _ _ _ _ _ hb
          (by simp [blockNames])
        obtain ⟨hle2, hall2⟩ := ih _ _ hf
        simp only [List.nil_append] at hres
        subst hres
        refine ⟨by simp only at hle hle2 ⊢; omega, List.Forall₂.cons ⟨rfl, hall⟩ ?_⟩
        refine hall2.imp ?_
        rintro G G' ⟨hn, hbs⟩
        refine ⟨hn, hbs.imp ?_⟩
        rintro B B' ⟨o, l1, g1, l2, g2, hvb, hg, hB, ho⟩
        exact ⟨o, l1, g1, l2, g2, hvb, by simp only at hle; omega, hB, ho⟩

theorem wellDeclared_iff (P : Pass) (M : Module) :
    wellDeclared P M = true ↔ ∀ F ∈ M.funcs, ∀ BB ∈ F.blocks, ∀ I ∈ BB.insts,
      runsOn P (M.funcs.map (fun F => F.name)) I = true := by
  simp [wellDeclared, List.all_eq_true]

/-- A well-declared module is visited to the end, and every block of the
result is the visit of the block at the same place. -/
theorem visitor_blockwise {P : Pass} (hP : P.Sound) (rnd : Nat → Nat) (M : Module) (h : Heap)
    (hw : wellDeclared P M = true) :
    ∃ M' h', visitor P rnd M h = .ok (M', h') ∧
      Blockwise (VisitedAs P (M.funcs.map (fun F => F.name)) rnd h) M M' := by
  obtain ⟨⟨fs', h'⟩, hf⟩ := visitFunctions_ok hP (M.funcs.map (fun F => F.name)) rnd M.funcs h
    ((wellDeclared_iff P M).mp hw)
  refine ⟨⟨fs'⟩, h', by simp only [visitor, hf], ?_⟩
  exact (visitFunctions_spec hP _ rnd _ _ _ hf).2

/-! ## More on one call site: the shape of the result, and the mark -/

theorem rewriteCall_shape {toDelete : String} {decls : List String} {rnd : Nat → Nat}
    {outside : List String} {before : List Instruction} {CI : Instruction} {Args : List Value}
    {nb : String} {after : List Instruction} {lastUnique : Nat} {h : Heap} {r : Rewritten}
    (hr : rewriteCall toDelete decls rnd outside before CI Args nb after lastUnique h = .ok r) :
    ∃ n1 n2 n3 n4 n5,
      r.mpi_req = ⟨h.nextId, n1, .alloca .int32 0 (.constInt .int32 1)⟩ ∧
      r.mpi_status = ⟨h.nextId + 1, n2, .alloca .int32 0 (.constInt .int32 1)⟩ ∧
      r.MPI_I_Call = ⟨h.nextId + 2, n3, .call (some nb) (Args ++ [.inst h.nextId])⟩ ∧
      r.MPI_Wait_Call =
        ⟨h.nextId + 3, n4, .call (some "MPI_Wait") [.inst h.nextId, .inst (h.nextId + 1)]⟩ ∧
      r.CI = ⟨CI.id, n5, CI.op⟩ ∧
      r.heap = ⟨h.nextId + 4, h.randCalls + 1⟩ := by
  unfold rewriteCall at hr
  by_cases h1 : nb ∈ decls
  · by_cases h2 : "MPI_Wait" ∈ decls
    · simp only [h1, h2, if_true, Res.ok.injEq] at hr
      subst hr
      exact ⟨_, _, _, _, _, rfl, rfl, rfl, rfl, rfl, rfl⟩
    · simp [h1, h2] at hr
  · simp [h1] at hr

theorem rewriteCall_tag_name {toDelete : String} {decls : List String} {rnd : Nat → Nat}
    {outside : List String} {before : List Instruction} {CI : Instruction} {Args : List Value}
    {nb : String} {after : List Instruction} {lastUnique : Nat} {h : Heap} {r : Rewritten}
    (hr : rewriteCall toDelete decls rnd outside before CI Args nb after lastUnique h = .ok r) :
    ∃ lu4, r.CI.name = (setName (outside ++ names (before ++ r.mpi_req :: r.mpi_status ::
      r.MPI_I_Call :: r.MPI_Wait_Call :: after)) lu4 CI.name toDelete).1 := by
  unfold rewriteCall at hr
  by_cases h1 : nb ∈ decls
  · by_cases h2 : "MPI_Wait" ∈ decls
    · simp only [h1, h2, if_true, Res.ok.injEq] at hr
      subst hr
      exact ⟨_, rfl⟩
    · simp [h1, h2] at hr
  · simp [h1] at hr

/-- The original call ends up named with the deletion mark exactly when it
had that name already or no other value of the function has it. -/
theorem rewriteCall_tag {toDelete : String} {decls : List String} {rnd : Nat → Nat}
    {outside : List String} {before : List Instruction} {CI : Instruction} {Args : List Value}
    {nb : String} {after : List Instruction} {lastUnique : Nat} {h : Heap} {r : Rewritten}
    (hmark : ¬ endsInDigit toDelete)
    (hr : rewriteCall toDelete decls rnd outside before CI Args nb after lastUnique h = .ok r) :
    r.CI.name = toDelete ↔
      (CI.name = toDelete ∨ toDelete ∉ outside ++ names before ++ names after) := by
  have hn := rewriteCall_names hr
  have hne : ∀ s, endsInDigit s → toDelete ≠ s :=
    fun s hs => (endsInDigit_ne_of_not hs hmark).symm
  have h1 := hne _ hn.1
  have h2 := hne _ hn.2.1
  have h3 := hne _ hn.2.2.1
  have h4 := hne _ hn.2.2.2
  obtain ⟨lu4, hname⟩ := rewriteCall_tag_name hr
  rw [hname, setName_eq_iff _ _ _ _ hmark]
  simp only [names, List.map_append, List.map_cons, List.mem_append, List.mem_cons, not_or]
  constructor
  · rintro (hc | hc)
    · exact Or.inl hc
    · exact Or.inr ⟨⟨hc.1, hc.2.1⟩, hc.2.2.2.2.2.2⟩
  · rintro (hc | hc)
    · exact Or.inl hc
    · exact Or.inr ⟨hc.1.1, hc.1.2, h1, h2, h3, h4, hc.2⟩

/-! ## Declarations and the module loop -/

theorem visitFunctions_append (P : Pass) (decls : List String) (rnd : Nat → Nat) :
    ∀ (fs gs : List Function) (h : Heap),
      visitFunctions P decls rnd (fs ++ gs) h =
        (visitFunctions P decls rnd fs h).bind (fun x =>
          (visitFunctions P decls rnd gs x.2).bind (fun y => .ok (x.1 ++ y.1, y.2))) := by
  intro fs
  induction fs with
  | nil =>
    intro gs h
    simp only [List.nil_append, visitFunctions, Res.bind]
    cases visitFunctions P decls rnd gs h <;> rfl
  | cons F fs ih =>
    intro gs h
    show visitFunctions P decls rnd (F :: (fs ++ gs)) h = _
    simp only [visitFunctions]
    cases visitFunction P decls rnd F h with
    | fault e => rfl
    | ok r =>
      obtain ⟨F', h1⟩ := r
      simp only []
      rw [ih]
      cases visitFunctions P decls rnd fs h1 with
      | fault e => rfl
      | ok r2 =>
        obtain ⟨a, b⟩ := r2
        simp only [Res.bind]
        cases visitFunctions P decls rnd gs b <;> rfl

/-- Declarations are left as they are. -/
theorem visitFunctions_decls (P : Pass) (decls : List String) (rnd : Nat → Nat) :
    ∀ (ds : List Function) (h : Heap), (∀ F ∈ ds, F.blocks = []) →
      visitFunctions P decls rnd ds h = .ok (ds, h) := by
  intro ds
  induction ds with
  | nil => intro h _; rfl
  | cons F ds ih =>
    intro h hall
    have hF := hall F (List.mem_cons_self _ _)
    have e : visitFunction P decls rnd F h = .ok (F, h) := by
      obtain ⟨n, al, bs, lu⟩ := F
      simp only at hF
      subst hF
      rfl
    simp only [visitFunctions, e, ih h (fun G hG => hall G (List.mem_cons_of_mem _ hG))]

/-! ## A block that is one matched call -/

theorem sweep_site_erased {toDelete : String} {a b c d e : Instruction}
    (ha : a.name ≠ toDelete) (hb : b.name ≠ toDelete) (hc : c.name = toDelete)
    (hd : d.name ≠ toDelete) (he : e.name ≠ toDelete) :
    sweep toDelete [a, b, c, d, e] = [a, b, d, e] := by
  simp [sweep_eq_filter, ha, hb, hc, hd, he]

theorem visitBlock_single {P : Pass} (hP : P.Sound) {decls : List String} (rnd : Nat → Nat)
    (outside : List String) (id : Nat) (nm : String) {callee : Option String}
    (args : List Value) {nb : String} (lu : Nat) (h : Heap)
    (hm : P.nonblocking callee = .ok (some nb)) (h1 : nb ∈ decls) (h2 : "MPI_Wait" ∈ decls)
    (ho : P.toDelete ∉ outside) :
    ∃ n1 n2 n3 n4 lu',
      visitBlock P decls rnd outside ⟨[⟨id, nm, .call callee args⟩]⟩ lu h =
        .ok (⟨[⟨h.nextId, n1, .alloca .int32 0 (.constInt .int32 1)⟩,
            ⟨h.nextId + 1, n2, .alloca .int32 0 (.constInt .int32 1)⟩,
            ⟨h.nextId + 2, n3, .call (some nb) (args ++ [.inst h.nextId])⟩,
            ⟨h.nextId + 3, n4, .call (some "MPI_Wait") [.inst h.nextId, .inst (h.nextId + 1)]⟩]⟩,
          lu', ⟨h.nextId + 4, h.randCalls + 1⟩) := by
  obtain ⟨r, hr⟩ := rewriteCall_ok P.toDelete rnd outside []
    ⟨id, nm, .call callee args⟩ args [] lu h h1 h2
  have hn := rewriteCall_names hr
  have ht : r.CI.name = P.toDelete :=
    (rewriteCall_tag hP.mark hr).mpr (Or.inr (by simpa [names] using ho))
  obtain ⟨n1, n2, n3, n4, n5, e1, e2, e3, e4, -, e6⟩ := rewriteCall_shape hr
  refine ⟨n1, n2, n3, n4, r.lastUnique, ?_⟩
  rw [visitBlock_eq hP]
  have hx : expandSeg P decls rnd outside [] [⟨id, nm, .call callee args⟩] [] lu h =
      .ok ([r.mpi_req, r.mpi_status, r.CI, r.MPI_I_Call, r.MPI_Wait_Call], r.lastUnique, r.heap) := by
    simp [expandSeg, hm, hr]
  rw [hx]
  simp only [Res.bind]
  rw [sweep_site_erased (endsInDigit_ne_of_not hn.1 hP.mark)
    (endsInDigit_ne_of_not hn.2.1 hP.mark) ht (endsInDigit_ne_of_not hn.2.2.1 hP.mark)
    (endsInDigit_ne_of_not hn.2.2.2 hP.mark), e1, e2, e3, e4, e6]

/-! ## The shape of a visited block around a matched call -/

theorem sweep_singleton (toDelete : String) (I : Instruction) :
    sweep toDelete [I] = [] ∨ sweep toDelete [I] = [I] := by
  by_cases h : I.name = toDelete
  · left; simp [sweep_eq_filter, h]
  · right; simp [sweep_eq_filter, h]

theorem visitBlock_site_shape {P : Pass} (hP : P.Sound) {decls : List String}
    {rnd : Nat → Nat} {outside : List String} {BB BB' : BasicBlock} {lu lu' : Nat}
    {h h' : Heap} (hv : visitBlock P decls rnd outside BB lu h = .ok (BB', lu', h'))
    {pre post : List Instruction} {CI : Instruction} {nb : String}
    (hBB : BB.insts = pre ++ CI :: post) (hm : matched P CI = some nb) :
    ∃ pre' k n1 n2 n3 n4 tag post',
      BB'.insts = pre' ++
        ⟨k, n1, .alloca .int32 0 (.constInt .int32 1)⟩ ::
        ⟨k + 1, n2, .alloca .int32 0 (.constInt .int32 1)⟩ ::
        (tag ++ ⟨k + 2, n3, .call (some nb) (operands CI ++ [.inst k])⟩ ::
          ⟨k + 3, n4, .call (some "MPI_Wait") [.inst k, .inst (k + 1)]⟩ :: post') ∧
      (tag = [] ∨ ∃ n, tag = [⟨CI.id, n, CI.op⟩]) ∧ h.nextId ≤ k := by
  obtain ⟨X, lu1, h1, r, Y, hx, hr, -, hb⟩ := visitBlock_site hP hv hBB hm
  obtain ⟨n1, n2, n3, n4, n5, e1, e2, e3, e4, e5, -⟩ := rewriteCall_shape hr
  obtain ⟨-, -, hle, -⟩ := expandSeg_prefix decls rnd outside _ _ _ _ _ _ hx
  refine ⟨sweep P.toDelete X, h1.nextId, n1, n2, n3, n4, sweep P.toDelete [r.CI],
    sweep P.toDelete Y, ?_, ?_, hle⟩
  · rw [hb, e1, e2, e3, e4]
  · rcases sweep_singleton P.toDelete r.CI with hs | hs
    · exact Or.inl hs
    · exact Or.inr ⟨n5, by rw [hs, e5]⟩

/-! ## Unmatched instructions, and the first matched call of a block -/

theorem visitBlock_keeps {P : Pass} (hP : P.Sound) {decls : List String} {rnd : Nat → Nat}
    {outside : List String} {BB BB' : BasicBlock} {lu lu' : Nat} {h h' : Heap}
    (hv : visitBlock P decls rnd outside BB lu h = .ok (BB', lu', h')) :
    (BB.insts.filter
      (fun I => decide (matched P I = none) && decide (I.name ≠ P.toDelete))).Sublist
        BB'.insts := by
  rw [visitBlock_eq hP] at hv
  cases hx : expandSeg P decls rnd outside [] BB.insts [] lu h with
  | fault e => simp [hx, Res.bind] at hv
  | ok res =>
    obtain ⟨X, hX, -, hsub⟩ := expandSeg_prefix decls rnd outside _ _ _ _ _ _ hx
    simp only [hx, Res.bind, Res.ok.injEq, Prod.mk.injEq] at hv
    obtain ⟨hb, -, -⟩ := hv
    subst hb
    simp only [List.nil_append] at hX
    rw [hX, sweep_eq_filter]
    have := hsub.filter (fun i => decide (i.name ≠ P.toDelete))
    rw [List.filter_filter] at this
    simpa only [Bool.and_comm] using this

theorem visitBlock_untouched {P : Pass} (hP : P.Sound) {decls : List String}
    {rnd : Nat → Nat} {outside : List String} {BB BB' : BasicBlock} {lu lu' : Nat}
    {h h' : Heap} (hv : visitBlock P decls rnd outside BB lu h = .ok (BB', lu', h'))
    (hall : ∀ I ∈ BB.insts, matched P I = none ∧ I.name ≠ P.toDelete) :
    BB' = BB ∧ lu' = lu ∧ h' = h := by
  rw [visitBlock_eq hP] at hv
  cases hx : expandSeg P decls rnd outside [] BB.insts [] lu h with
  | fault e => simp [hx, Res.bind] at hv
  | ok res =>
    have he := expandSeg_all_unmatched decls rnd outside _ _ _ _ _ _ hx
      (fun I hI => (hall I hI).1)
    subst he
    simp only [hx, Res.bind, Res.ok.injEq, Prod.mk.injEq, List.nil_append] at hv
    obtain ⟨hb, hl, hh⟩ := hv
    refine ⟨?_, hl.symm, hh.symm⟩
    rw [← hb, sweep_id]
    intro hmem
    simp only [names, List.mem_map] at hmem
    obtain ⟨I, hI, hn⟩ := hmem
    exact (hall I hI).2 hn

/-- The first matched call of a block, in a function where no value is named
with the deletion mark: the instructions before it stay, the call is replaced
by its two allocas and its two new calls. -/
theorem visitBlock_first_site {P : Pass} (hP : P.Sound) {decls : List String}
    {rnd : Nat → Nat} {outside : List String} {BB BB' : BasicBlock} {lu lu' : Nat}
    {h h' : Heap} (hv : visitBlock P decls rnd outside BB lu h = .ok (BB', lu', h'))
    {pre post : List Instruction} {CI : Instruction} {nb : String}
    (hBB : BB.insts = pre ++ CI :: post) (hm : matched P CI = some nb)
    (hpre : ∀ I ∈ pre, matched P I = none)
    (ho : P.toDelete ∉ outside) (hb : P.toDelete ∉ names BB.insts) :
    ∃ n1 n2 n3 n4 post',
      BB'.insts = pre ++
        ⟨h.nextId, n1, .alloca .int32 0 (.constInt .int32 1)⟩ ::
        ⟨h.nextId + 1, n2, .alloca .int32 0 (.constInt .int32 1)⟩ ::
        ⟨h.nextId + 2, n3, .call (some nb) (operands CI ++ [.inst h.nextId])⟩ ::
        ⟨h.nextId + 3, n4, .call (some "MPI_Wait") [.inst h.nextId, .inst (h.nextId + 1)]⟩ ::
        post' ∧
      ((∀ I ∈ post, matched P I = none) → post' = post) := by
  obtain ⟨X, lu1, h1, r, Y, hx, hr, hy, hi⟩ := visitBlock_site hP hv hBB hm
  have he := expandSeg_all_unmatched decls rnd outside _ _ _ _ _ _ hx hpre
  simp only [List.nil_append, Prod.mk.injEq] at he
  obtain ⟨rfl, rfl, rfl⟩ := he
  obtain ⟨n1, n2, n3, n4, n5, e1, e2, e3, e4, -, -⟩ := rewriteCall_shape hr
  rw [hBB] at hb
  simp only [names, List.map_append, List.map_cons, List.mem_append, List.mem_cons,
    not_or] at hb
  have ht : r.CI.name = P.toDelete :=
    (rewriteCall_tag hP.mark hr).mpr (Or.inr (by
      simp only [names, List.mem_append, not_or]
      exact ⟨⟨ho, hb.1⟩, hb.2.2⟩))
  have hsX : sweep P.toDelete X = X := sweep_id _ _ (by simpa [names] using hb.1)
  refine ⟨n1, n2, n3, n4, sweep P.toDelete Y, ?_, ?_⟩
  · rw [hi, hsX, sweep_cons_erase _ _ _ ht, e1, e2, e3, e4]
    simp [sweep, eraseLoop]
  · intro hpost
    have he2 := expandSeg_all_unmatched decls rnd outside _ _ _ _ _ _ hy hpost
    simp only [Prod.mk.injEq] at he2
    have hY : Y = post := List.append_cancel_left he2.1
    rw [hY]
    exact sweep_id _ _ (by simpa [names] using hb.2.2)

/-! ## Positions -/

theorem getElem?_append_two {α : Type} (A : List α) (x y : α) (B : List α) :
    (A ++ x :: y :: B)[A.length]? = some x ∧ (A ++ x :: y :: B)[A.length + 1]? = some y := by
  constructor
  · rw [List.getElem?_append_right (le_refl _)]
    simp
  · rw [List.getElem?_append_right (by omega)]
    simp

theorem not_mem_names_of_blockNames {t : String} {bs : List BasicBlock} {BB : BasicBlock}
    (h : t ∉ blockNames bs) (hB : BB ∈ bs) : t ∉ names BB.insts := by
  intro hm
  apply h
  simp only [blockNames, List.mem_flatMap]
  exact ⟨BB, hB, hm⟩

/-- Where the two new calls of a matched call stand in the visited block. -/
theorem visitBlock_site_position {P : Pass} (hP : P.Sound) {decls : List String}
    {rnd : Nat → Nat} {outside : List String} {BB BB' : BasicBlock} {lu lu' : Nat}
    {h h' : Heap} (hv : visitBlock P decls rnd outside BB lu h = .ok (BB', lu', h'))
    {pre post : List Instruction} {CI : Instruction} {nb : String}
    (hBB : BB.insts = pre ++ CI :: post) (hm : matched P CI = some nb) :
    ∃ q k n3 n4,
      BB'.insts[q]? = some ⟨k + 2, n3, .call (some nb) (operands CI ++ [.inst k])⟩ ∧
      BB'.insts[q + 1]? =
        some ⟨k + 3, n4, .call (some "MPI_Wait") [.inst k, .inst (k + 1)]⟩ ∧
      h.nextId ≤ k ∧
      ((∀ I ∈ pre, matched P I = none) → P.toDelete ∉ outside →
        P.toDelete ∉ names BB.insts → q = pre.length + 2) := by
  obtain ⟨X, lu1, h1, r, Y, hx, hr, hy, hi⟩ := visitBlock_site hP hv hBB hm
  obtain ⟨n1, n2, n3, n4, n5, e1, e2, e3, e4, -, -⟩ := rewriteCall_shape hr
  obtain ⟨-, -, hle, -⟩ := expandSeg_prefix decls rnd outside _ _ _ _ _ _ hx
  have hi' : BB'.insts = (sweep P.toDelete X ++ r.mpi_req :: r.mpi_status ::
      sweep P.toDelete [r.CI]) ++ r.MPI_I_Call :: r.MPI_Wait_Call :: sweep P.toDelete Y := by
    rw [hi]; simp
  have hpos := getElem?_append_two (sweep P.toDelete X ++ r.mpi_req :: r.mpi_status ::
    sweep P.toDelete [r.CI]) r.MPI_I_Call r.MPI_Wait_Call (sweep P.toDelete Y)
  rw [← hi', e3, e4] at hpos
  refine ⟨_, h1.nextId, n3, n4, hpos.1, hpos.2, hle, ?_⟩
  intro hpre ho hb
  have he := expandSeg_all_unmatched decls rnd outside _ _ _ _ _ _ hx hpre
  simp only [List.nil_append, Prod.mk.injEq] at he
  obtain ⟨rfl, rfl, rfl⟩ := he
  rw [hBB] at hb
  simp only [names, List.map_append, List.map_cons, List.mem_append, List.mem_cons,
    not_or] at hb
  have ht : r.CI.name = P.toDelete :=
    (rewriteCall_tag hP.mark hr).mpr (Or.inr (by
      simp only [names, List.mem_append, not_or]
      exact ⟨⟨ho, hb.1⟩, hb.2.2⟩))
  have hsX : sweep P.toDelete X = X := sweep_id _ _ (by simpa [names] using hb.1)
  rw [hsX, sweep_cons_erase _ _ _ ht]
  simp [sweep, eraseLoop]

/-! ## Names stay unique -/

theorem uniqueNames_iff (T : List String) :
    UniqueNames T ↔ (T.filter (fun s => decide (s ≠ ""))).Nodup := by
  rw [List.nodup_iff_count_le_one]
  constructor
  · intro hu s
    by_cases hs : s = ""
    · subst hs
      rw [List.count_eq_zero_of_not_mem]
      · omega
      · simp
    · rw [List.count_filter (by simpa using hs)]
      exact hu s hs
  · intro hn s hs
    rw [← List.count_filter (p := fun s => decide (s ≠ "")) (by simpa using hs)]
    exact hn s

theorem setName_cases (others : List String) (lastUnique : Nat) (old new : String) :
    (setName others lastUnique old new).1 = old ∨
      (setName others lastUnique old new).1 ∉ others := by
  unfold setName
  split
  · exact Or.inl rfl
  · exact Or.inr (createValueName_fresh _ _ _)

/-- Every name given at a call site was free when given. -/
theorem rewriteCall_fresh_all {toDelete : String} {decls : List String} {rnd : Nat → Nat}
    {outside : List String} {before : List Instruction} {CI : Instruction} {Args : List Value}
    {nb : String} {after : List Instruction} {lastUnique : Nat} {h : Heap} {r : Rewritten}
    (hr : rewriteCall toDelete decls rnd outside before CI Args nb after lastUnique h = .ok r) :
    r.mpi_req.name ∉ outside ++ names (before ++ CI :: after) ∧
    r.mpi_status.name ∉ outside ++ names (before ++ r.mpi_req :: CI :: after) ∧
    r.MPI_I_Call.name ∉
      outside ++ names (before ++ r.mpi_req :: r.mpi_status :: CI :: after) ∧
    r.MPI_Wait_Call.name ∉
      outside ++ names (before ++ r.mpi_req :: r.mpi_status :: CI :: r.MPI_I_Call :: after) ∧
    (r.CI.name = CI.name ∨ r.CI.name ∉ outside ++ names (before ++ r.mpi_req ::
      r.mpi_status :: r.MPI_I_Call :: r.MPI_Wait_Call :: after)) := by
  unfold rewriteCall at hr
  by_cases h1 : nb ∈ decls
  · by_cases h2 : "MPI_Wait" ∈ decls
    · simp only [h1, h2, if_true, Res.ok.injEq] at hr
      subst hr
      exact ⟨createValueName_fresh _ _ _, createValueName_fresh _ _ _,
        createValueName_fresh _ _ _, createValueName_fresh _ _ _, setName_cases _ _ _ _⟩
    · simp [h1, h2] at hr
  · simp [h1] at hr

theorem count_ite_zero {T : List String} {n s : String} (h : n ∉ T) (e : n = s) :
    T.count s = 0 := by
  subst e
  exact List.count_eq_zero_of_not_mem h

/-- A call site keeps the names of the function unique. -/
theorem rewriteCall_unique {toDelete : String} {decls : List String} {rnd : Nat → Nat}
    {outside : List String} {before : List Instruction} {CI : Instruction} {Args : List Value}
    {nb : String} {after : List Instruction} {lastUnique : Nat} {h : Heap} {r : Rewritten}
    (hr : rewriteCall toDelete decls rnd outside before CI Args nb after lastUnique h = .ok r)
    (hu : UniqueNames (outside ++ names (before ++ CI :: after))) :
    UniqueNames (outside ++ names (before ++
      [r.mpi_req, r.mpi_status, r.CI, r.MPI_I_Call, r.MPI_Wait_Call] ++ after)) := by
  obtain ⟨f1, f2, f3, f4, f5⟩ := rewriteCall_fresh_all hr
  intro s hs
  have hu' := hu s hs
  simp only [names, List.map_append, List.map_cons, List.map_nil, List.count_append,
    List.count_cons, List.count_nil, beq_iff_eq, List.append_assoc, List.cons_append,
    List.nil_append] at hu' ⊢
  have g1 := fun e => count_ite_zero (s := s) f1 e
  have g2 := fun e => count_ite_zero (s := s) f2 e
  have g3 := fun e => count_ite_zero (s := s) f3 e
  have g4 := fun e => count_ite_zero (s := s) f4 e
  simp only [names, List.map_append, List.map_cons, List.map_nil, List.count_append,
    List.count_cons, List.count_nil, beq_iff_eq, List.append_assoc, List.cons_append,
    List.nil_append] at g1 g2 g3 g4
  rcases f5 with f5 | f5
  · rw [f5]
    by_cases e1 : r.mpi_req.name = s <;> by_cases e2 : r.mpi_status.name = s <;>
      by_cases e3 : r.MPI_I_Call.name = s <;> by_cases e4 : r.MPI_Wait_Call.name = s <;>
      by_cases e6 : CI.name = s <;>
      simp only [e1, e2, e3, e4, e6, if_true, if_false, forall_true_left,
        not_true_eq_false, not_false_eq_true, IsEmpty.forall_iff] at g1 g2 g3 g4 hu' ⊢ <;>
      omega
  · have g5 := fun e => count_ite_zero (s := s) f5 e
    simp only [names, List.map_append, List.map_cons, List.map_nil, List.count_append,
      List.count_cons, List.count_nil, beq_iff_eq, List.append_assoc, List.cons_append,
      List.nil_append] at g5
    by_cases e1 : r.mpi_req.name = s <;> by_cases e2 : r.mpi_status.name = s <;>
      by_cases e3 : r.MPI_I_Call.name = s <;> by_cases e4 : r.MPI_Wait_Call.name = s <;>
      by_cases e5 : r.CI.name = s <;> by_cases e6 : CI.name = s <;>
      simp only [e1, e2, e3, e4, e5, e6, if_true, if_false, forall_true_left,
        not_true_eq_false, not_false_eq_true, IsEmpty.forall_iff] at g1 g2 g3 g4 g5 hu' ⊢ <;>
      omega

theorem uniqueNames_of_count_le {A B : List String}
    (h : ∀ s, B.count s ≤ A.count s) (hu : UniqueNames A) : UniqueNames B :=
  fun s hs => le_trans (h s) (hu s hs)

theorem expandSeg_unique {P : Pass} (decls : List String) (rnd : Nat → Nat)
    (outside : List String) :
    ∀ (seg before tail : List Instruction) (lu : Nat) (h : Heap)
      (res : List Instruction × Nat × Heap),
      expandSeg P decls rnd outside before seg tail lu h = .ok res →
      UniqueNames (outside ++ names (before ++ seg ++ tail)) →
      UniqueNames (outside ++ names (res.1 ++ tail)) := by
  intro seg
  induction seg with
  | nil =>
    intro before tail lu h res hx hu
    simp only [expandSeg, Res.ok.injEq] at hx
    subst hx
    simpa using hu
  | cons I seg ih =>
    intro before tail lu h res hx hu
    rcases expandSeg_cons_cases hx with ⟨-, hx'⟩ | ⟨callee, Args, nb, r, -, -, hr, hx'⟩
    · apply ih _ _ _ _ _ hx'
      simpa using hu
    · apply ih _ _ _ _ _ hx'
      have := rewriteCall_unique hr (by simpa using hu)
      simpa using this

theorem visitBlock_unique {P : Pass} (hP : P.Sound) {decls : List String} {rnd : Nat → Nat}
    {outside : List String} {BB BB' : BasicBlock} {lu lu' : Nat} {h h' : Heap}
    (hv : visitBlock P decls rnd outside BB lu h = .ok (BB', lu', h'))
    (hu : UniqueNames (outside ++ names BB.insts)) :
    UniqueNames (outside ++ names BB'.insts) := by
  rw [visitBlock_eq hP] at hv
  cases hx : expandSeg P decls rnd outside [] BB.insts [] lu h with
  | fault e => simp [hx, Res.bind] at hv
  | ok res =>
    have hu2 := expandSeg_unique decls rnd outside _ _ _ _ _ _ hx (by simpa using hu)
    simp only [hx, Res.bind, Res.ok.injEq, Prod.mk.injEq] at hv
    obtain ⟨hb, -, -⟩ := hv
    subst hb
    refine uniqueNames_of_count_le (fun s => ?_) hu2
    simp only [List.append_nil, List.count_append, names, sweep_eq_filter]
    have : (List.map (fun i => i.name)
        (List.filter (fun i => decide (i.name ≠ P.toDelete)) res.1)).Sublist
        (List.map (fun i => i.name) res.1) :=
      (List.filter_sublist _).map _
    have := this.count_le s
    omega

theorem visitBlocks_unique {P : Pass} (hP : P.Sound) (decls : List String) (rnd : Nat → Nat)
    (al : List String) :
    ∀ (more done : List BasicBlock) (lu : Nat) (h : Heap)
      (res : List BasicBlock × Nat × Heap),
      visitBlocks P decls rnd al done more lu h = .ok res →
      UniqueNames (al ++ blockNames (done ++ more)) → UniqueNames (al ++ blockNames res.1) := by
  intro more
  induction more with
  | nil =>
    intro done lu h res hv hu
    simp only [visitBlocks, Res.ok.injEq] at hv
    subst hv
    simpa using hu
  | cons BB more ih =>
    intro done lu h res hv hu
    cases hb : visitBlock P decls rnd (al ++ (blockNames done ++ blockNames more)) BB lu h with
    | fault e => simp [visitBlocks, hb] at hv
    | ok r1 =>
      obtain ⟨BB', lu1, h1⟩ := r1
      simp only [visitBlocks, hb] at hv
      apply ih _ _ _ _ hv
      have hu1 : UniqueNames ((al ++ (blockNames done ++ blockNames more)) ++
          names BB.insts) := by
        refine uniqueNames_of_count_le (fun s => ?_) hu
        simp only [blockNames_append, blockNames_cons, List.count_append]
        omega
      have hu2 := visitBlock_unique hP hb hu1
      refine uniqueNames_of_count_le (fun s => ?_) hu2
      have hnil : blockNames [] = [] := rfl
      simp only [blockNames_append, blockNames_cons, List.count_append, hnil, List.count_nil]
      omega

/-- The pass keeps the value names of every function unique. -/
theorem visitFunctions_unique {P : Pass} (hP : P.Sound) (decls : List String)
    (rnd : Nat → Nat) :
    ∀ (fs : List Function) (h : Heap) (res : List Function × Heap),
      visitFunctions P decls rnd fs h = .ok res →
      List.Forall₂ (fun F F' => UniqueNames (getValueSymbolTable F) →
        UniqueNames (getValueSymbolTable F')) fs res.1 := by
  intro fs
  induction fs with
  | nil =>
    intro h res hv
    simp only [visitFunctions, Res.ok.injEq] at hv
    subst hv
    exact List.Forall₂.nil
  | cons F fs ih =>
    intro h res hv
    cases hb : visitBlocks P decls rnd F.argsAndLabels [] F.blocks F.lastUnique h with
    | fault e => simp [visitFunctions, visitFunction, hb] at hv
    | ok r1 =>
      obtain ⟨bs, lu, h1⟩ := r1
      cases hf : visitFunctions P decls rnd fs h1 with
      | fault e => simp [visitFunctions, visitFunction, hb, hf] at hv
      | ok r2 =>
        obtain ⟨fs', h2⟩ := r2
        simp only [visitFunctions, visitFunction, hb, hf, Res.ok.injEq] at hv
        subst hv
        refine List.Forall₂.cons (fun hu => ?_) (ih _ _ hf)
        exact visitBlocks_unique hP decls rnd _ _ _ _ _ _ hb (by simpa using hu)

/-! ## Two matched calls in one block -/

theorem expandSeg_site {P : Pass} {decls : List String} {rnd : Nat → Nat}
    {outside : List String} {before pre post tail : List Instruction} {CI : Instruction}
    {nb : String} {lu : Nat} {h : Heap} {res : List Instruction × Nat × Heap}
    (hx : expandSeg P decls rnd outside before (pre ++ CI :: post) tail lu h = .ok res)
    (hm : matched P CI = some nb) :
    ∃ X lu1 h1 r Y,
      expandSeg P decls rnd outside before pre (CI :: (post ++ tail)) lu h =
        .ok (before ++ X, lu1, h1) ∧
      rewriteCall P.toDelete decls rnd outside (before ++ X) CI (operands CI) nb
        (post ++ tail) lu1 h1 = .ok r ∧
      expandSeg P decls rnd outside
        (before ++ X ++ [r.mpi_req, r.mpi_status, r.CI, r.MPI_I_Call, r.MPI_Wait_Call])
        post tail r.lastUnique r.heap = .ok res ∧
      res.1 = before ++ X ++
        [r.mpi_req, r.mpi_status, r.CI, r.MPI_I_Call, r.MPI_Wait_Call] ++ Y ∧
      h.nextId ≤ h1.nextId := by
  rw [expandSeg_append] at hx
  simp only [List.cons_append] at hx
  cases h1 : expandSeg P decls rnd outside before pre (CI :: (post ++ tail)) lu h with
  | fault e => simp [h1, Res.bind] at hx
  | ok res1 =>
    obtain ⟨X, hX, hle, -⟩ := expandSeg_prefix decls rnd outside _ _ _ _ _ _ h1
    obtain ⟨b1, lu1, h1'⟩ := res1
    simp only at hX hle
    subst hX
    simp only [h1, Res.bind] at hx
    obtain ⟨callee, Args, hop, hnb⟩ := matched_eq_some hm
    rcases expandSeg_cons_cases hx with ⟨hm', -⟩ | ⟨callee', Args', nb', r, hop', hnb', hr, hx'⟩
    · rw [hm] at hm'; cases hm'
    · rw [hop] at hop'
      cases hop'
      rw [hnb] at hnb'
      cases hnb'
      obtain ⟨Y, hY, -, -⟩ := expandSeg_prefix decls rnd outside _ _ _ _ _ _ hx'
      exact ⟨X, lu1, h1', r, Y, rfl, by rw [operands_of_call hop]; exact hr, hx', hY, hle⟩

theorem sweep_five {toDelete : String} {a b c d e : Instruction}
    (ha : a.name ≠ toDelete) (hb : b.name ≠ toDelete)
    (hd : d.name ≠ toDelete) (he : e.name ≠ toDelete) (l : List Instruction) :
    sweep toDelete ([a, b, c, d, e] ++ l) =
      a :: b :: (sweep toDelete [c] ++ d :: e :: sweep toDelete l) := by
  by_cases hc : c.name = toDelete
  · simp [sweep_eq_filter, ha, hb, hc, hd, he]
  · simp [sweep_eq_filter, ha, hb, hc, hd, he]

/-- The shape of a visited block around two matched calls: each has its own
two allocas and its own pair of calls, the four alloca names are pairwise
distinct, and so are the four objects. -/
theorem visitBlock_two_sites {P : Pass} (hP : P.Sound) {decls : List String}
    {rnd : Nat → Nat} {outside : List String} {BB BB' : BasicBlock} {lu lu' : Nat}
    {h h' : Heap} (hv : visitBlock P decls rnd outside BB lu h = .ok (BB', lu', h'))
    {pre mid post : List Instruction} {b1 b2 : Instruction} {nb1 nb2 : String}
    (hBB : BB.insts = pre ++ b1 :: (mid ++ b2 :: post))
    (hm1 : matched P b1 = some nb1) (hm2 : matched P b2 = some nb2) :
    ∃ pre' k1 n1 n2 n3 n4 tag1 mid' k2 m1 m2 m3 m4 tag2 post',
      BB'.insts = pre' ++
        ⟨k1, n1, .alloca .int32 0 (.constInt .int32 1)⟩ ::
        ⟨k1 + 1, n2, .alloca .int32 0 (.constInt .int32 1)⟩ ::
        (tag1 ++ ⟨k1 + 2, n3, .call (some nb1) (operands b1 ++ [.inst k1])⟩ ::
          ⟨k1 + 3, n4, .call (some "MPI_Wait") [.inst k1, .inst (k1 + 1)]⟩ ::
          (mid' ++
            ⟨k2, m1, .alloca .int32 0 (.constInt .int32 1)⟩ ::
            ⟨k2 + 1, m2, .alloca .int32 0 (.constInt .int32 1)⟩ ::
            (tag2 ++ ⟨k2 + 2, m3, .call (some nb2) (operands b2 ++ [.inst k2])⟩ ::
              ⟨k2 + 3, m4, .call (some "MPI_Wait") [.inst k2, .inst (k2 + 1)]⟩ :: post'))) ∧
      (tag1 = [] ∨ ∃ n, tag1 = [⟨b1.id, n, b1.op⟩]) ∧
      (tag2 = [] ∨ ∃ n, tag2 = [⟨b2.id, n, b2.op⟩]) ∧
      h.nextId ≤ k1 ∧ k1 + 4 ≤ k2 ∧
      n1 ≠ n2 ∧ n1 ≠ m1 ∧ n1 ≠ m2 ∧ n2 ≠ m1 ∧ n2 ≠ m2 ∧ m1 ≠ m2 := by
  rw [visitBlock_eq hP, hBB] at hv
  cases hx : expandSeg P decls rnd outside [] (pre ++ b1 :: (mid ++ b2 :: post)) [] lu h with
  | fault e => simp [hx, Res.bind] at hv
  | ok res =>
    simp only [hx, Res.bind, Res.ok.injEq, Prod.mk.injEq] at hv
    obtain ⟨hb, -, -⟩ := hv
    obtain ⟨X1, lu1, h1, r1, Y1, -, hr1, hy1, -, hle1⟩ := expandSeg_site hx hm1
    obtain ⟨X2, lu2, h2, r2, Y2, hx2, hr2, -, hres, hle2⟩ := expandSeg_site hy1 hm2
    obtain ⟨n1, n2, n3, n4, n5, e1, e2, e3, e4, e5, e6⟩ := rewriteCall_shape hr1
    obtain ⟨m1, m2, m3, m4, m5, g1, g2, g3, g4, g5, -⟩ := rewriteCall_shape hr2
    have hn := rewriteCall_names hr1
    have hm := rewriteCall_names hr2
    obtain ⟨f1, f2, -, -, -⟩ := rewriteCall_fresh_all hr1
    obtain ⟨f3, f4, -, -, -⟩ := rewriteCall_fresh_all hr2
    have hreq1 : r1.mpi_req.name = n1 := by rw [e1]
    have hst1 : r1.mpi_status.name = n2 := by rw [e2]
    have hreq2 : r2.mpi_req.name = m1 := by rw [g1]
    have hst2 : r2.mpi_status.name = m2 := by rw [g2]
    simp only [names, List.map_append, List.map_cons, List.map_nil, List.mem_append,
      List.mem_cons, List.nil_append, not_or, hreq1, hst1, hreq2, hst2] at f1 f2 f3 f4
    refine ⟨sweep P.toDelete X1, h1.nextId, n1, n2, n3, n4, sweep P.toDelete [r1.CI],
      sweep P.toDelete X2, h2.nextId, m1, m2, m3, m4, sweep P.toDelete [r2.CI],
      sweep P.toDelete Y2, ?_, ?_, ?_, hle1, ?_, ?_⟩
    · rw [← hb, hres]
      simp only [List.nil_append, List.append_assoc]
      rw [sweep_append, sweep_five (endsInDigit_ne_of_not hn.1 hP.mark)
        (endsInDigit_ne_of_not hn.2.1 hP.mark) (endsInDigit_ne_of_not hn.2.2.1 hP.mark)
        (endsInDigit_ne_of_not hn.2.2.2 hP.mark), sweep_append,
        sweep_five (endsInDigit_ne_of_not hm.1 hP.mark)
        (endsInDigit_ne_of_not hm.2.1 hP.mark) (endsInDigit_ne_of_not hm.2.2.1 hP.mark)
        (endsInDigit_ne_of_not hm.2.2.2 hP.mark), e1, e2, e3, e4, g1, g2, g3, g4]
    · rcases sweep_singleton P.toDelete r1.CI with hs | hs
      · exact Or.inl hs
      · exact Or.inr ⟨n5, by rw [hs, e5]⟩
    · rcases sweep_singleton P.toDelete r2.CI with hs | hs
      · exact Or.inl hs
      · exact Or.inr ⟨m5, by rw [hs, g5]⟩
    · rw [e6] at hle2
      exact hle2
    · refine ⟨?_, ?_, ?_, ?_, ?_, ?_⟩
      · exact fun e => f2.2.2.1 e.symm
      · exact fun e => f3.2.1.1.2.1 e.symm
      · exact fun e => f4.2.1.1.2.1 e.symm
      · exact fun e => f3.2.1.1.2.2.1 e.symm
      · exact fun e => f4.2.1.1.2.2.1 e.symm
      · exact fun e => f4.2.2.1 e.symm

theorem visitFunctions_of_visitor {P : Pass} {rnd : Nat → Nat} {M M' : Module} {h h' : Heap}
    (hv : visitor P rnd M h = .ok (M', h')) :
    visitFunctions P (M.funcs.map (fun F => F.name)) rnd M.funcs h = .ok (M'.funcs, h') := by
  unfold visitor at hv
  cases hf : visitFunctions P (M.funcs.map (fun F => F.name)) rnd M.funcs h with
  | fault e => simp [hf] at hv
  | ok r =>
    obtain ⟨fs, g⟩ := r
    simp only [hf, Res.ok.injEq, Prod.mk.injEq] at hv
    obtain ⟨rfl, rfl⟩ := hv
    rfl

/-! ## Decimal rendering of integers -/

theorem toDigitsCore_all_digits (fuel : Nat) : ∀ (n : Nat) (ds : List Char),
    (∀ c ∈ ds, c.isDigit = true) →
    ∀ c ∈ Nat.toDigitsCore 10 fuel n ds, c.isDigit = true := by
  induction fuel with
  | zero => intro n ds h c hc; exact h c (by simpa [Nat.toDigitsCore] using hc)
  | succ f ih =>
    intro n ds h c hc
    simp only [Nat.toDigitsCore] at hc
    have hd : ∀ c ∈ Nat.digitChar (n % 10) :: ds, c.isDigit = true := by
      intro c hc
      rcases List.mem_cons.mp hc with rfl | hc
      · exact digitChar_isDigit _ (Nat.mod_lt _ (by decide))
      · exact h c hc
    split at hc
    · exact hd c hc
    · exact ih _ _ hd c hc

theorem toString_nat_all_digits (n : Nat) : ∀ c ∈ (toString n).data, c.isDigit = true := by
  intro c hc
  have : c ∈ Nat.toDigits 10 n := by
    simpa [toString, Nat.repr, List.asString] using hc
  exact toDigitsCore_all_digits _ _ _ (by simp) c this

theorem toString_nat_ne_nil (n : Nat) : (toString n).data ≠ [] := by
  obtain ⟨c, hc, -⟩ := endsInDigit_toString n
  intro h
  simp [h] at hc

theorem toString_negSucc (m : Nat) :
    toString (Int.negSucc m) = "-" ++ toString (m + 1) := rfl

theorem toString_ofNat (m : Nat) : toString (Int.ofNat m) = toString m := rfl

theorem toString_nat_ne_neg (a b : Nat) : toString a ≠ "-" ++ toString b := by
  intro h
  have hd := congrArg String.data h
  rw [String.data_append] at hd
  have h1 : ("-" : String).data = ['-'] := rfl
  rw [h1] at hd
  have hall := toString_nat_all_digits a
  rw [hd] at hall
  have := hall '-' (by simp)
  revert this
  decide

theorem toString_int_injective : Function.Injective (toString : Int → String) := by
  intro a b h
  cases a with
  | ofNat m =>
    cases b with
    | ofNat k =>
      rw [toString_ofNat, toString_ofNat] at h
      rw [toString_nat_injective h]
    | negSucc k =>
      rw [toString_ofNat, toString_negSucc] at h
      exact absurd h (toString_nat_ne_neg _ _)
  | negSucc m =>
    cases b with
    | ofNat k =>
      rw [toString_ofNat, toString_negSucc] at h
      exact absurd h.symm (toString_nat_ne_neg _ _)
    | negSucc k =>
      rw [toString_negSucc, toString_negSucc] at h
      have := toString_nat_injective (string_append_left_cancel h)
      have hk : m = k := by omega
      rw [hk]

theorem endsInDigit_toString_int (b : Int) : endsInDigit (toString b) := by
  cases b with
  | ofNat m => exact endsInDigit_toString m
  | negSucc m =>
    rw [toString_negSucc]
    exact endsInDigit_append _ _ (endsInDigit_toString _)

theorem endsInDigit_name_id_int (a : String) (b : Int) : endsInDigit (name_id a b) :=
  endsInDigit_append _ _ (endsInDigit_toString_int b)

theorem name_id_injective (p : String) {b1 b2 : Int} (h : name_id p b1 = name_id p b2) :
    b1 = b2 :=
  toString_int_injective (string_append_left_cancel h)

theorem name_id_req_ne_status (b1 b2 : Int) :
    name_id "mpi_req" b1 ≠ name_id "mpi_status" b2 := by
  intro h
  have hd := congrArg String.data h
  simp only [name_id, String.data_append] at hd
  simp only [List.cons_append, List.cons.injEq, true_and] at hd
  exact absurd hd.1 (by decide)

/-! ## Runs that end in a null pointer -/

theorem rewriteCall_fault {toDelete : String} {decls : List String} {rnd : Nat → Nat}
    {outside : List String} {before : List Instruction} {CI : Instruction} {Args : List Value}
    {nb : String} {after : List Instruction} {lastUnique : Nat} {h : Heap} {e : Fault}
    (hr : rewriteCall toDelete decls rnd outside before CI Args nb after lastUnique h =
      .fault e) :
    e = .nullFunction ∧ (nb ∉ decls ∨ "MPI_Wait" ∉ decls) := by
  unfold rewriteCall at hr
  by_cases h1 : nb ∈ decls
  · by_cases h2 : "MPI_Wait" ∈ decls
    · simp [h1, h2] at hr
    · simp only [h1, h2, if_true, if_false, Res.fault.injEq] at hr
      exact ⟨hr.symm, Or.inr h2⟩
  · simp only [h1, if_false, Res.fault.injEq] at hr
    exact ⟨hr.symm, Or.inl h1⟩

/-- A scan that succeeds met no null pointer; a scan that fails ended in the
dereference of one. -/
theorem expandSeg_outcome {P : Pass} (hP : P.Sound) (decls : List String) (rnd : Nat → Nat)
    (outside : List String) :
    ∀ (seg before tail : List Instruction) (lu : Nat) (h : Heap),
      (∀ res, expandSeg P decls rnd outside before seg tail lu h = .ok res →
        ∀ I ∈ seg, runsOn P decls I = true) ∧
      (∀ e, expandSeg P decls rnd outside before seg tail lu h = .fault e →
        (e = .nullCallee ∨ e = .nullFunction) ∧ ∃ I ∈ seg, runsOn P decls I = false) := by
  intro seg
  induction seg with
  | nil =>
    intro before tail lu h
    refine ⟨fun _ _ I hI => (by cases hI), fun e he => ?_⟩
    simp [expandSeg] at he
  | cons J seg ih =>
    intro before tail lu h
    cases hop : J.op with
    | call callee Args =>
      cases callee with
      | none =>
        have hx : expandSeg P decls rnd outside before (J :: seg) tail lu h =
            .fault .nullCallee := by
          simp [expandSeg, hop, hP.null]
        rw [hx]
        refine ⟨fun res hres => (by cases hres), fun e he => ?_⟩
        cases he
        exact ⟨Or.inl rfl, J, List.mem_cons_self _ _, by simp [runsOn, hop]⟩
      | some n =>
        obtain ⟨o, ho⟩ := hP.total n
        cases o with
        | none =>
          have hx : expandSeg P decls rnd outside before (J :: seg) tail lu h =
              expandSeg P decls rnd outside (before ++ [J]) seg tail lu h := by
            simp [expandSeg, hop, ho]
          have hJ : runsOn P decls J = true := by simp [runsOn, hop, ho]
          rw [hx]
          obtain ⟨i1, i2⟩ := ih (before ++ [J]) tail lu h
          refine ⟨fun res hres I hI => ?_, fun e he => ?_⟩
          · rcases List.mem_cons.mp hI with rfl | hI
            · exact hJ
            · exact i1 res hres I hI
          · obtain ⟨hk, I, hI, hf⟩ := i2 e he
            exact ⟨hk, I, List.mem_cons_of_mem _ hI, hf⟩
        | some nb =>
          cases hr : rewriteCall P.toDelete decls rnd outside before J Args nb
              (seg ++ tail) lu h with
          | fault e' =>
            have hx : expandSeg P decls rnd outside before (J :: seg) tail lu h =
                .fault e' := by
              simp [expandSeg, hop, ho, hr]
            rw [hx]
            obtain ⟨hk, hd⟩ := rewriteCall_fault hr
            refine ⟨fun res hres => (by cases hres), fun e he => ?_⟩
            cases he
            refine ⟨Or.inr hk, J, List.mem_cons_self _ _, ?_⟩
            rcases hd with hd | hd <;> simp [runsOn, hop, ho, hd]
          | ok r =>
            have hx : expandSeg P decls rnd outside before (J :: seg) tail lu h =
                expandSeg P decls rnd outside
                  (before ++ [r.mpi_req, r.mpi_status, r.CI, r.MPI_I_Call, r.MPI_Wait_Call])
                  seg tail r.lastUnique r.heap := by
              simp [expandSeg, hop, ho, hr]
            have hd := (rewriteCall_spec hr).1
            have hJ : runsOn P decls J = true := by simp [runsOn, hop, ho, hd.1, hd.2]
            rw [hx]
            obtain ⟨i1, i2⟩ := ih
              (before ++ [r.mpi_req, r.mpi_status, r.CI, r.MPI_I_Call, r.MPI_Wait_Call])
              tail r.lastUnique r.heap
            refine ⟨fun res hres I hI => ?_, fun e he => ?_⟩
            · rcases List.mem_cons.mp hI with rfl | hI
              · exact hJ
              · exact i1 res hres I hI
            · obtain ⟨hk, I, hI, hf⟩ := i2 e he
              exact ⟨hk, I, List.mem_cons_of_mem _ hI, hf⟩
    | alloca ty a s =>
      have hx : expandSeg P decls rnd outside before (J :: seg) tail lu h =
          expandSeg P decls rnd outside (before ++ [J]) seg tail lu h := by
        simp [expandSeg, hop]
      have hJ : runsOn P decls J = true := by simp [runsOn, hop]
      rw [hx]
      obtain ⟨i1, i2⟩ := ih (before ++ [J]) tail lu h
      refine ⟨fun res hres I hI => ?_, fun e he => ?_⟩
      · rcases List.mem_cons.mp hI with rfl | hI
        · exact hJ
        · exact i1 res hres I hI
      · obtain ⟨hk, I, hI, hf⟩ := i2 e he
        exact ⟨hk, I, List.mem_cons_of_mem _ hI, hf⟩
    | other k =>
      have hx : expandSeg P decls rnd outside before (J :: seg) tail lu h =
          expandSeg P decls rnd outside (before ++ [J]) seg tail lu h := by
        simp [expandSeg, hop]
      have hJ : runsOn P decls J = true := by simp [runsOn, hop]
      rw [hx]
      obtain ⟨i1, i2⟩ := ih (before ++ [J]) tail lu h
      refine ⟨fun res hres I hI => ?_, fun e he => ?_⟩
      · rcases List.mem_cons.mp hI with rfl | hI
        · exact hJ
        · exact i1 res hres I hI
      · obtain ⟨hk, I, hI, hf⟩ := i2 e he
        exact ⟨hk, I, List.mem_cons_of_mem _ hI, hf⟩

theorem visitBlock_fault {P : Pass} (hP : P.Sound) {decls : List String} {rnd : Nat → Nat}
    {outside : List String} {BB : BasicBlock} {lu : Nat} {h : Heap} {e : Fault}
    (hv : visitBlock P decls rnd outside BB lu h = .fault e) :
    e = .nullCallee ∨ e = .nullFunction := by
  rw [visitBlock_eq hP] at hv
  cases hx : expandSeg P decls rnd outside [] BB.insts [] lu h with
  | ok res => simp [hx, Res.bind] at hv
  | fault e' =>
    simp only [hx, Res.bind, Res.fault.injEq] at hv
    subst hv
    exact ((expandSeg_outcome hP decls rnd outside _ _ _ _ _).2 _ hx).1

theorem visitBlock_runsOn {P : Pass} (hP : P.Sound) {decls : List String} {rnd : Nat → Nat}
    {outside : List String} {BB : BasicBlock} {lu : Nat} {h : Heap}
    {res : BasicBlock × Nat × Heap}
    (hv : visitBlock P decls rnd outside BB lu h = .ok res) :
    ∀ I ∈ BB.insts, runsOn P decls I = true := by
  rw [visitBlock_eq hP] at hv
  cases hx : expandSeg P decls rnd outside [] BB.insts [] lu h with
  | fault e => simp [hx, Res.bind] at hv
  | ok r => exact (expandSeg_outcome hP decls rnd outside _ _ _ _ _).1 _ hx

theorem visitBlocks_outcome {P : Pass} (hP : P.Sound) (decls : List String)
    (rnd : Nat → Nat) (al : List String) :
    ∀ (more done : List BasicBlock) (lu : Nat) (h : Heap),
      (∀ res, visitBlocks P decls rnd al done more lu h = .ok res →
        ∀ BB ∈ more, ∀ I ∈ BB.insts, runsOn P decls I = true) ∧
      (∀ e, visitBlocks P decls rnd al done more lu h = .fault e →
        e = .nullCallee ∨ e = .nullFunction) := by
  intro more
  induction more with
  | nil =>
    intro done lu h
    exact ⟨fun _ _ BB hBB => (by cases hBB), fun e he => (by simp [visitBlocks] at he)⟩
  | cons BB more ih =>
    intro done lu h
    cases hb : visitBlock P decls rnd (al ++ (blockNames done ++ blockNames more)) BB lu h with
    | fault e' =>
      refine ⟨fun res hres => (by simp [visitBlocks, hb] at hres), fun e he => ?_⟩
      simp only [visitBlocks, hb, Res.fault.injEq] at he
      subst he
      exact visitBlock_fault hP hb
    | ok r1 =>
      obtain ⟨BB', lu1, h1⟩ := r1
      obtain ⟨i1, i2⟩ := ih (done ++ [BB']) lu1 h1
      refine ⟨fun res hres B hB => ?_, fun e he => ?_⟩
      · simp only [visitBlocks, hb] at hres
        rcases List.mem_cons.mp hB with rfl | hB
        · exact visitBlock_runsOn hP hb
        · exact i1 res hres B hB
      · simp only [visitBlocks, hb] at he
        exact i2 e he

theorem visitFunctions_outcome {P : Pass} (hP : P.Sound) (decls : List String)
    (rnd : Nat → Nat) :
    ∀ (fs : List Function) (h : Heap),
      (∀ res, visitFunctions P decls rnd fs h = .ok res →
        ∀ F ∈ fs, ∀ BB ∈ F.blocks, ∀ I ∈ BB.insts, runsOn P decls I = true) ∧
      (∀ e, visitFunctions P decls rnd fs h = .fault e →
        e = .nullCallee ∨ e = .nullFunction) := by
  intro fs
  induction fs with
  | nil =>
    intro h
    exact ⟨fun _ _ F hF => (by cases hF), fun e he => (by simp [visitFunctions] at he)⟩
  | cons F fs ih =>
    intro h
    obtain ⟨b1, b2⟩ := visitBlocks_outcome hP decls rnd F.argsAndLabels F.blocks []
      F.lastUnique h
    cases hb : visitBlocks P decls rnd F.argsAndLabels [] F.blocks F.lastUnique h with
    | fault e' =>
      refine ⟨fun res hres => (by simp [visitFunctions, visitFunction, hb] at hres),
        fun e he => ?_⟩
      simp only [visitFunctions, visitFunction, hb, Res.fault.injEq] at he
      subst he
      exact b2 _ hb
    | ok r1 =>
      obtain ⟨bs, lu, h1⟩ := r1
      obtain ⟨i1, i2⟩ := ih h1
      cases hf : visitFunctions P decls rnd fs h1 with
      | fault e' =>
        refine ⟨fun res hres => (by simp [visitFunctions, visitFunction, hb, hf] at hres),
          fun e he => ?_⟩
        simp only [visitFunctions, visitFunction, hb, hf, Res.fault.injEq] at he
        subst he
        exact i2 _ hf
      | ok r2 =>
        refine ⟨fun res _ G hG => ?_, fun e he => ?_⟩
        · rcases List.mem_cons.mp hG with rfl | hG
          · exact b1 _ hb
          · exact i1 _ hf G hG
        · simp [visitFunctions, visitFunction, hb, hf] at he

/-- The pass returns a program exactly on the modules it can process, and
otherwise ends in the dereference of a null pointer. -/
theorem visitor_outcome {P : Pass} (hP : P.Sound) (rnd : Nat → Nat) (M : Module) (h : Heap) :
    (wellDeclared P M = true ↔ ∃ M' h', visitor P rnd M h = .ok (M', h')) ∧
    (wellDeclared P M = false →
      visitor P rnd M h = .fault .nullCallee ∨ visitor P rnd M h = .fault .nullFunction) := by
  obtain ⟨i1, i2⟩ := visitFunctions_outcome hP (M.funcs.map (fun F => F.name)) rnd M.funcs h
  have hiff : wellDeclared P M = true ↔ ∃ M' h', visitor P rnd M h = .ok (M', h') := by
    constructor
    · intro hw
      obtain ⟨M', h', hv, -⟩ := visitor_blockwise hP rnd M h hw
      exact ⟨M', h', hv⟩
    · rintro ⟨M', h', hv⟩
      exact (wellDeclared_iff P M).mpr (i1 _ (visitFunctions_of_visitor hv))
  refine ⟨hiff, fun hw => ?_⟩
  cases hf : visitFunctions P (M.funcs.map (fun F => F.name)) rnd M.funcs h with
  | ok r =>
    exfalso
    have : wellDeclared P M = true := (wellDeclared_iff P M).mpr (i1 _ hf)
    rw [hw] at this
    cases this
  | fault e =>
    have hv : visitor P rnd M h = .fault e := by simp [visitor, hf]
    rw [hv]
    rcases i2 e hf with rfl | rfl
    · exact Or.inl rfl
    · exact Or.inr rfl

theorem readDigits_toString (n : Nat) : readDigits (toString n).data = n := by
  have h : (toString n).data = Nat.toDigitsCore 10 (n + 1) n [] := by
    simp [toString, Nat.repr, List.asString, Nat.toDigits]
  rw [h]
  exact readDigits_toDigitsCore (n + 1) n (by omega)

/-! ## The loop, iteration by iteration -/

theorem scanAt_done (P : Pass) (decls : List String) (rnd : Nat → Nat)
    (outside : List String) (k : Nat) (c : Cursor) (h : c.todo = []) :
    scanAt P decls rnd outside k c = .ok c := by
  cases k with
  | zero => rfl
  | succ k => simp [scanAt, h]

theorem scanAt_succ (P : Pass) (decls : List String) (rnd : Nat → Nat)
    (outside : List String) (k : Nat) (c : Cursor) (h : c.todo ≠ []) :
    scanAt P decls rnd outside (k + 1) c =
      (step P decls rnd outside c).bind (scanAt P decls rnd outside k) := by
  cases hc : c.todo with
  | nil => exact absurd hc h
  | cons I after => simp [scanAt, hc]

/-- The two ways an iteration of the loop goes. -/
theorem step_cases {P : Pass} {decls : List String} {rnd : Nat → Nat}
    {outside : List String} {c c' : Cursor} {I : Instruction} {after : List Instruction}
    (hc : c.todo = I :: after) (hs : step P decls rnd outside c = .ok c') :
    (matched P I = none ∧ c' = ⟨c.before ++ [I], after, c.lastUnique, c.heap⟩) ∨
    (∃ callee Args nb r, I.op = .call callee Args ∧ P.nonblocking callee = .ok (some nb) ∧
      rewriteCall P.toDelete decls rnd outside c.before I Args nb after
        c.lastUnique c.heap = .ok r ∧
      c' = ⟨c.before ++ [r.mpi_req, r.mpi_status, r.CI],
        r.MPI_I_Call :: r.MPI_Wait_Call :: after, r.lastUnique, r.heap⟩) := by
  unfold step at hs
  rw [hc] at hs
  simp only at hs
  cases hop : I.op with
  | call callee Args =>
    rw [hop] at hs
    simp only at hs
    cases hm : P.nonblocking callee with
    | fault e => simp [hm] at hs
    | ok o =>
      cases o with
      | none =>
        left
        simp only [hm, Res.ok.injEq] at hs
        exact ⟨by simp [matched, hop, hm], hs.symm⟩
      | some nb =>
        right
        rw [hm] at hs
        simp only at hs
        cases hr : rewriteCall P.toDelete decls rnd outside c.before I Args nb after
            c.lastUnique c.heap with
        | fault e => simp [hr] at hs
        | ok r =>
          simp only [hr, Res.ok.injEq] at hs
          exact ⟨callee, Args, nb, r, rfl, hm, hr, hs.symm⟩
  | alloca ty a s =>
    left
    rw [hop] at hs
    simp only [Res.ok.injEq] at hs
    exact ⟨by simp [matched, hop], hs.symm⟩
  | other k =>
    left
    rw [hop] at hs
    simp only [Res.ok.injEq] at hs
    exact ⟨by simp [matched, hop], hs.symm⟩

theorem matched_of_op_eq {P : Pass} {I J : Instruction} (h : I.op = J.op) :
    matched P I = matched P J := by
  simp [matched, h]

theorem operands_of_op_eq {I J : Instruction} (h : I.op = J.op) :
    operands I = operands J := by
  simp [operands, h]

theorem matched_synth_none {P : Pass} (hP : P.Sound) {T I : Instruction} {nb : String}
    {Args : List Value} (hT : matched P T = some nb) (hI : I.op = .call (some nb) Args) :
    matched P I = none := by
  obtain ⟨callee, _, -, hm⟩ := matched_eq_some hT
  simp [matched, hI, hP.closed callee nb hm]

theorem matched_wait_none {P : Pass} (hP : P.Sound) {I : Instruction} {Args : List Value}
    (hI : I.op = .call (some "MPI_Wait") Args) : matched P I = none := by
  simp [matched, hI, hP.wait]

/-- The loop ended: the bounded loop and the loop seen by iterations agree. -/
theorem scan_eq_scanAt (P : Pass) (decls : List String) (rnd : Nat → Nat)
    (outside : List String) :
    ∀ (k : Nat) (c c' : Cursor),
      scan P decls rnd outside k c = .ok c' ↔
        (scanAt P decls rnd outside k c = .ok c' ∧ c'.todo = []) := by
  intro k
  induction k with
  | zero =>
    intro c c'
    cases hc : c.todo with
    | nil =>
      simp only [scan, scanAt, hc, Res.ok.injEq]
      constructor
      · rintro rfl; exact ⟨rfl, hc⟩
      · rintro ⟨rfl, -⟩; rfl
    | cons I after =>
      simp only [scan, scanAt, hc, Res.ok.injEq]
      constructor
      · intro h; cases h
      · rintro ⟨rfl, h⟩; rw [hc] at h; cases h
  | succ k ih =>
    intro c c'
    cases hc : c.todo with
    | nil =>
      simp only [scan, scanAt, hc, Res.ok.injEq]
      constructor
      · rintro rfl; exact ⟨rfl, hc⟩
      · rintro ⟨rfl, -⟩; rfl
    | cons I after =>
      simp only [scan, scanAt, hc]
      cases step P decls rnd outside c with
      | fault e => simp [Res.bind]
      | ok c1 => simp only [Res.bind]; exact ih c1 c'

/-! ## The marked call and its neighbours during the scan -/

theorem append_eq_append_cons {α : Type} {X S A B : List α} {T : α}
    (h : X ++ S = A ++ T :: B) :
    (∃ B0, B = B0 ++ S ∧ X = A ++ T :: B0) ∨
    (∃ S1 S2, S = S1 ++ T :: S2 ∧ A = X ++ S1 ∧ B = S2) := by
  rcases List.append_eq_append_iff.mp h with ⟨a', hA, hS⟩ | ⟨c', hX, hTB⟩
  · exact Or.inr ⟨a', B, hS, hA, rfl⟩
  · cases c' with
    | nil =>
      simp only [List.nil_append] at hTB
      simp only [List.append_nil] at hX
      exact Or.inr ⟨[], B, by simpa using hTB.symm, by simp [hX], rfl⟩
    | cons t c'' =>
      simp only [List.cons_append, List.cons.injEq] at hTB
      obtain ⟨rfl, hB⟩ := hTB
      exact Or.inl ⟨c'', hB, hX⟩

theorem sitesContiguous_step {P : Pass} (hP : P.Sound) {decls : List String}
    {rnd : Nat → Nat} {outside : List String} {c c' : Cursor}
    (hne : c.todo ≠ []) (hs : step P decls rnd outside c = .ok c')
    (hinv : SitesContiguous P c) : SitesContiguous P c' := by
  cases hc : c.todo with
  | nil => exact absurd hc hne
  | cons I after =>
    rcases step_cases hc hs with ⟨hm, rfl⟩ | ⟨callee, Args, nb0, r, hop, hnb, hr, rfl⟩
    · intro A T B nb hbef hT
      simp only at hbef
      rcases append_eq_append_cons hbef with ⟨B0, hB, hX⟩ | ⟨S1, S2, hS, hA, hB⟩
      · obtain ⟨A', req, status, ic, w, B', e1, e2, e3⟩ := hinv A T B0 nb hX hT
        refine ⟨A', req, status, ic, w, B', e1, ?_, e3⟩
        rw [hB]
        simp only [List.append_assoc, List.singleton_append]
        rw [← hc]
        exact e2
      · cases S1 with
        | nil =>
          simp only [List.nil_append, List.cons.injEq] at hS
          rw [← hS.1, hm] at hT
          cases hT
        | cons x S1' =>
          simp only [List.cons_append, List.cons.injEq] at hS
          have := congrArg List.length hS.2
          simp only [List.length_append, List.length_cons, List.length_nil] at this
          omega
    · obtain ⟨n1, n2, n3, n4, n5, q1, q2, q3, q4, q5, -⟩ := rewriteCall_shape hr
      intro A T B nb hbef hT
      simp only at hbef
      rcases append_eq_append_cons hbef with ⟨B0, hB, hX⟩ | ⟨S1, S2, hS, hA, hB⟩
      · obtain ⟨A', req, status, ic, w, B', e1, e2, e3, e4, e5, e6, e7⟩ :=
          hinv A T B0 nb hX hT
        rw [hc] at e2
        cases B0 with
        | nil =>
          simp only [List.nil_append, List.cons.injEq] at e2
          have : matched P I = none := by
            rw [e2.1]
            exact matched_synth_none hP hT e6
          rw [matched_of_call hop hnb] at this
          cases this
        | cons x B1 =>
          cases B1 with
          | nil =>
            simp only [List.cons_append, List.nil_append, List.cons.injEq] at e2
            have : matched P I = none := by
              rw [e2.2.1]
              exact matched_wait_none hP e7
            rw [matched_of_call hop hnb] at this
            cases this
          | cons y B2 =>
            simp only [List.cons_append, List.cons.injEq] at e2
            obtain ⟨rfl, rfl, hB'⟩ := e2
            refine ⟨A', req, status, x, y, B2 ++ [r.mpi_req, r.mpi_status, r.CI] ++
              r.MPI_I_Call :: r.MPI_Wait_Call :: after, e1, ?_, e3, e4, e5, e6, e7⟩
            rw [hB]
            simp
      · cases S1 with
        | nil =>
          simp only [List.nil_append, List.cons.injEq] at hS
          have : matched P T = none := by
            rw [← hS.1, q1]
            simp [matched]
          rw [this] at hT
          cases hT
        | cons x S1' =>
          cases S1' with
          | nil =>
            simp only [List.cons_append, List.nil_append, List.cons.injEq] at hS
            have : matched P T = none := by
              rw [← hS.2.1, q2]
              simp [matched]
            rw [this] at hT
            cases hT
          | cons y S1'' =>
            cases S1'' with
            | nil =>
              simp only [List.cons_append, List.nil_append, List.cons.injEq] at hS
              obtain ⟨rfl, rfl, rfl, hS2⟩ := hS
              have hopT : r.CI.op = I.op := by rw [q5]
              have hnbeq : nb = nb0 := by
                have h1 : matched P r.CI = some nb0 := by
                  rw [matched_of_op_eq hopT]
                  exact matched_of_call hop hnb
                rw [h1] at hT
                exact (Option.some.inj hT).symm
              subst hnbeq
              refine ⟨c.before, r.mpi_req, r.mpi_status, r.MPI_I_Call, r.MPI_Wait_Call,
                after, by simp [hA], ?_, ?_, ?_, ?_, ?_, ?_⟩
              · rw [hB, ← hS2]
                simp
              · rw [q1]
              · rw [q2]
              · rw [q1, q2]
              · rw [q3, operands_of_op_eq hopT, operands_of_call hop, q1]
              · rw [q4, q1, q2]
            | cons z S1''' =>
              simp only [List.cons_append, List.cons.injEq] at hS
              have := congrArg List.length hS.2.2.2
              simp only [List.length_append, List.length_cons, List.length_nil] at this
              omega

theorem sitesContiguous_scanAt {P : Pass} (hP : P.Sound) (decls : List String)
    (rnd : Nat → Nat) (outside : List String) :
    ∀ (k : Nat) (c c' : Cursor), scanAt P decls rnd outside k c = .ok c' →
      SitesContiguous P c → SitesContiguous P c' := by
  intro k
  induction k with
  | zero =>
    intro c c' hk hinv
    simp only [scanAt, Res.ok.injEq] at hk
    rw [← hk]
    exact hinv
  | succ k ih =>
    intro c c' hk hinv
    by_cases hne : c.todo = []
    · rw [scanAt_done _ _ _ _ _ _ hne] at hk
      simp only [Res.ok.injEq] at hk
      rw [← hk]
      exact hinv
    · rw [scanAt_succ _ _ _ _ _ _ hne] at hk
      cases hs : step P decls rnd outside c with
      | fault e => simp [hs, Res.bind] at hk
      | ok c1 =>
        simp only [hs, Res.bind] at hk
        exact ih c1 c' hk (sitesContiguous_step hP hne hs hinv)

/-! ## Counting the iterations of the scan -/

theorem matchedCount_nil (P : Pass) : matchedCount P [] = 0 := rfl

theorem matchedCount_cons_none {P : Pass} {I : Instruction} (l : List Instruction)
    (h : matched P I = none) : matchedCount P (I :: l) = matchedCount P l := by
  simp [matchedCount, List.filter_cons, h]

theorem matchedCount_cons_some {P : Pass} {I : Instruction} {nb : String}
    (l : List Instruction) (h : matched P I = some nb) :
    matchedCount P (I :: l) = matchedCount P l + 1 := by
  simp [matchedCount, List.filter_cons, h]

theorem matchedCount_append (P : Pass) (a b : List Instruction) :
    matchedCount P (a ++ b) = matchedCount P a + matchedCount P b := by
  simp [matchedCount, List.filter_append]

theorem matchedCount_le (P : Pass) (l : List Instruction) : matchedCount P l ≤ l.length := by
  unfold matchedCount
  exact List.length_filter_le _ _

theorem runsOn_of_unmatched_call {P : Pass} {decls : List String} {I : Instruction}
    {n : String} {Args : List Value} (hop : I.op = .call (some n) Args)
    (hm : P.nonblocking (some n) = .ok none) : runsOn P decls I = true := by
  simp [runsOn, hop, hm]

theorem step_ok_of_runsOn {P : Pass} {decls : List String}
    (rnd : Nat → Nat) (outside : List String) {c : Cursor} {I : Instruction}
    {after : List Instruction} (hc : c.todo = I :: after)
    (hI : runsOn P decls I = true) : ∃ c', step P decls rnd outside c = .ok c' := by
  unfold step
  rw [hc]
  simp only
  cases hop : I.op with
  | call callee Args =>
    simp only
    cases callee with
    | none => simp [runsOn, hop] at hI
    | some n =>
      cases hm : P.nonblocking (some n) with
      | fault e => simp [runsOn, hop, hm] at hI
      | ok o =>
        cases o with
        | none => exact ⟨_, rfl⟩
        | some nb =>
          have hd : nb ∈ decls ∧ "MPI_Wait" ∈ decls := by
            simpa [runsOn, hop, hm] using hI
          obtain ⟨r, hr⟩ := rewriteCall_ok P.toDelete rnd outside c.before I Args
            after c.lastUnique c.heap hd.1 hd.2
          simp only [hr]
          exact ⟨_, rfl⟩
  | alloca ty a s => exact ⟨_, rfl⟩
  | other k => exact ⟨_, rfl⟩

/-- What one iteration of the loop changes in the counts. -/
theorem step_counts {P : Pass} (hP : P.Sound) {decls : List String}
    {rnd : Nat → Nat} {outside : List String} {c c' : Cursor}
    (hne : c.todo ≠ []) (hs : step P decls rnd outside c = .ok c')
    (hrun : ∀ J ∈ c.todo, runsOn P decls J = true) :
    (∀ J ∈ c'.todo, runsOn P decls J = true) ∧
    c'.todo.length + 2 * matchedCount P c'.todo + 1 =
      c.todo.length + 2 * matchedCount P c.todo ∧
    c'.before.length + c'.todo.length + 4 * matchedCount P c'.todo =
      c.before.length + c.todo.length + 4 * matchedCount P c.todo ∧
    c'.heap.randCalls + matchedCount P c'.todo =
      c.heap.randCalls + matchedCount P c.todo ∧
    matchedCount P c'.before + matchedCount P c'.todo =
      matchedCount P c.before + matchedCount P c.todo := by
  cases hc : c.todo with
  | nil => exact absurd hc hne
  | cons I after =>
    rw [hc] at hrun
    have hafter : ∀ J ∈ after, runsOn P decls J = true :=
      fun J hJ => hrun J (List.mem_cons_of_mem _ hJ)
    rcases step_cases hc hs with ⟨hm, rfl⟩ | ⟨callee, Args, nb, r, hop, hnb, hr, rfl⟩
    · simp only [matchedCount_cons_none _ hm, matchedCount_append, matchedCount_nil,
        List.length_append, List.length_cons, List.length_nil]
      refine ⟨hafter, ?_, ?_, ?_, ?_⟩ <;> first | trivial | omega
    · obtain ⟨n1, n2, n3, n4, n5, q1, q2, q3, q4, q5, q6⟩ := rewriteCall_shape hr
      have hI : matched P I = some nb := matched_of_call hop hnb
      have h3 : matched P r.MPI_I_Call = none :=
        matched_synth_none hP hI (by rw [q3])
      have h4 : matched P r.MPI_Wait_Call = none := matched_wait_none hP (by rw [q4])
      have h1 : matched P r.mpi_req = none := by rw [q1]; simp [matched]
      have h2 : matched P r.mpi_status = none := by rw [q2]; simp [matched]
      have h5 : matched P r.CI = some nb := by
        rw [matched_of_op_eq (show r.CI.op = I.op by rw [q5])]
        exact hI
      have hc3 : P.nonblocking (some nb) = .ok none := hP.closed callee nb hnb
      simp only [matchedCount_cons_none _ h3, matchedCount_cons_none _ h4,
        matchedCount_cons_none _ h1, matchedCount_cons_none _ h2,
        matchedCount_cons_some _ h5, matchedCount_cons_some _ hI,
        matchedCount_append, matchedCount_nil,
        List.length_append, List.length_cons, List.length_nil, q6]
      refine ⟨?_, ?_, ?_, ?_, ?_⟩
      rotate_left
      · first | trivial | omega
      · first | trivial | omega
      · first | trivial | omega
      · first | trivial | omega
      intro J hJ
      simp only [List.mem_cons] at hJ
      rcases hJ with rfl | rfl | hJ
      · exact runsOn_of_unmatched_call (by rw [q3]) hc3
      · exact runsOn_of_unmatched_call (by rw [q4]) hP.wait
      · exact hafter J hJ

/-- The state after `k` iterations of the loop over a block that can be
processed, with the counts of what is left to do. -/
theorem scanAt_counts {P : Pass} (hP : P.Sound) (decls : List String)
    (rnd : Nat → Nat) (outside : List String) :
    ∀ (k : Nat) (c : Cursor), (∀ J ∈ c.todo, runsOn P decls J = true) →
      ∃ c', scanAt P decls rnd outside k c = .ok c' ∧
        (∀ J ∈ c'.todo, runsOn P decls J = true) ∧
        c'.todo.length + 2 * matchedCount P c'.todo =
          c.todo.length + 2 * matchedCount P c.todo - k ∧
        c'.before.length + c'.todo.length + 4 * matchedCount P c'.todo =
          c.before.length + c.todo.length + 4 * matchedCount P c.todo ∧
        c'.heap.randCalls + matchedCount P c'.todo =
          c.heap.randCalls + matchedCount P c.todo ∧
        matchedCount P c'.before + matchedCount P c'.todo =
          matchedCount P c.before + matchedCount P c.todo := by
  intro k
  induction k with
  | zero =>
    intro c hrun
    exact ⟨c, rfl, hrun, by omega, rfl, rfl, rfl⟩
  | succ k ih =>
    intro c hrun
    by_cases hnil : c.todo = []
    · refine ⟨c, scanAt_done _ _ _ _ _ _ hnil, hrun, ?_, rfl, rfl, rfl⟩
      simp [hnil, matchedCount_nil]
    · obtain ⟨I, after, hc⟩ := List.exists_cons_of_ne_nil hnil
      obtain ⟨c1, hs⟩ := step_ok_of_runsOn rnd outside hc
        (hrun I (by rw [hc]; exact List.mem_cons_self _ _))
      obtain ⟨g1, g2, g3, g4, g5⟩ := step_counts hP hnil hs hrun
      obtain ⟨c', hk, f1, f2, f3, f4, f5⟩ := ih c1 g1
      refine ⟨c', ?_, f1, ?_, ?_, ?_, ?_⟩
      · rw [scanAt_succ _ _ _ _ _ _ hnil, hs]
        exact hk
      · omega
      · omega
      · omega
      · omega

theorem Res.bind_ok_right {α : Type} (r : Res α) : r.bind Res.ok = r := by
  cases r <;> rfl

theorem Res.bind_assoc {α β γ : Type} (r : Res α) (f : α → Res β) (g : β → Res γ) :
    (r.bind f).bind g = r.bind (fun a => (f a).bind g) := by
  cases r <;> rfl

theorem step_done (P : Pass) (decls : List String) (rnd : Nat → Nat)
    (outside : List String) (c : Cursor) (h : c.todo = []) :
    step P decls rnd outside c = .ok c := by
  simp [step, h]

/-- The state after `k + 1` iterations is the state after `k` iterations, and
one more. -/
theorem scanAt_snoc (P : Pass) (decls : List String) (rnd : Nat → Nat)
    (outside : List String) :
    ∀ (k : Nat) (c : Cursor),
      scanAt P decls rnd outside (k + 1) c =
        (scanAt P decls rnd outside k c).bind (step P decls rnd outside) := by
  intro k
  induction k with
  | zero =>
    intro c
    by_cases hnil : c.todo = []
    · rw [scanAt_done _ _ _ _ _ _ hnil, scanAt_done _ _ _ _ _ _ hnil]
      exact (step_done P decls rnd outside c hnil).symm
    · rw [scanAt_succ _ _ _ _ _ _ hnil]
      show (step P decls rnd outside c).bind Res.ok = step P decls rnd outside c
      exact Res.bind_ok_right _
  | succ k ih =>
    intro c
    by_cases hnil : c.todo = []
    · rw [scanAt_done _ _ _ _ _ _ hnil, scanAt_done _ _ _ _ _ _ hnil]
      exact (step_done P decls rnd outside c hnil).symm
    · rw [scanAt_succ _ _ _ _ _ _ hnil, scanAt_succ _ _ _ _ _ _ hnil, Res.bind_assoc]
      congr 1
      funext c1
      exact ih c1

/-- The loop has not ended after `k` iterations: the bounded loop runs out. -/
theorem scan_outOfFuel (P : Pass) (decls : List String) (rnd : Nat → Nat)
    (outside : List String) :
    ∀ (k : Nat) (c c' : Cursor), scanAt P decls rnd outside k c = .ok c' → c'.todo ≠ [] →
      scan P decls rnd outside k c = .fault .outOfFuel := by
  intro k
  induction k with
  | zero =>
    intro c c' hk hne
    simp only [scanAt, Res.ok.injEq] at hk
    subst hk
    obtain ⟨I, after, hc⟩ := List.exists_cons_of_ne_nil hne
    simp [scan, hc]
  | succ k ih =>
    intro c c' hk hne
    by_cases hnil : c.todo = []
    · rw [scanAt_done _ _ _ _ _ _ hnil] at hk
      simp only [Res.ok.injEq] at hk
      subst hk
      exact absurd hnil hne
    · rw [scanAt_succ _ _ _ _ _ _ hnil] at hk
      obtain ⟨I, after, hc⟩ := List.exists_cons_of_ne_nil hnil
      cases hs : step P decls rnd outside c with
      | fault e => simp [hs, Res.bind] at hk
      | ok c1 =>
        simp only [hs, Res.bind] at hk
        simp only [scan, hc, hs, Res.bind]
        exact ih c1 c' hk hne

/-! ## A value of the function named with the deletion mark -/

/-- The symbol table of a function holds the names of its arguments and
labels: when an argument of `main` is named `MPI_Coll_To_Delete`, the marked
call of Scenario A is named `MPI_Coll_To_Delete1`, and the sweep of
`ReplaceMPIColl` leaves it in the block. -/
theorem markedArgument_keeps_call :
    visitor ReplaceMPIColl exampleRand scenarioA_markedArgument exampleHeap =
      .ok (⟨[declaration "MPI_Reduce", declaration "MPI_Ireduce", declaration "MPI_Wait",
        ⟨"main", ["MPI_Coll_To_Delete"],
          [⟨[⟨100, "mpi_req_41", .alloca .int32 0 (.constInt .int32 1)⟩,
            ⟨101, "mpi_status_41", .alloca .int32 0 (.constInt .int32 1)⟩,
            ⟨0, "MPI_Coll_To_Delete1", .call (some "MPI_Reduce")
              [.other 1, .other 2, .other 3, .other 4, .other 5, .other 6, .other 7]⟩,
            ⟨102, "MPI_Ireduce_41", .call (some "MPI_Ireduce")
              [.other 1, .other 2, .other 3, .other 4, .other 5, .other 6, .other 7,
                .inst 100]⟩,
            ⟨103, "MPI_Wait_41", .call (some "MPI_Wait") [.inst 100, .inst 101]⟩]⟩], 1⟩]⟩,
        ⟨104, 1⟩) := by
  decide

/-! ## C1: Scenario A -/

/-- C1 (Scenario A). For either pass, every operand list `args` and every
module that declares `MPI_Ireduce` and `MPI_Wait`: visiting a function whose
single block is exactly one call `MPI_Reduce(args)` (the other functions of the
module being declarations), and none of whose arguments and labels
`argsAndLabels` is named with the pass's deletion mark, succeeds and leaves in
that block exactly, in order, the alloca `req` of one `i32`, the alloca
`status` of one `i32`, the call `MPI_Ireduce(args, req)` and the call
`MPI_Wait(req, status)`; no instruction of the result is a call to
`MPI_Reduce`. -/
theorem C1_scenario_A (P : Pass) (hP : P = ReplaceMPIColl ∨ P = ReplaceMPIReduce)
    (rnd : Nat → Nat) (h : Heap) (ds₁ ds₂ : List Function) (fname : String) (lu : Nat)
    (id : Nat) (nm : String) (args : List Value) (argsAndLabels : List String)
    (hmark : P.toDelete ∉ argsAndLabels)
    (hd₁ : ∀ F ∈ ds₁, F.blocks = []) (hd₂ : ∀ F ∈ ds₂, F.blocks = [])
    (hI : "MPI_Ireduce" ∈ (ds₁ ++ ds₂).map (fun F => F.name))
    (hW : "MPI_Wait" ∈ (ds₁ ++ ds₂).map (fun F => F.name)) :
    ∃ n1 n2 n3 n4 lu' BB',
      BB' = (⟨[⟨h.nextId, n1, .alloca .int32 0 (.constInt .int32 1)⟩,
          ⟨h.nextId + 1, n2, .alloca .int32 0 (.constInt .int32 1)⟩,
          ⟨h.nextId + 2, n3, .call (some "MPI_Ireduce") (args ++ [.inst h.nextId])⟩,
          ⟨h.nextId + 3, n4,
            .call (some "MPI_Wait") [.inst h.nextId, .inst (h.nextId + 1)]⟩]⟩ : BasicBlock) ∧
      visitor P rnd
          ⟨ds₁ ++ ⟨fname, argsAndLabels, [⟨[⟨id, nm, .call (some "MPI_Reduce") args⟩]⟩], lu⟩ ::
            ds₂⟩ h =
        .ok (⟨ds₁ ++ ⟨fname, argsAndLabels, [BB'], lu'⟩ :: ds₂⟩,
          ⟨h.nextId + 4, h.randCalls + 1⟩) ∧
      ∀ I ∈ BB'.insts, ∀ a, I.op ≠ .call (some "MPI_Reduce") a := by
  have hS : P.Sound := by
    rcases hP with rfl | rfl
    · exact ReplaceMPIColl_sound
    · exact ReplaceMPIReduce_sound
  have hm : P.nonblocking (some "MPI_Reduce") = .ok (some "MPI_Ireduce") := by
    rcases hP with rfl | rfl <;> decide
  have hI' : "MPI_Ireduce" ∈ (ds₁ ++ (⟨fname, argsAndLabels,
      [⟨[⟨id, nm, .call (some "MPI_Reduce") args⟩]⟩], lu⟩ : Function) ::
      ds₂).map (fun F => F.name) := by
    simp only [List.map_append, List.mem_append, List.map_cons, List.mem_cons] at hI ⊢
    tauto
  have hW' : "MPI_Wait" ∈ (ds₁ ++ (⟨fname, argsAndLabels,
      [⟨[⟨id, nm, .call (some "MPI_Reduce") args⟩]⟩], lu⟩ : Function) ::
      ds₂).map (fun F => F.name) := by
    simp only [List.map_append, List.mem_append, List.map_cons, List.mem_cons] at hW ⊢
    tauto
  obtain ⟨n1, n2, n3, n4, lu', hv⟩ := visitBlock_single hS rnd argsAndLabels
    id nm args lu h hm hI' hW' hmark
  refine ⟨n1, n2, n3, n4, lu', _, rfl, ?_, ?_⟩
  · simp only [visitor, visitFunctions_append, visitFunctions_decls _ _ _ ds₁ h hd₁, Res.bind,
      visitFunctions, visitFunction, visitBlocks, blockNames, List.flatMap_nil, hv,
      visitFunctions_decls _ _ _ ds₂ _ hd₂, List.nil_append, List.append_nil]
  · intro I hI a
    simp only [List.mem_cons, List.mem_singleton, List.not_mem_nil, or_false] at hI
    rcases hI with rfl | rfl | rfl | rfl <;> simp

/-- C1, witness: a module declaring `MPI_Reduce`, `MPI_Ireduce` and `MPI_Wait`
whose function `main`, with arguments `argc`, `argv` and the block `entry`, is
the single call `MPI_Reduce(a1..a7)`, under `ReplaceMPIReduce`. -/
theorem C1_scenario_A_witness :
    ∃ n1 n2 n3 n4 lu' BB',
      BB' = (⟨[⟨100, n1, .alloca .int32 0 (.constInt .int32 1)⟩,
          ⟨100 + 1, n2, .alloca .int32 0 (.constInt .int32 1)⟩,
          ⟨100 + 2, n3, .call (some "MPI_Ireduce")
            ([.other 1, .other 2, .other 3, .other 4, .other 5, .other 6, .other 7] ++
              [.inst 100])⟩,
          ⟨100 + 3, n4, .call (some "MPI_Wait") [.inst 100, .inst (100 + 1)]⟩]⟩ : BasicBlock) ∧
      visitor ReplaceMPIReduce (fun _ => 1804289383)
          ⟨[⟨"MPI_Reduce", [], [], 0⟩, ⟨"MPI_Ireduce", [], [], 0⟩, ⟨"MPI_Wait", [], [], 0⟩] ++
            ⟨"main", ["argc", "argv", "entry"], [⟨[⟨0, "call", .call (some "MPI_Reduce")
              [.other 1, .other 2, .other 3, .other 4, .other 5, .other 6, .other 7]⟩]⟩], 0⟩ ::
            []⟩ ⟨100, 0⟩ =
        .ok (⟨[⟨"MPI_Reduce", [], [], 0⟩, ⟨"MPI_Ireduce", [], [], 0⟩, ⟨"MPI_Wait", [], [], 0⟩] ++
          ⟨"main", ["argc", "argv", "entry"], [BB'], lu'⟩ :: []⟩, ⟨100 + 4, 0 + 1⟩) ∧
      ∀ I ∈ BB'.insts, ∀ a, I.op ≠ .call (some "MPI_Reduce") a :=
  C1_scenario_A ReplaceMPIReduce (Or.inr rfl) (fun _ => 1804289383) ⟨100, 0⟩
    [⟨"MPI_Reduce", [], [], 0⟩, ⟨"MPI_Ireduce", [], [], 0⟩, ⟨"MPI_Wait", [], [], 0⟩] [] "main" 0 0 "call"
    [.other 1, .other 2, .other 3, .other 4, .other 5, .other 6, .other 7]
    ["argc", "argv", "entry"] (by decide) (by decide) (by decide) (by decide) (by decide)

/-! ## C2: operand forwarding -/

/-- C2 (operand-forwarding law). For either pass and every module the pass can
process: the visit succeeds, and for every block and every matched call `CI`
of it, with operands `operands CI` (`K` of them), the resulting block holds
the two allocas created for that site (two new, consecutive objects, the
request alloca first), then the original call if it was not erased, then the
non-blocking call, whose operand list has `K + 1` entries: the `K` operands
of `CI` in the same order, and last the request alloca, no other value. -/
theorem C2_operand_forwarding (P : Pass) (hP : P = ReplaceMPIColl ∨ P = ReplaceMPIReduce)
    (rnd : Nat → Nat) (M : Module) (h : Heap) (hw : wellDeclared P M = true) :
    ∃ M' h', visitor P rnd M h = .ok (M', h') ∧
      Blockwise (fun _ BB BB' =>
        ∀ pre CI post nb, BB.insts = pre ++ CI :: post → matched P CI = some nb →
          ∃ pre' req status tag I_Call post' newArgs,
            BB'.insts = pre' ++ req :: status :: (tag ++ I_Call :: post') ∧
            (tag = [] ∨ ∃ n, tag = [⟨CI.id, n, CI.op⟩]) ∧
            req.op = .alloca .int32 0 (.constInt .int32 1) ∧
            status.op = .alloca .int32 0 (.constInt .int32 1) ∧
            h.nextId ≤ req.id ∧ status.id = req.id + 1 ∧ I_Call.id = req.id + 2 ∧
            I_Call.op = .call (some nb) newArgs ∧
            newArgs.length = (operands CI).length + 1 ∧
            newArgs.take (operands CI).length = operands CI ∧
            newArgs.drop (operands CI).length = [.inst req.id]) M M' := by
  have hS : P.Sound := by
    rcases hP with rfl | rfl
    · exact ReplaceMPIColl_sound
    · exact ReplaceMPIReduce_sound
  obtain ⟨M', h', hv, hb⟩ := visitor_blockwise hS rnd M h hw
  refine ⟨M', h', hv, hb.imp ?_⟩
  rintro F F' ⟨hn, hbs⟩
  refine ⟨hn, hbs.imp ?_⟩
  rintro BB BB' ⟨outside, lu1, h1, lu2, h2, hvb, hle, -, -⟩ pre CI post nb hBB hm
  obtain ⟨pre', k, n1, n2, n3, n4, tag, post', hi, ht, hk⟩ :=
    visitBlock_site_shape hS hvb hBB hm
  exact ⟨pre', _, _, tag, _, _, operands CI ++ [.inst k], hi, ht, rfl, rfl, by simp only; omega,
    rfl, rfl, rfl, by simp, by simp, by simp⟩

/-- C2, witness: `ReplaceMPIColl` on Scenario B. -/
theorem C2_operand_forwarding_witness :
    (ReplaceMPIColl = ReplaceMPIColl ∨ ReplaceMPIColl = ReplaceMPIReduce) ∧
    wellDeclared ReplaceMPIColl scenarioB = true ∧
    ∃ M' h', visitor ReplaceMPIColl exampleRand scenarioB exampleHeap = .ok (M', h') ∧
      Blockwise (fun _ BB BB' =>
        ∀ pre CI post nb, BB.insts = pre ++ CI :: post →
          matched ReplaceMPIColl CI = some nb →
          ∃ pre' req status tag I_Call post' newArgs,
            BB'.insts = pre' ++ req :: status :: (tag ++ I_Call :: post') ∧
            (tag = [] ∨ ∃ n, tag = [⟨CI.id, n, CI.op⟩]) ∧
            req.op = .alloca .int32 0 (.constInt .int32 1) ∧
            status.op = .alloca .int32 0 (.constInt .int32 1) ∧
            exampleHeap.nextId ≤ req.id ∧ status.id = req.id + 1 ∧ I_Call.id = req.id + 2 ∧
            I_Call.op = .call (some nb) newArgs ∧
            newArgs.length = (operands CI).length + 1 ∧
            newArgs.take (operands CI).length = operands CI ∧
            newArgs.drop (operands CI).length = [.inst req.id]) scenarioB M' :=
  ⟨Or.inl rfl, by decide,
    C2_operand_forwarding ReplaceMPIColl (Or.inl rfl) exampleRand scenarioB exampleHeap
      (by decide)⟩

/-! ## C3: pairing and adjacency -/

/-- C3 (pairing, adjacency). For either pass and every module the pass can
process: the visit succeeds, and in every resulting block, for every matched
call `CI` of the original block, the non-blocking call made for it (callee the
non-blocking name, operands those of `CI` and the site's request alloca) is
immediately followed by a call to `MPI_Wait` whose operand list is exactly
(request alloca, status alloca) of that same site, the two allocas being the
two consecutive new objects that stand before the site; nothing lies between
the two calls, and every site has its wait. -/
theorem C3_pairing (P : Pass) (hP : P = ReplaceMPIColl ∨ P = ReplaceMPIReduce)
    (rnd : Nat → Nat) (M : Module) (h : Heap) (hw : wellDeclared P M = true) :
    ∃ M' h', visitor P rnd M h = .ok (M', h') ∧
      Blockwise (fun _ BB BB' =>
        ∀ pre CI post nb, BB.insts = pre ++ CI :: post → matched P CI = some nb →
          ∃ pre' req status tag I_Call Wait_Call post',
            BB'.insts = pre' ++ req :: status :: (tag ++ I_Call :: Wait_Call :: post') ∧
            (tag = [] ∨ ∃ n, tag = [⟨CI.id, n, CI.op⟩]) ∧
            h.nextId ≤ req.id ∧ status.id = req.id + 1 ∧
            req.op = .alloca .int32 0 (.constInt .int32 1) ∧
            status.op = .alloca .int32 0 (.constInt .int32 1) ∧
            I_Call.op = .call (some nb) (operands CI ++ [.inst req.id]) ∧
            Wait_Call.op = .call (some "MPI_Wait") [.inst req.id, .inst status.id]) M M' := by
  have hS : P.Sound := by
    rcases hP with rfl | rfl
    · exact ReplaceMPIColl_sound
    · exact ReplaceMPIReduce_sound
  obtain ⟨M', h', hv, hb⟩ := visitor_blockwise hS rnd M h hw
  refine ⟨M', h', hv, hb.imp ?_⟩
  rintro F F' ⟨hn, hbs⟩
  refine ⟨hn, hbs.imp ?_⟩
  rintro BB BB' ⟨outside, lu1, h1, lu2, h2, hvb, hle, -, -⟩ pre CI post nb hBB hm
  obtain ⟨pre', k, n1, n2, n3, n4, tag, post', hi, ht, hk⟩ :=
    visitBlock_site_shape hS hvb hBB hm
  exact ⟨pre', _, _, tag, _, _, _, hi, ht, by simp only; omega, rfl, rfl, rfl, rfl, rfl⟩

/-- C3, witness: `ReplaceMPIColl` on Scenario B. -/
theorem C3_pairing_witness :
    (ReplaceMPIColl = ReplaceMPIColl ∨ ReplaceMPIColl = ReplaceMPIReduce) ∧
    wellDeclared ReplaceMPIColl scenarioB = true ∧
    ∃ M' h', visitor ReplaceMPIColl exampleRand scenarioB exampleHeap = .ok (M', h') ∧
      Blockwise (fun _ BB BB' =>
        ∀ pre CI post nb, BB.insts = pre ++ CI :: post →
          matched ReplaceMPIColl CI = some nb →
          ∃ pre' req status tag I_Call Wait_Call post',
            BB'.insts = pre' ++ req :: status :: (tag ++ I_Call :: Wait_Call :: post') ∧
            (tag = [] ∨ ∃ n, tag = [⟨CI.id, n, CI.op⟩]) ∧
            exampleHeap.nextId ≤ req.id ∧ status.id = req.id + 1 ∧
            req.op = .alloca .int32 0 (.constInt .int32 1) ∧
            status.op = .alloca .int32 0 (.constInt .int32 1) ∧
            I_Call.op = .call (some nb) (operands CI ++ [.inst req.id]) ∧
            Wait_Call.op = .call (some "MPI_Wait") [.inst req.id, .inst status.id])
        scenarioB M' :=
  ⟨Or.inl rfl, by decide,
    C3_pairing ReplaceMPIColl (Or.inl rfl) exampleRand scenarioB exampleHeap (by decide)⟩

/-! ## C4: positions -/

/-- C4, counterexample. In Scenario A the call `MPI_Reduce` stands at position
0 of its block; after `ReplaceMPIColl` position 0 holds the request alloca and
the non-blocking call stands at position 2, after the two allocas, not at the
position the original call had. -/
theorem C4_counterexample :
    scenarioA = mainOnly "MPI_Reduce" "MPI_Ireduce"
      ⟨[⟨0, "", .call (some "MPI_Reduce")
        [.other 1, .other 2, .other 3, .other 4, .other 5, .other 6, .other 7]⟩]⟩ 0 ∧
    visitor ReplaceMPIColl exampleRand scenarioA exampleHeap =
      .ok (mainOnly "MPI_Reduce" "MPI_Ireduce" scenarioA_block 0, ⟨104, 1⟩) ∧
    scenarioA_block.insts[0]? =
      some ⟨100, "mpi_req_41", .alloca .int32 0 (.constInt .int32 1)⟩ ∧
    scenarioA_block.insts[2]? =
      some ⟨102, "MPI_Ireduce_41", .call (some "MPI_Ireduce")
        [.other 1, .other 2, .other 3, .other 4, .other 5, .other 6, .other 7, .inst 100]⟩ ∧
    ¬ ∃ I a, scenarioA_block.insts[0]? = some I ∧ I.op = .call (some "MPI_Ireduce") a := by
  refine ⟨by decide, by decide, by decide, by decide, ?_⟩
  rintro ⟨I, a, hI, ha⟩
  have : I = ⟨100, "mpi_req_41", .alloca .int32 0 (.constInt .int32 1)⟩ := by
    have h0 : scenarioA_block.insts[0]? =
        some ⟨100, "mpi_req_41", .alloca .int32 0 (.constInt .int32 1)⟩ := by decide
    rw [h0] at hI
    exact (Option.some.inj hI).symm
  subst this
  cases ha

/-- C4, amended (order invariant). For either pass and every module the pass
can process: the visit succeeds, and for every matched call `CI` of every
block, the non-blocking call made for it stands at some position `q` of the
resulting block and its `MPI_Wait` call at position `q + 1`, exactly one
instruction later; and when `CI` is the first matched call of its block, at
position `p`, in a function none of whose values is named with the deletion
mark, then `q = p + 2`: the non-blocking call stands two places (the two
allocas) after the position the original call had. -/
theorem C4_order_amended (P : Pass) (hP : P = ReplaceMPIColl ∨ P = ReplaceMPIReduce)
    (rnd : Nat → Nat) (M : Module) (h : Heap) (hw : wellDeclared P M = true) :
    ∃ M' h', visitor P rnd M h = .ok (M', h') ∧
      Blockwise (fun F BB BB' =>
        ∀ pre CI post nb, BB.insts = pre ++ CI :: post → matched P CI = some nb →
          ∃ q I_Call Wait_Call k,
            BB'.insts[q]? = some I_Call ∧ BB'.insts[q + 1]? = some Wait_Call ∧
            I_Call.op = .call (some nb) (operands CI ++ [.inst k]) ∧
            Wait_Call.op = .call (some "MPI_Wait") [.inst k, .inst (k + 1)] ∧
            I_Call.id = k + 2 ∧ Wait_Call.id = k + 3 ∧ h.nextId ≤ k ∧
            ((∀ I ∈ pre, matched P I = none) → P.toDelete ∉ getValueSymbolTable F →
              q = pre.length + 2)) M M' := by
  have hS : P.Sound := by
    rcases hP with rfl | rfl
    · exact ReplaceMPIColl_sound
    · exact ReplaceMPIReduce_sound
  obtain ⟨M', h', hv, hb⟩ := visitor_blockwise hS rnd M h hw
  refine ⟨M', h', hv, hb.imp ?_⟩
  rintro F F' ⟨hn, hbs⟩
  refine ⟨hn, hbs.imp ?_⟩
  rintro BB BB' ⟨outside, lu1, h1, lu2, h2, hvb, hle, hmem, ho⟩ pre CI post nb hBB hm
  obtain ⟨q, k, n3, n4, hq, hq1, hk, hfirst⟩ := visitBlock_site_position hS hvb hBB hm
  refine ⟨q, _, _, k, hq, hq1, rfl, rfl, rfl, rfl, by omega, ?_⟩
  intro hpre hF
  exact hfirst hpre (fun hc => hF (ho hc))
    (not_mem_names_of_blockNames (fun hc => hF (List.mem_append_right _ hc)) hmem)

/-- C4, witness: `ReplaceMPIColl` on Scenario B. -/
theorem C4_order_amended_witness :
    (ReplaceMPIColl = ReplaceMPIColl ∨ ReplaceMPIColl = ReplaceMPIReduce) ∧
    wellDeclared ReplaceMPIColl scenarioB = true ∧
    ∃ M' h', visitor ReplaceMPIColl exampleRand scenarioB exampleHeap = .ok (M', h') ∧
      Blockwise (fun F BB BB' =>
        ∀ pre CI post nb, BB.insts = pre ++ CI :: post →
          matched ReplaceMPIColl CI = some nb →
          ∃ q I_Call Wait_Call k,
            BB'.insts[q]? = some I_Call ∧ BB'.insts[q + 1]? = some Wait_Call ∧
            I_Call.op = .call (some nb) (operands CI ++ [.inst k]) ∧
            Wait_Call.op = .call (some "MPI_Wait") [.inst k, .inst (k + 1)] ∧
            I_Call.id = k + 2 ∧ Wait_Call.id = k + 3 ∧ exampleHeap.nextId ≤ k ∧
            ((∀ I ∈ pre, matched ReplaceMPIColl I = none) →
              ReplaceMPIColl.toDelete ∉ getValueSymbolTable F →
              q = pre.length + 2)) scenarioB M' :=
  ⟨Or.inl rfl, by decide,
    C4_order_amended ReplaceMPIColl (Or.inl rfl) exampleRand scenarioB exampleHeap (by decide)⟩

/-! ## C5: instruction count -/

/-- C5, counterexample. The block of Scenario A has one instruction, which is
its one matched call; after `ReplaceMPIColl` it has four instructions, not two:
the two allocas are instructions of the block as well. -/
theorem C5_counterexample :
    scenarioA = mainOnly "MPI_Reduce" "MPI_Ireduce"
      ⟨[⟨0, "", .call (some "MPI_Reduce")
        [.other 1, .other 2, .other 3, .other 4, .other 5, .other 6, .other 7]⟩]⟩ 0 ∧
    visitor ReplaceMPIColl exampleRand scenarioA exampleHeap =
      .ok (mainOnly "MPI_Reduce" "MPI_Ireduce" scenarioA_block 0, ⟨104, 1⟩) ∧
    scenarioA_block.insts.length = 4 ∧ scenarioA_block.insts.length ≠ 1 + 1 := by
  decide

/-- C5, amended (instruction count). For either pass and every module the pass
can process: the visit succeeds, and every block with `m` instructions and
`n ≤ 1` matched calls, in a function none of whose values is named with the
deletion mark, has `m + 3 * n` instructions afterwards: per matched call, one
original call removed, two allocas and two calls added. -/
theorem C5_count_amended (P : Pass) (hP : P = ReplaceMPIColl ∨ P = ReplaceMPIReduce)
    (rnd : Nat → Nat) (M : Module) (h : Heap) (hw : wellDeclared P M = true) :
    ∃ M' h', visitor P rnd M h = .ok (M', h') ∧
      Blockwise (fun F BB BB' =>
        P.toDelete ∉ getValueSymbolTable F →
        (BB.insts.filter (fun I => (matched P I).isSome)).length ≤ 1 →
        BB'.insts.length =
          BB.insts.length + 3 * (BB.insts.filter (fun I => (matched P I).isSome)).length)
        M M' := by
  have hS : P.Sound := by
    rcases hP with rfl | rfl
    · exact ReplaceMPIColl_sound
    · exact ReplaceMPIReduce_sound
  obtain ⟨M', h', hv, hb⟩ := visitor_blockwise hS rnd M h hw
  refine ⟨M', h', hv, hb.imp ?_⟩
  rintro F F' ⟨hn, hbs⟩
  refine ⟨hn, hbs.imp ?_⟩
  rintro BB BB' ⟨outside, lu1, h1, lu2, h2, hvb, hle, hmem, ho⟩ hF hcount
  have hnames := not_mem_names_of_blockNames
    (fun hc => hF (List.mem_append_right F.argsAndLabels hc)) hmem
  cases hfl : BB.insts.filter (fun I => (matched P I).isSome) with
  | nil =>
    have hall : ∀ I ∈ BB.insts, matched P I = none ∧ I.name ≠ P.toDelete := by
      intro I hI
      refine ⟨?_, fun hc => hnames (by simpa [names] using ⟨I, hI, hc⟩)⟩
      have := List.filter_eq_nil_iff.mp hfl I hI
      simpa using this
    rw [(visitBlock_untouched hS hvb hall).1]
    simp
  | cons CI rest =>
    rw [hfl] at hcount
    have hrest : rest = [] := by
      cases rest with
      | nil => rfl
      | cons a b => simp at hcount
    subst hrest
    obtain ⟨pre, post, hBB, hpre, hCI, hpost⟩ := List.filter_eq_cons_iff.mp hfl
    have hpre' : ∀ I ∈ pre, matched P I = none := fun I hI => by simpa using hpre I hI
    have hpost' : ∀ I ∈ post, matched P I = none :=
      fun I hI => by simpa using List.filter_eq_nil_iff.mp hpost I hI
    obtain ⟨nb, hnb⟩ := Option.isSome_iff_exists.mp hCI
    obtain ⟨n1, n2, n3, n4, post', hi, hp⟩ := visitBlock_first_site hS hvb hBB hnb hpre'
      (fun hc => hF (ho hc)) hnames
    rw [hi, hp hpost', hBB]
    simp
    omega

/-- C5, witness: `ReplaceMPIReduce` on Scenario A. -/
theorem C5_count_amended_witness :
    (ReplaceMPIReduce = ReplaceMPIColl ∨ ReplaceMPIReduce = ReplaceMPIReduce) ∧
    wellDeclared ReplaceMPIReduce scenarioA = true ∧
    ∃ M' h', visitor ReplaceMPIReduce exampleRand scenarioA exampleHeap = .ok (M', h') ∧
      Blockwise (fun F BB BB' =>
        ReplaceMPIReduce.toDelete ∉ getValueSymbolTable F →
        (BB.insts.filter (fun I => (matched ReplaceMPIReduce I).isSome)).length ≤ 1 →
        BB'.insts.length = BB.insts.length +
          3 * (BB.insts.filter (fun I => (matched ReplaceMPIReduce I).isSome)).length)
        scenarioA M' :=
  ⟨Or.inr rfl, by decide,
    C5_count_amended ReplaceMPIReduce (Or.inr rfl) exampleRand scenarioA exampleHeap
      (by decide)⟩

/-! ## C6: the eraser -/

/-- C6, the code at the failing input (Scenario B, two `MPI_Bcast` calls in
one block, `ReplaceMPIColl`). Both calls are matched and rewritten. The first
is renamed `MPI_Coll_To_Delete` and erased by the sweep. When the second is
renamed, that name is taken by the first, so `setName` gives it the unique
name `MPI_Coll_To_Delete1`; the sweep compares names with `MPI_Coll_To_Delete`
and passes it over. No instruction of the result carries the mark, the
synthesized calls are all there, but the second matched `MPI_Bcast` call is
still in the block. -/
theorem C6_eraser_misses_second_site :
    scenarioB = mainOnly "MPI_Bcast" "MPI_Ibcast"
      ⟨[⟨0, "", .call (some "MPI_Bcast") [.other 1, .other 2, .other 3, .other 4, .other 5]⟩,
        ⟨1, "", .call (some "MPI_Bcast") [.other 6, .other 2, .other 3, .other 4, .other 5]⟩]⟩
      0 ∧
    matched ReplaceMPIColl
      ⟨1, "", .call (some "MPI_Bcast") [.other 6, .other 2, .other 3, .other 4, .other 5]⟩ =
        some "MPI_Ibcast" ∧
    visitor ReplaceMPIColl exampleRand scenarioB exampleHeap =
      .ok (mainOnly "MPI_Bcast" "MPI_Ibcast" scenarioB_block 1, ⟨108, 2⟩) ∧
    (⟨1, "MPI_Coll_To_Delete1",
      .call (some "MPI_Bcast") [.other 6, .other 2, .other 3, .other 4, .other 5]⟩ :
        Instruction) ∈ scenarioB_block.insts ∧
    (∀ I ∈ scenarioB_block.insts, I.name ≠ "MPI_Coll_To_Delete") := by
  decide

/-! ## C7: Scenario B -/

/-- C7 (Scenario B). For every module `ReplaceMPIColl` can process, the visit
succeeds, and for every block holding two calls to `MPI_Bcast` (`b1` before
`b2`): each of the two sites has its own request alloca and status alloca
(four distinct new objects), the four handle names are pairwise distinct, each
`MPI_Ibcast` call takes the operands of its `MPI_Bcast` and its own request
alloca and is immediately followed by the `MPI_Wait` call on its own request
and status allocas, and the pair of the first site stands wholly before the
allocas and the pair of the second. More generally the value names of every
function (of its arguments, labels and instructions), unnamed values apart,
are pairwise distinct after the pass if they were before, and with them the
names of all handles made in the function. -/
theorem C7_scenario_B (rnd : Nat → Nat) (M : Module) (h : Heap)
    (hw : wellDeclared ReplaceMPIColl M = true) :
    ∃ M' h', visitor ReplaceMPIColl rnd M h = .ok (M', h') ∧
      Blockwise (fun _ BB BB' =>
        ∀ pre b1 mid b2 post a1 a2, BB.insts = pre ++ b1 :: (mid ++ b2 :: post) →
          b1.op = .call (some "MPI_Bcast") a1 → b2.op = .call (some "MPI_Bcast") a2 →
          ∃ pre' req1 st1 tag1 ib1 w1 mid' req2 st2 tag2 ib2 w2 post',
            BB'.insts = pre' ++ req1 :: st1 :: (tag1 ++ ib1 :: w1 ::
              (mid' ++ req2 :: st2 :: (tag2 ++ ib2 :: w2 :: post'))) ∧
            (tag1 = [] ∨ ∃ n, tag1 = [⟨b1.id, n, b1.op⟩]) ∧
            (tag2 = [] ∨ ∃ n, tag2 = [⟨b2.id, n, b2.op⟩]) ∧
            req1.op = .alloca .int32 0 (.constInt .int32 1) ∧
            st1.op = .alloca .int32 0 (.constInt .int32 1) ∧
            req2.op = .alloca .int32 0 (.constInt .int32 1) ∧
            st2.op = .alloca .int32 0 (.constInt .int32 1) ∧
            ib1.op = .call (some "MPI_Ibcast") (a1 ++ [.inst req1.id]) ∧
            w1.op = .call (some "MPI_Wait") [.inst req1.id, .inst st1.id] ∧
            ib2.op = .call (some "MPI_Ibcast") (a2 ++ [.inst req2.id]) ∧
            w2.op = .call (some "MPI_Wait") [.inst req2.id, .inst st2.id] ∧
            h.nextId ≤ req1.id ∧
            [req1.id, st1.id, req2.id, st2.id].Nodup ∧
            [req1.name, st1.name, req2.name, st2.name].Nodup) M M' ∧
      List.Forall₂ (fun F F' =>
        ((getValueSymbolTable F).filter (fun s => decide (s ≠ ""))).Nodup →
        ((getValueSymbolTable F').filter (fun s => decide (s ≠ ""))).Nodup) M.funcs M'.funcs := by
  have hS := ReplaceMPIColl_sound
  obtain ⟨M', h', hv, hb⟩ := visitor_blockwise hS rnd M h hw
  refine ⟨M', h', hv, hb.imp ?_, ?_⟩
  · rintro F F' ⟨hn, hbs⟩
    refine ⟨hn, hbs.imp ?_⟩
    rintro BB BB' ⟨outside, lu1, h1, lu2, h2, hvb, hle, -, -⟩ pre b1 mid b2 post a1 a2 hBB
      hb1 hb2
    have hm1 : matched ReplaceMPIColl b1 = some "MPI_Ibcast" :=
      matched_of_call hb1 (by decide)
    have hm2 : matched ReplaceMPIColl b2 = some "MPI_Ibcast" :=
      matched_of_call hb2 (by decide)
    obtain ⟨pre', k1, n1, n2, n3, n4, tag1, mid', k2, m1, m2, m3, m4, tag2, post', hi, ht1,
      ht2, hk1, hk2, d1, d2, d3, d4, d5, d6⟩ := visitBlock_two_sites hS hvb hBB hm1 hm2
    rw [operands_of_call hb1, operands_of_call hb2] at hi
    refine ⟨pre', _, _, tag1, _, _, mid', _, _, tag2, _, _, post', hi, ht1, ht2, rfl, rfl,
      rfl, rfl, rfl, rfl, rfl, rfl, by simp only; omega, ?_, ?_⟩
    · simp only [List.nodup_cons, List.mem_cons, List.mem_singleton, List.not_mem_nil,
        not_or, List.nodup_nil, and_true, not_false_eq_true]
      omega
    · simp only [List.nodup_cons, List.mem_cons, List.mem_singleton, List.not_mem_nil,
        not_or, List.nodup_nil, and_true, not_false_eq_true]
      exact ⟨⟨d1, d2, d3⟩, ⟨d4, d5⟩, d6⟩
  · refine (visitFunctions_unique hS _ rnd _ _ _ (visitFunctions_of_visitor hv)).imp ?_
    intro F F' hu hn
    exact (uniqueNames_iff _).mp (hu ((uniqueNames_iff _).mpr hn))

/-- C7, witness: Scenario B. -/
theorem C7_scenario_B_witness :
    wellDeclared ReplaceMPIColl scenarioB = true ∧
    ∃ M' h', visitor ReplaceMPIColl exampleRand scenarioB exampleHeap = .ok (M', h') ∧
      Blockwise (fun _ BB BB' =>
        ∀ pre b1 mid b2 post a1 a2, BB.insts = pre ++ b1 :: (mid ++ b2 :: post) →
          b1.op = .call (some "MPI_Bcast") a1 → b2.op = .call (some "MPI_Bcast") a2 →
          ∃ pre' req1 st1 tag1 ib1 w1 mid' req2 st2 tag2 ib2 w2 post',
            BB'.insts = pre' ++ req1 :: st1 :: (tag1 ++ ib1 :: w1 ::
              (mid' ++ req2 :: st2 :: (tag2 ++ ib2 :: w2 :: post'))) ∧
            (tag1 = [] ∨ ∃ n, tag1 = [⟨b1.id, n, b1.op⟩]) ∧
            (tag2 = [] ∨ ∃ n, tag2 = [⟨b2.id, n, b2.op⟩]) ∧
            req1.op = .alloca .int32 0 (.constInt .int32 1) ∧
            st1.op = .alloca .int32 0 (.constInt .int32 1) ∧
            req2.op = .alloca .int32 0 (.constInt .int32 1) ∧
            st2.op = .alloca .int32 0 (.constInt .int32 1) ∧
            ib1.op = .call (some "MPI_Ibcast") (a1 ++ [.inst req1.id]) ∧
            w1.op = .call (some "MPI_Wait") [.inst req1.id, .inst st1.id] ∧
            ib2.op = .call (some "MPI_Ibcast") (a2 ++ [.inst req2.id]) ∧
            w2.op = .call (some "MPI_Wait") [.inst req2.id, .inst st2.id] ∧
            exampleHeap.nextId ≤ req1.id ∧
            [req1.id, st1.id, req2.id, st2.id].Nodup ∧
            [req1.name, st1.name, req2.name, st2.name].Nodup) scenarioB M' ∧
      List.Forall₂ (fun F F' =>
        ((getValueSymbolTable F).filter (fun s => decide (s ≠ ""))).Nodup →
        ((getValueSymbolTable F').filter (fun s => decide (s ≠ ""))).Nodup)
        scenarioB.funcs M'.funcs :=
  ⟨by decide, C7_scenario_B exampleRand scenarioB exampleHeap (by decide)⟩

/-! ## C8: unmatched instructions -/

/-- C8, counterexample. The only call of `scenarioC` is a call to `puts`, a
name outside the catalog, and the call is named `MPI_Coll_To_Delete`: the scan
matches nothing, and the sweep of `ReplaceMPIColl` erases the call. -/
theorem C8_counterexample :
    scenarioC = ⟨[declaration "puts",
      ⟨"main", [], [⟨[⟨0, "MPI_Coll_To_Delete", .call (some "puts") [.other 1]⟩]⟩], 0⟩]⟩ ∧
    matched ReplaceMPIColl ⟨0, "MPI_Coll_To_Delete", .call (some "puts") [.other 1]⟩ = none ∧
    visitor ReplaceMPIColl exampleRand scenarioC exampleHeap =
      .ok (⟨[declaration "puts", ⟨"main", [], [⟨[]⟩], 0⟩]⟩, exampleHeap) := by
  decide

/-- C8, amended (Scenario C). For either pass and every module the pass can
process: the visit succeeds, and in every block the instructions that are not
matched calls (in particular every call to a name outside the catalog) and are
not named with the deletion mark are all in the resulting block, unmodified
and in the same relative order; a block without matched call and without
instruction named with the mark is returned identical. -/
theorem C8_unmatched_amended (P : Pass) (hP : P = ReplaceMPIColl ∨ P = ReplaceMPIReduce)
    (rnd : Nat → Nat) (M : Module) (h : Heap) (hw : wellDeclared P M = true) :
    ∃ M' h', visitor P rnd M h = .ok (M', h') ∧
      Blockwise (fun _ BB BB' =>
        (BB.insts.filter (fun I => decide (matched P I = none) &&
          decide (I.name ≠ P.toDelete))).Sublist BB'.insts ∧
        ((∀ I ∈ BB.insts, matched P I = none ∧ I.name ≠ P.toDelete) → BB' = BB)) M M' := by
  have hS : P.Sound := by
    rcases hP with rfl | rfl
    · exact ReplaceMPIColl_sound
    · exact ReplaceMPIReduce_sound
  obtain ⟨M', h', hv, hb⟩ := visitor_blockwise hS rnd M h hw
  refine ⟨M', h', hv, hb.imp ?_⟩
  rintro F F' ⟨hn, hbs⟩
  refine ⟨hn, hbs.imp ?_⟩
  rintro BB BB' ⟨outside, lu1, h1, lu2, h2, hvb, -, -, -⟩
  exact ⟨visitBlock_keeps hS hvb, fun hall => (visitBlock_untouched hS hvb hall).1⟩

/-- C8, witness: `ReplaceMPIColl` on `scenarioMixed`. The first block of
`main` has two instructions that are not matched calls, around a matched call;
the second block has no matched call and no instruction named with the mark,
and is returned identical. -/
theorem C8_unmatched_amended_witness :
    (ReplaceMPIColl = ReplaceMPIColl ∨ ReplaceMPIColl = ReplaceMPIReduce) ∧
    wellDeclared ReplaceMPIColl scenarioMixed = true ∧
    (scenarioMixed.funcs.flatMap (fun F => F.blocks)).map (fun BB =>
        BB.insts.filter (fun I => decide (matched ReplaceMPIColl I = none) &&
          decide (I.name ≠ ReplaceMPIColl.toDelete))) =
      [[⟨0, "", .call (some "puts") [.other 1]⟩, ⟨2, "sum", .other 7⟩],
        [⟨3, "MPI_Iput", .call (some "puts") [.inst 2]⟩, ⟨4, "", .other 8⟩]] ∧
    (∀ I ∈ ([⟨3, "MPI_Iput", .call (some "puts") [.inst 2]⟩, ⟨4, "", .other 8⟩] :
        List Instruction),
      matched ReplaceMPIColl I = none ∧ I.name ≠ ReplaceMPIColl.toDelete) ∧
    ∃ M' h', visitor ReplaceMPIColl exampleRand scenarioMixed exampleHeap = .ok (M', h') ∧
      Blockwise (fun _ BB BB' =>
        (BB.insts.filter (fun I => decide (matched ReplaceMPIColl I = none) &&
          decide (I.name ≠ ReplaceMPIColl.toDelete))).Sublist BB'.insts ∧
        ((∀ I ∈ BB.insts, matched ReplaceMPIColl I = none ∧
          I.name ≠ ReplaceMPIColl.toDelete) → BB' = BB)) scenarioMixed M' :=
  ⟨Or.inl rfl, by decide, by decide, by decide,
    C8_unmatched_amended ReplaceMPIColl (Or.inl rfl) exampleRand scenarioMixed exampleHeap
      (by decide)⟩

/-! ## C9: a second run -/

/-- C9, the code at the failing input (Scenario B, `ReplaceMPIColl` run
twice). The first run leaves the second `MPI_Bcast` call in the block (named
`MPI_Coll_To_Delete1`, see C6); the second run matches that call, makes two
more allocas and a second `MPI_Ibcast`/`MPI_Wait` pair for it, and erases it:
the second run finds a match and changes the program. -/
theorem C9_second_run_rematches :
    visitor ReplaceMPIColl exampleRand scenarioB exampleHeap =
      .ok (mainOnly "MPI_Bcast" "MPI_Ibcast" scenarioB_block 1, ⟨108, 2⟩) ∧
    (scenarioB_block.insts.filter (fun I => (matched ReplaceMPIColl I).isSome)).length = 1 ∧
    visitor ReplaceMPIColl exampleRand (mainOnly "MPI_Bcast" "MPI_Ibcast" scenarioB_block 1)
        ⟨108, 2⟩ =
      .ok (mainOnly "MPI_Bcast" "MPI_Ibcast" scenarioB_block_again 1, ⟨112, 3⟩) ∧
    mainOnly "MPI_Bcast" "MPI_Ibcast" scenarioB_block_again 1 ≠
      mainOnly "MPI_Bcast" "MPI_Ibcast" scenarioB_block 1 := by
  decide

/-! ## C10: the catalog -/

/-- C10 (catalog totality). On a resolved callee name `n`,
`is_mpi_collective_call` returns `(true, n, nonblocking)` exactly when `n` is
one of the 16 catalog names, and `(false, "", "")` for every other name; the
non-blocking name returned is the documented counterpart, `MPI_I` followed by
the lower-cased remainder (so `MPI_Reduce_scatter` gives `MPI_Ireduce_scatter`,
and the 16 counterparts are the listed ones); the single entry of
`ReplaceMPIReduce` (`MPI_Reduce` to `MPI_Ireduce`) is an entry of the general
catalog, every match of the specialized pass is a match of the general one with
the same result, and the general catalog matches names the specialized one
does not. -/
theorem C10_catalog_totality :
    (∀ n : String, is_mpi_collective_call (some n) = .ok
      (if n ∈ ["MPI_Allgather", "MPI_Allgatherv", "MPI_Allreduce", "MPI_Alltoall",
          "MPI_Alltoallv", "MPI_Alltoallw", "MPI_Bcast", "MPI_Exscan", "MPI_Gather",
          "MPI_Gatherv", "MPI_Reduce", "MPI_Reduce_scatter", "MPI_Reduce_scatter_block",
          "MPI_Scan", "MPI_Scatter", "MPI_Scatterv"]
        then (true, n, documentedNonblocking n) else (false, "", ""))) ∧
    (["MPI_Allgather", "MPI_Allgatherv", "MPI_Allreduce", "MPI_Alltoall",
        "MPI_Alltoallv", "MPI_Alltoallw", "MPI_Bcast", "MPI_Exscan", "MPI_Gather",
        "MPI_Gatherv", "MPI_Reduce", "MPI_Reduce_scatter", "MPI_Reduce_scatter_block",
        "MPI_Scan", "MPI_Scatter", "MPI_Scatterv"].map documentedNonblocking =
      ["MPI_Iallgather", "MPI_Iallgatherv", "MPI_Iallreduce", "MPI_Ialltoall",
        "MPI_Ialltoallv", "MPI_Ialltoallw", "MPI_Ibcast", "MPI_Iexscan", "MPI_Igather",
        "MPI_Igatherv", "MPI_Ireduce", "MPI_Ireduce_scatter", "MPI_Ireduce_scatter_block",
        "MPI_Iscan", "MPI_Iscatter", "MPI_Iscatterv"]) ∧
    (ReplaceMPIReduce.nonblocking (some "MPI_Reduce") = .ok (some "MPI_Ireduce") ∧
      is_mpi_collective_call (some "MPI_Reduce") = .ok (true, "MPI_Reduce", "MPI_Ireduce")) ∧
    (∀ n nb : String, ReplaceMPIReduce.nonblocking (some n) = .ok (some nb) →
      n = "MPI_Reduce" ∧ is_mpi_collective_call (some n) = .ok (true, n, nb)) ∧
    (is_mpi_collective_call (some "MPI_Bcast") = .ok (true, "MPI_Bcast", "MPI_Ibcast") ∧
      ReplaceMPIReduce.nonblocking (some "MPI_Bcast") = .ok none) := by
  refine ⟨fun n => ?_, by decide, ⟨by decide, by decide⟩, ?_, by decide, by decide⟩
  · show Res.ok (is_mpi_collective_call_loop n mpi_collective_calls) = _
    by_cases h : n ∈ mpi_collective_calls
    · rw [loop_hit n h]
      exact congrArg Res.ok (if_pos h).symm
    · rw [loop_miss n h]
      exact congrArg Res.ok (if_neg h).symm
  · intro n nb h
    simp only [ReplaceMPIReduce] at h
    by_cases hn : n = "MPI_Reduce"
    · subst hn
      simp only [if_true, Res.ok.injEq, Option.some.injEq] at h
      subst h
      exact ⟨rfl, by decide⟩
    · simp [hn] at h

/-! ## C11: Scenario D, a missing declaration -/

/-- C11, counterexample (Scenario D). `main` calls `MPI_Allreduce`, which
`ReplaceMPIColl` matches with `MPI_Iallreduce`; `MPI_Iallreduce` is not a
function of the module. The pass does not leave the call unchanged in an
output program and reports nothing: the null result of
`M.getFunction("MPI_Iallreduce")` is dereferenced and the run yields no
program. -/
theorem C11_counterexample :
    scenarioD = ⟨[declaration "MPI_Allreduce", declaration "MPI_Wait",
      ⟨"main", [], [⟨[⟨0, "", .call (some "MPI_Allreduce")
        [.other 1, .other 2, .other 3, .other 4, .other 5, .other 6]⟩]⟩], 0⟩]⟩ ∧
    matched ReplaceMPIColl ⟨0, "", .call (some "MPI_Allreduce")
      [.other 1, .other 2, .other 3, .other 4, .other 5, .other 6]⟩ =
        some "MPI_Iallreduce" ∧
    "MPI_Iallreduce" ∉ scenarioD.funcs.map (fun F => F.name) ∧
    visitor ReplaceMPIColl exampleRand scenarioD exampleHeap = .fault .nullFunction ∧
    ¬ ∃ M' h', visitor ReplaceMPIColl exampleRand scenarioD exampleHeap = .ok (M', h') := by
  refine ⟨by decide, by decide, by decide, by decide, ?_⟩
  rintro ⟨M', h', hv⟩
  have hf : visitor ReplaceMPIColl exampleRand scenarioD exampleHeap = .fault .nullFunction := by
    decide
  rw [hf] at hv
  cases hv

/-- C11, amended. Neither pass checks for a missing declaration or reports an
error. A pass returns an output program exactly when every call of the module
has a called function and, for every matched call, the non-blocking function
and `MPI_Wait` are functions of the module; for a module with a matched call
whose non-blocking function or `MPI_Wait` is not declared it returns no
program (the run ends in a null pointer). In every program it does return,
each matched call site has its non-blocking call immediately followed by its
`MPI_Wait` call: no partial rewrite is left. -/
theorem C11_missing_declaration_amended (P : Pass)
    (hP : P = ReplaceMPIColl ∨ P = ReplaceMPIReduce)
    (rnd : Nat → Nat) (M : Module) (h : Heap) :
    (wellDeclared P M = true ↔ ∃ M' h', visitor P rnd M h = .ok (M', h')) ∧
    (∀ F ∈ M.funcs, ∀ BB ∈ F.blocks, ∀ I ∈ BB.insts, ∀ nb, matched P I = some nb →
      (nb ∉ M.funcs.map (fun F => F.name) ∨ "MPI_Wait" ∉ M.funcs.map (fun F => F.name)) →
      visitor P rnd M h = .fault .nullCallee ∨ visitor P rnd M h = .fault .nullFunction) ∧
    (∀ M' h', visitor P rnd M h = .ok (M', h') →
      Blockwise (fun _ BB BB' =>
        ∀ pre CI post nb, BB.insts = pre ++ CI :: post → matched P CI = some nb →
          ∃ pre' I_Call Wait_Call post' k,
            BB'.insts = pre' ++ I_Call :: Wait_Call :: post' ∧
            I_Call.op = .call (some nb) (operands CI ++ [.inst k]) ∧
            Wait_Call.op = .call (some "MPI_Wait") [.inst k, .inst (k + 1)]) M M') := by
  have hS : P.Sound := by
    rcases hP with rfl | rfl
    · exact ReplaceMPIColl_sound
    · exact ReplaceMPIReduce_sound
  obtain ⟨hiff, hfault⟩ := visitor_outcome hS rnd M h
  refine ⟨hiff, ?_, ?_⟩
  · intro F hF BB hBB I hI nb hm hd
    apply hfault
    cases hw : wellDeclared P M with
    | false => rfl
    | true =>
      exfalso
      have hr := (wellDeclared_iff P M).mp hw F hF BB hBB I hI
      obtain ⟨callee, Args, hop, hnb⟩ := matched_eq_some hm
      cases callee with
      | none => simp [runsOn, hop] at hr
      | some n =>
        simp only [runsOn, hop, hnb, Bool.and_eq_true, decide_eq_true_eq] at hr
        rcases hd with hd | hd
        · exact hd hr.1
        · exact hd hr.2
  · intro M' h' hv
    have hw := hiff.mpr ⟨M', h', hv⟩
    obtain ⟨M'', h'', hv', hb⟩ := visitor_blockwise hS rnd M h hw
    rw [hv] at hv'
    simp only [Res.ok.injEq, Prod.mk.injEq] at hv'
    obtain ⟨rfl, rfl⟩ := hv'
    refine hb.imp ?_
    rintro F F' ⟨hn, hbs⟩
    refine ⟨hn, hbs.imp ?_⟩
    rintro BB BB' ⟨outside, lu1, h1, lu2, h2, hvb, -, -, -⟩ pre CI post nb hBB hm
    obtain ⟨pre', k, n1, n2, n3, n4, tag, post', hi, -, -⟩ :=
      visitBlock_site_shape hS hvb hBB hm
    refine ⟨pre' ++ ⟨k, n1, .alloca .int32 0 (.constInt .int32 1)⟩ ::
      ⟨k + 1, n2, .alloca .int32 0 (.constInt .int32 1)⟩ :: tag,
      ⟨k + 2, n3, .call (some nb) (operands CI ++ [.inst k])⟩,
      ⟨k + 3, n4, .call (some "MPI_Wait") [.inst k, .inst (k + 1)]⟩, post', k, ?_, rfl, rfl⟩
    rw [hi]
    simp

/-- C11, witness: `ReplaceMPIColl` on Scenario D. -/
theorem C11_missing_declaration_amended_witness :
    (ReplaceMPIColl = ReplaceMPIColl ∨ ReplaceMPIColl = ReplaceMPIReduce) ∧
    (wellDeclared ReplaceMPIColl scenarioD = true ↔
      ∃ M' h', visitor ReplaceMPIColl exampleRand scenarioD exampleHeap = .ok (M', h')) ∧
    (∀ F ∈ scenarioD.funcs, ∀ BB ∈ F.blocks, ∀ I ∈ BB.insts, ∀ nb,
      matched ReplaceMPIColl I = some nb →
      (nb ∉ scenarioD.funcs.map (fun F => F.name) ∨
        "MPI_Wait" ∉ scenarioD.funcs.map (fun F => F.name)) →
      visitor ReplaceMPIColl exampleRand scenarioD exampleHeap = .fault .nullCallee ∨
        visitor ReplaceMPIColl exampleRand scenarioD exampleHeap = .fault .nullFunction) ∧
    (∀ M' h', visitor ReplaceMPIColl exampleRand scenarioD exampleHeap = .ok (M', h') →
      Blockwise (fun _ BB BB' =>
        ∀ pre CI post nb, BB.insts = pre ++ CI :: post →
          matched ReplaceMPIColl CI = some nb →
          ∃ pre' I_Call Wait_Call post' k,
            BB'.insts = pre' ++ I_Call :: Wait_Call :: post' ∧
            I_Call.op = .call (some nb) (operands CI ++ [.inst k]) ∧
            Wait_Call.op = .call (some "MPI_Wait") [.inst k, .inst (k + 1)]) scenarioD M') :=
  ⟨Or.inl rfl,
    C11_missing_declaration_amended ReplaceMPIColl (Or.inl rfl) exampleRand scenarioD
      exampleHeap⟩

/-! ## C12: a call without called function -/

/-- C12, the code at the failing input: a module whose function `main` makes
one indirect call, for which `getCalledFunction()` is null. Both passes
dereference the null pointer in `CI->getCalledFunction()->getName()`: the run
ends in that fault and yields no program, it does not pass the call over as
"not matched". -/
theorem C12_indirect_call_faults :
    scenarioIndirect = mainOnly "MPI_Reduce" "MPI_Ireduce"
      ⟨[⟨0, "", .call none [.other 1]⟩]⟩ 0 ∧
    is_mpi_collective_call none = .fault .nullCallee ∧
    visitor ReplaceMPIColl exampleRand scenarioIndirect exampleHeap = .fault .nullCallee ∧
    visitor ReplaceMPIReduce exampleRand scenarioIndirect exampleHeap = .fault .nullCallee := by
  decide

/-! ## C13: the reference rewrite -/

/-- C13, the code at the failing input (Scenario B, `ReplaceMPIColl`). Every
callee resolves, `MPI_Ibcast` and `MPI_Wait` are declared, and no instruction
is named with the deletion mark; the visit succeeds. The block it returns is
not the reference rewrite of the original block: the second `MPI_Bcast` call
is still there between its allocas and its `MPI_Ibcast` call (the defect of
C6). On Scenario A, with one matched call, the block returned is the reference
rewrite. -/
theorem C13_not_the_reference :
    wellDeclared ReplaceMPIColl scenarioB = true ∧
    (∀ F ∈ scenarioB.funcs, "MPI_Coll_To_Delete" ∉ getValueSymbolTable F) ∧
    scenarioB = mainOnly "MPI_Bcast" "MPI_Ibcast"
      ⟨[⟨0, "", .call (some "MPI_Bcast") [.other 1, .other 2, .other 3, .other 4, .other 5]⟩,
        ⟨1, "", .call (some "MPI_Bcast") [.other 6, .other 2, .other 3, .other 4, .other 5]⟩]⟩
      0 ∧
    visitor ReplaceMPIColl exampleRand scenarioB exampleHeap =
      .ok (mainOnly "MPI_Bcast" "MPI_Ibcast" scenarioB_block 1, ⟨108, 2⟩) ∧
    isReferenceRewrite ReplaceMPIColl
      [⟨0, "", .call (some "MPI_Bcast") [.other 1, .other 2, .other 3, .other 4, .other 5]⟩,
        ⟨1, "", .call (some "MPI_Bcast") [.other 6, .other 2, .other 3, .other 4, .other 5]⟩]
      scenarioB_block.insts = false ∧
    visitor ReplaceMPIColl exampleRand scenarioA exampleHeap =
      .ok (mainOnly "MPI_Reduce" "MPI_Ireduce" scenarioA_block 0, ⟨104, 1⟩) ∧
    isReferenceRewrite ReplaceMPIColl
      [⟨0, "", .call (some "MPI_Reduce")
        [.other 1, .other 2, .other 3, .other 4, .other 5, .other 6, .other 7]⟩]
      scenarioA_block.insts = true := by
  decide

/-! ## C14: the specialized pass and the general pass -/

/-- C14, the code at the failing input: `main` is one block with two calls to
`MPI_Reduce`, the only calls to catalog names; no instruction is named
`MPI_Coll_To_Delete` or `MPI_Reduce_To_Delete`; both passes get the same
`rand()` results and start from the same state. Both match the same two calls,
and both leave the second `MPI_Reduce` call in the block (the defect of C6),
renamed by `setName` from the pass's own mark: `MPI_Coll_To_Delete1` by
`ReplaceMPIColl`, `MPI_Reduce_To_Delete1` by `ReplaceMPIReduce`. The two output
programs differ. On every instruction, `ReplaceMPIReduce` matches exactly the
calls to `MPI_Reduce` among those `ReplaceMPIColl` matches, with the same
non-blocking name. -/
theorem C14_outputs_differ :
    (∀ F ∈ scenarioTwoReduce.funcs, ∀ BB ∈ F.blocks, ∀ I ∈ BB.insts,
      matched ReplaceMPIColl I = matched ReplaceMPIReduce I ∧
      I.name ≠ "MPI_Coll_To_Delete" ∧ I.name ≠ "MPI_Reduce_To_Delete") ∧
    visitor ReplaceMPIColl exampleRand scenarioTwoReduce exampleHeap =
      .ok (mainOnly "MPI_Reduce" "MPI_Ireduce"
        (scenarioTwoReduce_block "MPI_Coll_To_Delete1") 1, ⟨108, 2⟩) ∧
    visitor ReplaceMPIReduce exampleRand scenarioTwoReduce exampleHeap =
      .ok (mainOnly "MPI_Reduce" "MPI_Ireduce"
        (scenarioTwoReduce_block "MPI_Reduce_To_Delete1") 1, ⟨108, 2⟩) ∧
    mainOnly "MPI_Reduce" "MPI_Ireduce" (scenarioTwoReduce_block "MPI_Coll_To_Delete1") 1 ≠
      mainOnly "MPI_Reduce" "MPI_Ireduce" (scenarioTwoReduce_block "MPI_Reduce_To_Delete1") 1 ∧
    (∀ (I : Instruction) (nb : String), matched ReplaceMPIReduce I = some nb ↔
      (matched ReplaceMPIColl I = some nb ∧ ∃ Args, I.op = .call (some "MPI_Reduce") Args)) := by
  refine ⟨by decide, by decide, by decide, by decide, ?_⟩
  intro I nb
  constructor
  · intro h
    obtain ⟨callee, Args, hop, hm⟩ := matched_eq_some h
    cases callee with
    | none => simp [ReplaceMPIReduce] at hm
    | some n =>
      simp only [ReplaceMPIReduce] at hm
      by_cases hn : n = "MPI_Reduce"
      · subst hn
        simp only [if_true, Res.ok.injEq, Option.some.injEq] at hm
        subst hm
        exact ⟨matched_of_call hop (by decide), Args, hop⟩
      · simp [hn] at hm
  · rintro ⟨hc, Args, hop⟩
    have h1 : matched ReplaceMPIReduce I = some "MPI_Ireduce" :=
      matched_of_call hop (by decide)
    have h2 : matched ReplaceMPIColl I = some "MPI_Ireduce" :=
      matched_of_call hop (by decide)
    rw [h2] at hc
    rw [h1]
    exact hc

/-! ## C15: the rewritten sites stay contiguous during the scan -/

/-- C15 (intermediate-state invariant). For either pass and any block it can
process, the state after any number `k` of iterations of the forward scan
exists and has every call rewritten so far in its place (`SitesContiguous`):
the marked original call is immediately preceded by its request alloca and its
status alloca, in that order, and immediately followed by its non-blocking
call (on the operands of the original call and the request alloca), which is
immediately followed by its `MPI_Wait` call (on the two allocas). The scan
ends within the iterations allowed for, with the iterator at the end of the
block, and the same holds of the block it ends with, which holds as many
marked calls as the block had matched calls and is the block the reverse
sweep is then run on. -/
theorem C15_sites_contiguous (P : Pass) (hP : P = ReplaceMPIColl ∨ P = ReplaceMPIReduce)
    (decls : List String) (rnd : Nat → Nat) (outside : List String) (BB : BasicBlock)
    (lastUnique : Nat) (h : Heap) (hrun : ∀ I ∈ BB.insts, runsOn P decls I = true) :
    (∀ k, ∃ c, scanAt P decls rnd outside k ⟨[], BB.insts, lastUnique, h⟩ = .ok c ∧
      SitesContiguous P c) ∧
    (∃ c, scan P decls rnd outside (3 * BB.insts.length) ⟨[], BB.insts, lastUnique, h⟩ =
        .ok c ∧ c.todo = [] ∧ SitesContiguous P c ∧
      matchedCount P c.before = matchedCount P BB.insts ∧
      visitBlock P decls rnd outside BB lastUnique h =
        .ok (⟨sweep P.toDelete c.before⟩, c.lastUnique, c.heap)) := by
  have hS : P.Sound := by
    rcases hP with rfl | rfl
    · exact ReplaceMPIColl_sound
    · exact ReplaceMPIReduce_sound
  have h0 : SitesContiguous P ⟨[], BB.insts, lastUnique, h⟩ := by
    intro A T B nb hbef
    simp at hbef
  have hall : ∀ k, ∃ c, scanAt P decls rnd outside k ⟨[], BB.insts, lastUnique, h⟩ = .ok c ∧
      SitesContiguous P c ∧
      c.todo.length + 2 * matchedCount P c.todo =
        BB.insts.length + 2 * matchedCount P BB.insts - k ∧
      matchedCount P c.before + matchedCount P c.todo = matchedCount P BB.insts := by
    intro k
    obtain ⟨c, hc, -, hm, -, -, hn⟩ :=
      scanAt_counts hS decls rnd outside k ⟨[], BB.insts, lastUnique, h⟩ hrun
    refine ⟨c, hc, sitesContiguous_scanAt hS decls rnd outside k _ c hc h0, hm, ?_⟩
    simpa [matchedCount_nil] using hn
  refine ⟨fun k => ?_, ?_⟩
  · obtain ⟨c, hc, hi, -⟩ := hall k
    exact ⟨c, hc, hi⟩
  · obtain ⟨c, hc, hi, hm, hn⟩ := hall (3 * BB.insts.length)
    have hle := matchedCount_le P BB.insts
    have htodo : c.todo = [] := List.length_eq_zero.mp (by omega)
    have hscan := (scan_eq_scanAt P decls rnd outside _ _ c).mpr ⟨hc, htodo⟩
    refine ⟨c, hscan, htodo, hi, ?_, ?_⟩
    · rw [htodo, matchedCount_nil] at hn
      exact hn
    · simp only [visitBlock, hscan]

/-- C15, witness: the block of two `MPI_Bcast` calls of Scenario B under
`ReplaceMPIColl`. -/
theorem C15_sites_contiguous_witness :
    (∀ k, ∃ c, scanAt ReplaceMPIColl ["MPI_Bcast", "MPI_Ibcast", "MPI_Wait", "main"]
        exampleRand [] k
        ⟨[], [⟨0, "", .call (some "MPI_Bcast")
            [.other 1, .other 2, .other 3, .other 4, .other 5]⟩,
          ⟨1, "", .call (some "MPI_Bcast")
            [.other 6, .other 2, .other 3, .other 4, .other 5]⟩], 0, exampleHeap⟩ = .ok c ∧
      SitesContiguous ReplaceMPIColl c) ∧
    (∃ c, scan ReplaceMPIColl ["MPI_Bcast", "MPI_Ibcast", "MPI_Wait", "main"] exampleRand []
        (3 * 2)
        ⟨[], [⟨0, "", .call (some "MPI_Bcast")
            [.other 1, .other 2, .other 3, .other 4, .other 5]⟩,
          ⟨1, "", .call (some "MPI_Bcast")
            [.other 6, .other 2, .other 3, .other 4, .other 5]⟩], 0, exampleHeap⟩ = .ok c ∧
      c.todo = [] ∧ SitesContiguous ReplaceMPIColl c ∧
      matchedCount ReplaceMPIColl c.before = matchedCount ReplaceMPIColl
        [⟨0, "", .call (some "MPI_Bcast")
            [.other 1, .other 2, .other 3, .other 4, .other 5]⟩,
          ⟨1, "", .call (some "MPI_Bcast")
            [.other 6, .other 2, .other 3, .other 4, .other 5]⟩] ∧
      visitBlock ReplaceMPIColl ["MPI_Bcast", "MPI_Ibcast", "MPI_Wait", "main"] exampleRand []
        ⟨[⟨0, "", .call (some "MPI_Bcast")
            [.other 1, .other 2, .other 3, .other 4, .other 5]⟩,
          ⟨1, "", .call (some "MPI_Bcast")
            [.other 6, .other 2, .other 3, .other 4, .other 5]⟩]⟩ 0 exampleHeap =
        .ok (⟨sweep "MPI_Coll_To_Delete" c.before⟩, c.lastUnique, c.heap)) :=
  C15_sites_contiguous ReplaceMPIColl (Or.inl rfl)
    ["MPI_Bcast", "MPI_Ibcast", "MPI_Wait", "main"] exampleRand []
    ⟨[⟨0, "", .call (some "MPI_Bcast") [.other 1, .other 2, .other 3, .other 4, .other 5]⟩,
      ⟨1, "", .call (some "MPI_Bcast") [.other 6, .other 2, .other 3, .other 4, .other 5]⟩]⟩
    0 exampleHeap (by decide)

/-! ## C16: catalog closure and the number of iterations of the scan -/

/-- C16, counterexample: on the block of Scenario A (the single call
`MPI_Reduce(a1..a7)`) the forward scan of `ReplaceMPIColl` ends after three
iterations, on a block grown to five instructions. After the first iteration
the two allocas stand before the iterator, which is at the non-blocking call;
the iterations visit the original call, the non-blocking call and the wait
call, and never the two allocas. Two iterations do not end the loop. -/
theorem C16_counterexample :
    scanAt ReplaceMPIColl ["MPI_Reduce", "MPI_Ireduce", "MPI_Wait", "main"] exampleRand [] 1
        ⟨[], [⟨0, "", .call (some "MPI_Reduce")
          [.other 1, .other 2, .other 3, .other 4, .other 5, .other 6, .other 7]⟩],
          0, exampleHeap⟩ =
      .ok ⟨[⟨100, "mpi_req_41", .alloca .int32 0 (.constInt .int32 1)⟩,
          ⟨101, "mpi_status_41", .alloca .int32 0 (.constInt .int32 1)⟩,
          ⟨0, "MPI_Coll_To_Delete", .call (some "MPI_Reduce")
            [.other 1, .other 2, .other 3, .other 4, .other 5, .other 6, .other 7]⟩],
        [⟨102, "MPI_Ireduce_41", .call (some "MPI_Ireduce")
            [.other 1, .other 2, .other 3, .other 4, .other 5, .other 6, .other 7, .inst 100]⟩,
          ⟨103, "MPI_Wait_41", .call (some "MPI_Wait") [.inst 100, .inst 101]⟩],
        0, ⟨104, 1⟩⟩ ∧
    scan ReplaceMPIColl ["MPI_Reduce", "MPI_Ireduce", "MPI_Wait", "main"] exampleRand [] 2
        ⟨[], [⟨0, "", .call (some "MPI_Reduce")
          [.other 1, .other 2, .other 3, .other 4, .other 5, .other 6, .other 7]⟩],
          0, exampleHeap⟩ = .fault .outOfFuel ∧
    scan ReplaceMPIColl ["MPI_Reduce", "MPI_Ireduce", "MPI_Wait", "main"] exampleRand [] 3
        ⟨[], [⟨0, "", .call (some "MPI_Reduce")
          [.other 1, .other 2, .other 3, .other 4, .other 5, .other 6, .other 7]⟩],
          0, exampleHeap⟩ =
      .ok ⟨[⟨100, "mpi_req_41", .alloca .int32 0 (.constInt .int32 1)⟩,
          ⟨101, "mpi_status_41", .alloca .int32 0 (.constInt .int32 1)⟩,
          ⟨0, "MPI_Coll_To_Delete", .call (some "MPI_Reduce")
            [.other 1, .other 2, .other 3, .other 4, .other 5, .other 6, .other 7]⟩,
          ⟨102, "MPI_Ireduce_41", .call (some "MPI_Ireduce")
            [.other 1, .other 2, .other 3, .other 4, .other 5, .other 6, .other 7, .inst 100]⟩,
          ⟨103, "MPI_Wait_41", .call (some "MPI_Wait") [.inst 100, .inst 101]⟩],
        [], 0, ⟨104, 1⟩⟩ := by
  decide

/-- C16, amended (catalog closure, scan termination). No non-blocking name of
the catalog and not `MPI_Wait` is a blocking name of the catalog, the 16 names
of the lookup list are pairwise distinct and are the keys of the
block-to-nonblock map, in its order; so neither pass matches a call to a
function it has matched a call to its blocking counterpart of, nor a call to
`MPI_Wait`. On a block of `m` instructions of which `n` are matched calls, all
of which the pass can process, every iteration of the forward scan succeeds:
it either passes over an unmatched instruction, or rewrites a matched call,
leaving the two allocas and the marked call behind the iterator and the two new
calls, which it does not match, ahead of it. The scan ends after exactly
`m + 2 * n` iterations (each original instruction and each inserted call
visited once, the inserted allocas never) on a block of `m + 4 * n`
instructions, `rand()` having been called `n` times, once for each matched
call, and the marked calls being the only matched calls of the block. -/
theorem C16_scan_terminates_amended (P : Pass) (hP : P = ReplaceMPIColl ∨ P = ReplaceMPIReduce)
    (decls : List String) (rnd : Nat → Nat) (outside : List String) (BB : BasicBlock)
    (lastUnique : Nat) (h : Heap) (hrun : ∀ I ∈ BB.insts, runsOn P decls I = true) :
    ((∀ p ∈ mpi_coll_block2nonblock, p.2 ∉ mpi_collective_calls) ∧
      "MPI_Wait" ∉ mpi_collective_calls ∧ mpi_collective_calls.Nodup ∧
      mpi_collective_calls.length = 16 ∧
      mpi_coll_block2nonblock.map Prod.fst = mpi_collective_calls) ∧
    ((∀ callee nb, P.nonblocking callee = .ok (some nb) →
        P.nonblocking (some nb) = .ok none) ∧
      P.nonblocking (some "MPI_Wait") = .ok none) ∧
    (∀ k c I after,
      scanAt P decls rnd outside k ⟨[], BB.insts, lastUnique, h⟩ = .ok c →
      c.todo = I :: after →
      ∃ c', scanAt P decls rnd outside (k + 1) ⟨[], BB.insts, lastUnique, h⟩ = .ok c' ∧
        ((matched P I = none ∧ c'.before = c.before ++ [I] ∧ c'.todo = after) ∨
          (∃ nb req status CI I_Call Wait_Call, matched P I = some nb ∧
            c'.before = c.before ++ [req, status, CI] ∧
            c'.todo = I_Call :: Wait_Call :: after ∧
            CI.id = I.id ∧ CI.op = I.op ∧
            req.op = .alloca .int32 0 (.constInt .int32 1) ∧
            status.op = .alloca .int32 0 (.constInt .int32 1) ∧
            I_Call.op = .call (some nb) (operands I ++ [.inst req.id]) ∧
            Wait_Call.op = .call (some "MPI_Wait") [.inst req.id, .inst status.id] ∧
            matched P I_Call = none ∧ matched P Wait_Call = none))) ∧
    (∀ k, ∃ c, scanAt P decls rnd outside k ⟨[], BB.insts, lastUnique, h⟩ = .ok c ∧
      (k < BB.insts.length + 2 * matchedCount P BB.insts →
        c.todo ≠ [] ∧
        scan P decls rnd outside k ⟨[], BB.insts, lastUnique, h⟩ = .fault .outOfFuel) ∧
      (BB.insts.length + 2 * matchedCount P BB.insts ≤ k →
        c.todo = [] ∧
        scan P decls rnd outside k ⟨[], BB.insts, lastUnique, h⟩ = .ok c ∧
        c.before.length = BB.insts.length + 4 * matchedCount P BB.insts ∧
        c.heap.randCalls = h.randCalls + matchedCount P BB.insts ∧
        matchedCount P c.before = matchedCount P BB.insts)) ∧
    BB.insts.length + 2 * matchedCount P BB.insts ≤ 3 * BB.insts.length := by
  have hS : P.Sound := by
    rcases hP with rfl | rfl
    · exact ReplaceMPIColl_sound
    · exact ReplaceMPIReduce_sound
  refine ⟨⟨by decide, by decide, by decide, rfl, rfl⟩, ⟨hS.closed, hS.wait⟩, ?_, ?_, ?_⟩
  · intro k c I after hk hc
    obtain ⟨c0, hk0, hrun0, -⟩ :=
      scanAt_counts hS decls rnd outside k ⟨[], BB.insts, lastUnique, h⟩ hrun
    rw [hk] at hk0
    cases hk0
    obtain ⟨c', hs⟩ := step_ok_of_runsOn rnd outside hc
      (hrun0 I (by rw [hc]; exact List.mem_cons_self _ _))
    refine ⟨c', ?_, ?_⟩
    · rw [scanAt_snoc, hk]
      exact hs
    · rcases step_cases hc hs with ⟨hm, rfl⟩ | ⟨callee, Args, nb, r, hop, hnb, hr, rfl⟩
      · exact Or.inl ⟨hm, rfl, rfl⟩
      · obtain ⟨n1, n2, n3, n4, n5, q1, q2, q3, q4, q5, -⟩ := rewriteCall_shape hr
        have hI : matched P I = some nb := matched_of_call hop hnb
        refine Or.inr ⟨nb, r.mpi_req, r.mpi_status, r.CI, r.MPI_I_Call, r.MPI_Wait_Call,
          hI, rfl, rfl, ?_, ?_, ?_, ?_, ?_, ?_, ?_, ?_⟩
        · rw [q5]
        · rw [q5]
        · rw [q1]
        · rw [q2]
        · rw [q3, q1, operands_of_call hop]
        · rw [q4, q1, q2]
        · exact matched_synth_none hS hI (by rw [q3])
        · exact matched_wait_none hS (by rw [q4])
  · intro k
    obtain ⟨c, hk, -, f2, f3, f4, f5⟩ :=
      scanAt_counts hS decls rnd outside k ⟨[], BB.insts, lastUnique, h⟩ hrun
    simp only [List.length_nil, matchedCount_nil, Nat.zero_add] at f2 f3 f4 f5
    refine ⟨c, hk, ?_, ?_⟩
    · intro hlt
      have hne : c.todo ≠ [] := by
        intro hnil
        rw [hnil] at f2
        simp only [List.length_nil, matchedCount_nil] at f2
        omega
      exact ⟨hne, scan_outOfFuel P decls rnd outside k _ c hk hne⟩
    · intro hle
      have hnil : c.todo = [] := List.length_eq_zero.mp (by omega)
      rw [hnil] at f3 f4 f5
      simp only [List.length_nil, matchedCount_nil, Nat.add_zero, Nat.mul_zero] at f3 f4 f5
      exact ⟨hnil, (scan_eq_scanAt P decls rnd outside _ _ c).mpr ⟨hk, hnil⟩, f3, f4, f5⟩
  · have := matchedCount_le P BB.insts
    omega

/-- C16, witness: the block of two `MPI_Bcast` calls of Scenario B under
`ReplaceMPIColl`. -/
theorem C16_scan_terminates_amended_witness :
    (∀ I ∈ ([⟨0, "", .call (some "MPI_Bcast")
            [.other 1, .other 2, .other 3, .other 4, .other 5]⟩,
          ⟨1, "", .call (some "MPI_Bcast")
            [.other 6, .other 2, .other 3, .other 4, .other 5]⟩] : List Instruction),
      runsOn ReplaceMPIColl ["MPI_Bcast", "MPI_Ibcast", "MPI_Wait", "main"] I = true) ∧
    ∃ c, scan ReplaceMPIColl ["MPI_Bcast", "MPI_Ibcast", "MPI_Wait", "main"] exampleRand []
        (2 + 2 * 2)
        ⟨[], [⟨0, "", .call (some "MPI_Bcast")
            [.other 1, .other 2, .other 3, .other 4, .other 5]⟩,
          ⟨1, "", .call (some "MPI_Bcast")
            [.other 6, .other 2, .other 3, .other 4, .other 5]⟩], 0, exampleHeap⟩ = .ok c ∧
      c.before.length = 2 + 4 * 2 ∧ c.heap.randCalls = 0 + 2 :=
  ⟨by decide,
    (((C16_scan_terminates_amended ReplaceMPIColl (Or.inl rfl)
      ["MPI_Bcast", "MPI_Ibcast", "MPI_Wait", "main"] exampleRand []
      ⟨[⟨0, "", .call (some "MPI_Bcast") [.other 1, .other 2, .other 3, .other 4, .other 5]⟩,
        ⟨1, "", .call (some "MPI_Bcast") [.other 6, .other 2, .other 3, .other 4, .other 5]⟩]⟩
      0 exampleHeap (by decide)).2.2.2.1 (2 + 2 * 2)).imp
      (fun _ hc => ⟨(hc.2.2 (by decide)).2.1, (hc.2.2 (by decide)).2.2.1,
        (hc.2.2 (by decide)).2.2.2.1⟩))⟩

/-! ## C17: the sweep is a filter by name -/

/-- C17 (the sweep is a filter by name that never hits synthesized
instructions). The reverse sweep removes from a block exactly the instructions
whose name equals the deletion mark and keeps all others in their order. For
every integer `id` and every name `n` (in particular every non-blocking name of
the catalog), none of `name_id("mpi_req", id)`, `name_id("mpi_status", id)`,
`name_id(n, id)`, `name_id("MPI_Wait", id)` equals `MPI_Coll_To_Delete` or
`MPI_Reduce_To_Delete`. And the sweep of either pass never erases one of the
four instructions made for a call site, whatever names they were given. -/
theorem C17_sweep_is_filter :
    (∀ (toDelete : String) (insts : List Instruction),
      sweep toDelete insts = insts.filter (fun I => decide (I.name ≠ toDelete))) ∧
    (∀ (id : Int) (n : String),
      ∀ s ∈ [name_id "mpi_req" id, name_id "mpi_status" id, name_id n id,
          name_id "MPI_Wait" id],
        s ≠ "MPI_Coll_To_Delete" ∧ s ≠ "MPI_Reduce_To_Delete") ∧
    (∀ P : Pass, P = ReplaceMPIColl ∨ P = ReplaceMPIReduce →
      ∀ (decls : List String) (rnd : Nat → Nat) (outside : List String)
        (before : List Instruction) (CI : Instruction) (Args : List Value) (nb : String)
        (after : List Instruction) (lastUnique : Nat) (h : Heap) (r : Rewritten),
        rewriteCall P.toDelete decls rnd outside before CI Args nb after lastUnique h = .ok r →
        ∀ (l : List Instruction),
          ∀ I ∈ [r.mpi_req, r.mpi_status, r.MPI_I_Call, r.MPI_Wait_Call],
            I ∈ l → I ∈ sweep P.toDelete l) := by
  refine ⟨sweep_eq_filter, ?_, ?_⟩
  · intro id n s hs
    have hd : endsInDigit s := by
      simp only [List.mem_cons, List.mem_singleton, List.not_mem_nil, or_false] at hs
      rcases hs with rfl | rfl | rfl | rfl <;> exact endsInDigit_name_id_int _ _
    exact ⟨endsInDigit_ne_of_not hd not_endsInDigit_coll,
      endsInDigit_ne_of_not hd not_endsInDigit_reduce⟩
  · intro P hP decls rnd outside before CI Args nb after lastUnique h r hr l I hI hl
    have hS : P.Sound := by
      rcases hP with rfl | rfl
      · exact ReplaceMPIColl_sound
      · exact ReplaceMPIReduce_sound
    have hn := rewriteCall_names hr
    have hd : endsInDigit I.name := by
      simp only [List.mem_cons, List.mem_singleton, List.not_mem_nil, or_false] at hI
      rcases hI with rfl | rfl | rfl | rfl
      · exact hn.1
      · exact hn.2.1
      · exact hn.2.2.1
      · exact hn.2.2.2
    rw [sweep_eq_filter, List.mem_filter]
    exact ⟨hl, by simpa using endsInDigit_ne_of_not hd hS.mark⟩

/-! ## C18: `name_id` -/

/-- C18, counterexample. In Scenario B with `rand()` returning 7 at both call
sites, the two sites drew the same id, and their request and status allocas
do not have the same names: the second site asks for `mpi_req_7` and
`mpi_status_7`, which are taken, and `setName` gives it `mpi_req_71` and
`mpi_status_72`. -/
theorem C18_counterexample :
    visitor ReplaceMPIColl (fun _ => 7) scenarioB exampleHeap =
      .ok (mainOnly "MPI_Bcast" "MPI_Ibcast" scenarioB_block_sameId 5, ⟨108, 2⟩) ∧
    name_id "mpi_req" (Int.ofNat ((fun _ => 7) 0)) =
      name_id "mpi_req" (Int.ofNat ((fun _ => 7) 1)) ∧
    scenarioB_block_sameId.insts.map (fun I => (I.id, I.name)) =
      [(100, "mpi_req_7"), (101, "mpi_status_7"), (102, "MPI_Ibcast_7"), (103, "MPI_Wait_7"),
        (104, "mpi_req_71"), (105, "mpi_status_72"), (1, "MPI_Coll_To_Delete5"),
        (106, "MPI_Ibcast_73"), (107, "MPI_Wait_74")] ∧
    "mpi_req_7" ≠ "mpi_req_71" ∧ "mpi_status_7" ≠ "mpi_status_72" := by
  decide

/-- C18, amended (`name_id`). `name_id(a, b)` is `a` followed by `_` followed
by the decimal rendering of `b` (the digits of `b`, after a `-` when `b` is
negative); for a fixed prefix it is injective in the integer; and
`name_id("mpi_req", b1)` never equals `name_id("mpi_status", b2)`. Hence the
names asked for at two call sites coincide exactly when the two sites drew the
same random id. The names the allocas get are made unique by `setName`: for
either pass, every module it can process and every two matched calls of one
block, the request and status allocas of the two sites have four pairwise
distinct names, whatever ids the sites drew. -/
theorem C18_name_id_amended (P : Pass) (hP : P = ReplaceMPIColl ∨ P = ReplaceMPIReduce)
    (rnd : Nat → Nat) (M : Module) (h : Heap) (hw : wellDeclared P M = true) :
    (∀ (a : String) (b : Int), name_id a b = a ++ "_" ++ toString b) ∧
    (∀ n : Nat, toString (Int.ofNat n) = toString n ∧ readDigits (toString n).data = n ∧
      toString (Int.negSucc n) = "-" ++ toString (n + 1)) ∧
    (∀ (p : String) (b1 b2 : Int), name_id p b1 = name_id p b2 ↔ b1 = b2) ∧
    (∀ b1 b2 : Int, name_id "mpi_req" b1 ≠ name_id "mpi_status" b2) ∧
    ∃ M' h', visitor P rnd M h = .ok (M', h') ∧
      Blockwise (fun _ BB BB' =>
        ∀ pre b1 mid b2 post nb1 nb2, BB.insts = pre ++ b1 :: (mid ++ b2 :: post) →
          matched P b1 = some nb1 → matched P b2 = some nb2 →
          ∃ pre' req1 st1 mid' req2 st2 post',
            BB'.insts = pre' ++ req1 :: st1 :: (mid' ++ req2 :: st2 :: post') ∧
            req1.op = .alloca .int32 0 (.constInt .int32 1) ∧
            st1.op = .alloca .int32 0 (.constInt .int32 1) ∧
            req2.op = .alloca .int32 0 (.constInt .int32 1) ∧
            st2.op = .alloca .int32 0 (.constInt .int32 1) ∧
            h.nextId ≤ req1.id ∧ st1.id = req1.id + 1 ∧
            req1.id + 4 ≤ req2.id ∧ st2.id = req2.id + 1 ∧
            [req1.name, st1.name, req2.name, st2.name].Nodup) M M' := by
  have hS : P.Sound := by
    rcases hP with rfl | rfl
    · exact ReplaceMPIColl_sound
    · exact ReplaceMPIReduce_sound
  refine ⟨fun _ _ => rfl, fun n => ⟨rfl, readDigits_toString n, rfl⟩,
    fun p b1 b2 => ⟨name_id_injective p, fun e => by rw [e]⟩, name_id_req_ne_status, ?_⟩
  obtain ⟨M', h', hv, hb⟩ := visitor_blockwise hS rnd M h hw
  refine ⟨M', h', hv, hb.imp ?_⟩
  rintro F F' ⟨hn, hbs⟩
  refine ⟨hn, hbs.imp ?_⟩
  rintro BB BB' ⟨outside, lu1, h1, lu2, h2, hvb, hle, -, -⟩ pre b1 mid b2 post nb1 nb2 hBB
    hm1 hm2
  obtain ⟨pre', k1, n1, n2, n3, n4, tag1, mid', k2, m1, m2, m3, m4, tag2, post', hi, -,
    -, hk1, hk2, d1, d2, d3, d4, d5, d6⟩ := visitBlock_two_sites hS hvb hBB hm1 hm2
  refine ⟨pre', ⟨k1, n1, .alloca .int32 0 (.constInt .int32 1)⟩,
    ⟨k1 + 1, n2, .alloca .int32 0 (.constInt .int32 1)⟩,
    tag1 ++ ⟨k1 + 2, n3, .call (some nb1) (operands b1 ++ [.inst k1])⟩ ::
      ⟨k1 + 3, n4, .call (some "MPI_Wait") [.inst k1, .inst (k1 + 1)]⟩ :: mid',
    ⟨k2, m1, .alloca .int32 0 (.constInt .int32 1)⟩,
    ⟨k2 + 1, m2, .alloca .int32 0 (.constInt .int32 1)⟩,
    tag2 ++ ⟨k2 + 2, m3, .call (some nb2) (operands b2 ++ [.inst k2])⟩ ::
      ⟨k2 + 3, m4, .call (some "MPI_Wait") [.inst k2, .inst (k2 + 1)]⟩ :: post',
    ?_, rfl, rfl, rfl, rfl, ?_, rfl, hk2, rfl, ?_⟩
  · rw [hi]
    simp
  · show h.nextId ≤ k1
    omega
  · simp only [List.nodup_cons, List.mem_cons, List.mem_singleton, List.not_mem_nil,
      not_or, List.nodup_nil, and_true, not_false_eq_true]
    exact ⟨⟨d1, d2, d3⟩, ⟨d4, d5⟩, d6⟩

/-- C18, witness: `ReplaceMPIColl` on Scenario B, `rand()` returning 7 at
both sites. -/
theorem C18_name_id_amended_witness :
    (ReplaceMPIColl = ReplaceMPIColl ∨ ReplaceMPIColl = ReplaceMPIReduce) ∧
    wellDeclared ReplaceMPIColl scenarioB = true ∧
    (∀ (a : String) (b : Int), name_id a b = a ++ "_" ++ toString b) ∧
    (∀ n : Nat, toString (Int.ofNat n) = toString n ∧ readDigits (toString n).data = n ∧
      toString (Int.negSucc n) = "-" ++ toString (n + 1)) ∧
    (∀ (p : String) (b1 b2 : Int), name_id p b1 = name_id p b2 ↔ b1 = b2) ∧
    (∀ b1 b2 : Int, name_id "mpi_req" b1 ≠ name_id "mpi_status" b2) ∧
    ∃ M' h', visitor ReplaceMPIColl (fun _ => 7) scenarioB exampleHeap = .ok (M', h') ∧
      Blockwise (fun _ BB BB' =>
        ∀ pre b1 mid b2 post nb1 nb2, BB.insts = pre ++ b1 :: (mid ++ b2 :: post) →
          matched ReplaceMPIColl b1 = some nb1 → matched ReplaceMPIColl b2 = some nb2 →
          ∃ pre' req1 st1 mid' req2 st2 post',
            BB'.insts = pre' ++ req1 :: st1 :: (mid' ++ req2 :: st2 :: post') ∧
            req1.op = .alloca .int32 0 (.constInt .int32 1) ∧
            st1.op = .alloca .int32 0 (.constInt .int32 1) ∧
            req2.op = .alloca .int32 0 (.constInt .int32 1) ∧
            st2.op = .alloca .int32 0 (.constInt .int32 1) ∧
            exampleHeap.nextId ≤ req1.id ∧ st1.id = req1.id + 1 ∧
            req1.id + 4 ≤ req2.id ∧ st2.id = req2.id + 1 ∧
            [req1.name, st1.name, req2.name, st2.name].Nodup) scenarioB M' :=
  ⟨Or.inl rfl, by decide,
    C18_name_id_amended ReplaceMPIColl (Or.inl rfl) (fun _ => 7) scenarioB exampleHeap
      (by decide)⟩

end MPINonblock
